import Mathlib

/-!
# Split-KV combine pipeline (`BlockFmhaFwdSplitKVCombinePipeline`)

A shallow embedding of
`include/ck_tile/ops/fmha/pipeline/block_fmha_fwd_splitkv_combine_pipeline.hpp`.

* Element values (`LSEDataType`, `OaccDataType`) are modelled by `Val R`: an exact number of
  the ordered field `R`, one of the two infinities, or NaN.  Rounding is abstracted away, the
  special values follow IEEE-754.  The definitions are generic in `R` and in the functions
  `exp`, `log`, so they run on `ℚ`; the theorems instantiate `R := ℝ`, `Real.exp`, `Real.log`.
* A distributed tile is modelled by the function from its logical `(row, column)` coordinate to
  the element stored there; a sweep over the distributed spans visits every logical coordinate of
  the tile once, so it is a pointwise definition.
-/

namespace ck_tile

/-- Value of a floating-point element with rounding abstracted away. -/
inductive Val (R : Type) where
  | nan : Val R
  | negInf : Val R
  | posInf : Val R
  | fin (x : R) : Val R
  deriving DecidableEq

namespace Val

variable {R : Type} [LinearOrderedField R]

/-- Addition `e0 + e1` of two element values (IEEE-754 on the special values). -/
def add : Val R → Val R → Val R
  | fin x, fin y => fin (x + y)
  | fin _, negInf => negInf
  | fin _, posInf => posInf
  | negInf, fin _ => negInf
  | negInf, negInf => negInf
  | posInf, fin _ => posInf
  | posInf, posInf => posInf
  | negInf, posInf => nan
  | posInf, negInf => nan
  | nan, _ => nan
  | fin _, nan => nan
  | negInf, nan => nan
  | posInf, nan => nan

/-- Unary minus. -/
def neg : Val R → Val R
  | fin x => fin (-x)
  | negInf => posInf
  | posInf => negInf
  | nan => nan

/-- Subtraction `e0 - e1`. -/
def sub (a b : Val R) : Val R := add a (neg b)

/-- The infinity with the sign of `x`, NaN for `x = 0`: the product of `+inf` with `x`. -/
def infTimes (x : R) : Val R :=
  if x = 0 then nan else if 0 < x then posInf else negInf

/-- Multiplication `e0 * e1` (IEEE-754 on the special values: `0 * inf` is NaN). -/
def mul : Val R → Val R → Val R
  | fin x, fin y => fin (x * y)
  | fin x, posInf => infTimes x
  | fin x, negInf => infTimes (-x)
  | posInf, fin y => infTimes y
  | negInf, fin y => infTimes (-y)
  | posInf, posInf => posInf
  | negInf, negInf => posInf
  | posInf, negInf => negInf
  | negInf, posInf => negInf
  | nan, _ => nan
  | fin _, nan => nan
  | negInf, nan => nan
  | posInf, nan => nan

/-- Comparison `e0 > e1`; false as soon as one side is NaN. -/
def gt : Val R → Val R → Bool
  | fin x, fin y => decide (y < x)
  | fin _, negInf => true
  | posInf, fin _ => true
  | posInf, negInf => true
  | _, _ => false

/-- Comparison `e0 == e1` of floating-point values; false as soon as one side is NaN. -/
def eqv : Val R → Val R → Bool
  | fin x, fin y => decide (x = y)
  | negInf, negInf => true
  | posInf, posInf => true
  | _, _ => false

/-- Modelled from the spec: `ck_tile::max` is declared in `ck_tile/core`, which is not part of
the sources at hand; it is the usual `e0 > e1 ? e0 : e1`. -/
def max (e0 e1 : Val R) : Val R := if gt e0 e1 then e0 else e1

/-- Modelled from the spec: `ck_tile::exp` on element values, `exp` being the exponential of
the number type.  `exp(-inf) = 0`, `exp(+inf) = +inf`, `exp(NaN) = NaN`.  With the exact
exponential a finite argument never gives `0`; the underflow of the `float` exponential is
what `exp_underflow` adds. -/
def vexp (exp : R → R) : Val R → Val R
  | fin x => fin (exp x)
  | negInf => fin 0
  | posInf => posInf
  | nan => nan

/-- Modelled from the spec: `ck_tile::log` on element values, `log` being the logarithm of the
number type.  `log(0) = -inf`, `log` of a negative number or of `-inf` is NaN. -/
def vlog (log : R → R) : Val R → Val R
  | fin x => if x < 0 then nan else if x = 0 then negInf else fin (log x)
  | negInf => nan
  | posInf => posInf
  | nan => nan

/-- The number carried by a finite value, `0` for the special values. -/
def toR : Val R → R
  | fin x => x
  | _ => 0

/-- The value is a finite number. -/
def IsFin : Val R → Prop
  | fin _ => True
  | _ => False

/-- The value is a finite number or `-inf`: the range of a well-formed LSE statistic. -/
def IsLSE : Val R → Prop
  | fin _ => True
  | negInf => True
  | _ => False

instance : Zero (Val R) := ⟨fin 0⟩

instance : Add (Val R) := ⟨add⟩

instance : Sub (Val R) := ⟨sub⟩

instance : Mul (Val R) := ⟨mul⟩

/-- Element values under `+`, with `fin 0` for zero: addition is associative and commutative
also on the special values, so sums over splits can be written with `∑`. -/
instance : AddCommMonoid (Val R) where
  add := add
  zero := fin 0
  add_assoc a b c := by
    show add (add a b) c = add a (add b c)
    cases a <;> cases b <;> cases c <;> simp [add, add_assoc]
  zero_add a := by
    show add (fin 0) a = a
    cases a <;> simp [add]
  add_zero a := by
    show add a (fin 0) = a
    cases a <;> simp [add]
  add_comm a b := by
    show add a b = add b a
    cases a <;> cases b <;> simp [add, add_comm]
  nsmul := nsmulRec

end Val

/-- A tile, indexed by its logical `(row, column)` coordinate. -/
abbrev Tile (R : Type) := Nat → Nat → Val R

/-- A tile of rank one (one value per row), the result of reducing a tile along its columns. -/
abbrev RowTile (R : Type) := Nat → Val R

/-- The compile-time parameters of `Problem` that the pipeline reads.  A block has at least one
warp. -/
structure Problem where
  kM0 : Nat
  kN1 : Nat
  kMaxSplits : Nat
  kNumWarps : Nat
  kStoreLSE : Bool
  kNumWarps_pos : 0 < kNumWarps

/-- Modelled from the spec: `integer_divide_ceil` is declared in `ck_tile/core`, which is not
part of the sources at hand; it rounds the quotient up, `(x + y - 1) / y`. -/
def integer_divide_ceil (x y : Nat) : Nat := (x + y - 1) / y

/-- Left-to-right reduction of the first `n` columns of one row with `f`, starting from
`init`. -/
def reduce_row {R : Type} (f : Val R → Val R → Val R) (init : Val R) (v : Nat → Val R) :
    Nat → Val R
  | 0 => init
  | n + 1 => f (reduce_row f init v n) (v n)

/-- Modelled from the spec: `block_tile_reduce` followed by `block_tile_reduce_sync` (declared in
`ck_tile/ops/reduce/block/block_reduce.hpp`, not part of the sources at hand) collapses a tile
of `ncols` columns along its columns with `f`, starting from the neutral element `init`; every
lane ends up with the reduced value of its rows.  The order in which lanes are combined is
abstracted to column order. -/
def block_tile_reduce {R : Type} (ncols : Nat) (t : Tile R) (f : Val R → Val R → Val R)
    (init : Val R) : RowTile R :=
  fun row => reduce_row f init (t row) ncols

/-- The loop `for(split_start = s; split_start < padded; split_start += W) st = body(st)`. -/
def for_splits {σ : Type} (W padded : Nat) (hW : 0 < W) (body : Nat → σ → σ) (s : Nat)
    (st : σ) : σ :=
  if s < padded then for_splits W padded hW body (s + W) (body s st) else st
termination_by padded - s
decreasing_by omega

namespace detail

/-- The template `detail::log2<N>` (lines 12-44): declared for every `N`, defined for
`N = 4, 8, 16, 32, 64, 128` only; for any other `N` the member `value` does not exist. -/
def log2 (N : Int) : Option Int :=
  if N = 4 then some 2
  else if N = 8 then some 3
  else if N = 16 then some 4
  else if N = 32 then some 5
  else if N = 64 then some 6
  else if N = 128 then some 7
  else none

end detail

namespace BlockFmhaFwdSplitKVCombinePipeline

/-- The element `occupancy[i]` of a `constexpr std::array`; an index outside the array is not a
constant expression, so no value is produced. -/
def occupancy_at (occupancy : List Int) (i : Int) : Option Int :=
  if 0 ≤ i then occupancy[i.toNat]? else none

/-- The constant `kBlockPerCu` (lines 79-100), the value the immediately invoked lambda
returns, for the three compile-time parameters it reads; `none` when the lambda produces no
value (no `return` is reached, or `detail::log2<kMaxSplits>::value` does not exist). -/
def kBlockPerCu (Problem_kBlockPerCu kHeadDimV kMaxSplits : Int) : Option Int :=
  if Problem_kBlockPerCu ≠ -1 then some Problem_kBlockPerCu
  else if kHeadDimV ≤ 32 then
    (detail.log2 kMaxSplits).bind (fun value => occupancy_at [3, 3, 3, 3, 3, 1] (value - 2))
  else if kHeadDimV ≤ 128 then
    (detail.log2 kMaxSplits).bind (fun value => occupancy_at [3, 3, 3, 3, 2, 1] (value - 2))
  else if kHeadDimV ≤ 256 then
    (detail.log2 kMaxSplits).bind (fun value => occupancy_at [2, 2, 2, 2, 2, 1] (value - 2))
  else none

/-- What one call of `operator()` receives.
* `lse_acc`: the tile `load_tile(lse_acc_dram_window)` yields, shape `[kMaxSplits, kM0]`,
  indexed `(split, row)`;
* `o_acc`: the bulk view behind `o_acc_dram_block_window_tmp`, indexed by (row, column)
  relative to the window origin; the rows of split `s` are `s * kM0 .. s * kM0 + kM0 - 1`;
* `lse_dram`: the merged-LSE destination, indexed by row, before the call;
* `num_splits`: the run-time number of splits;
* `smem`: the contents of the scratch LSE region before the call, indexed like `lse_acc_lds`. -/
structure Inputs (R : Type) where
  lse_acc : Tile R
  o_acc : Tile R
  lse_dram : RowTile R
  num_splits : Nat
  smem : Tile R

/-- What one call of `operator()` leaves behind: the returned tile and the merged-LSE
destination after the call. -/
structure Outputs (R : Type) where
  o_acc : Tile R
  lse_dram : RowTile R

variable {R : Type} [LinearOrderedField R]

/-- The scratch LSE tile after `store_tile(lse_acc_lds_write_window, lse_acc_tile)`, read
through the accessor `lse_acc_lds(row, col)`: written as `[kMaxSplits, kM0]`, read as
`[kM0, kMaxSplits]`.  Outside the tile the scratch keeps its previous contents. -/
def lse_acc_lds (p : Problem) (inp : Inputs R) : Tile R :=
  fun row col => if row < p.kM0 ∧ col < p.kMaxSplits then inp.lse_acc col row else inp.smem row col

/-- The register tile `lse_accum` after the load-and-pad sweep (lines 154-175). -/
def lse_accum (p : Problem) (inp : Inputs R) : Tile R :=
  fun row col => if col < inp.num_splits then lse_acc_lds p inp row col else Val.negInf

/-- The row maximum `lse_max` (lines 181-183). -/
def lse_max (p : Problem) (inp : Inputs R) : RowTile R :=
  block_tile_reduce p.kMaxSplits (lse_accum p inp) Val.max Val.negInf

/-- The tile `lse_exp` (lines 185-207). -/
def lse_exp (p : Problem) (exp : R → R) (inp : Inputs R) : Tile R :=
  fun row col =>
    if Val.eqv (lse_max p inp row) Val.negInf then Val.fin 0
    else Val.vexp exp (lse_accum p inp row col - lse_max p inp row)

/-- The row sum `lse_sum` (lines 209-211). -/
def lse_sum (p : Problem) (exp : R → R) (inp : Inputs R) : RowTile R :=
  block_tile_reduce p.kMaxSplits (lse_exp p exp inp) (fun e0 e1 => e0 + e1) (Val.fin 0)

/-- The merged statistic `lse_logsum` (lines 213-224). -/
def lse_logsum (p : Problem) (exp log : R → R) (inp : Inputs R) : RowTile R :=
  fun row =>
    if Val.eqv (lse_sum p exp inp row) (Val.fin 0) then Val.negInf
    else Val.vlog log (lse_sum p exp inp row) + lse_max p inp row

/-- The scratch LSE tile after the lse scales are stored (lines 226-267), read through
`lse_acc_lds(row, col)`. -/
def lse_scales (p : Problem) (exp log : R → R) (inp : Inputs R) : Tile R :=
  fun row col =>
    if row < p.kM0 ∧ col < p.kMaxSplits ∧ col < inp.num_splits then
      if Val.eqv (lse_logsum p exp log inp row) Val.negInf then Val.fin 0
      else Val.vexp exp (lse_accum p inp row col - lse_logsum p exp log inp row)
    else lse_acc_lds p inp row col

/-- The loop bound `padded_num_splits` (line 285) as a natural number, without the 32-bit
range of `index_t`; `padded_num_splits_index_t` is the value computed in `index_t`, the same
as long as `num_splits + kNumWarps - 1` fits. -/
def padded_num_splits (p : Problem) (num_splits : Nat) : Nat :=
  integer_divide_ceil num_splits p.kNumWarps * p.kNumWarps

/-- The state the accumulation loop carries: the row origin of `o_acc_4_dram_window` and the
running sums `o_acc_4`, shape `[kNumWarps * kM0, kN1]`. -/
structure AccState (R : Type) where
  window_row : Nat
  o_acc_4 : Tile R

/-- Modelled from the spec: `MakeOacc4DramTileDistribution` is declared in the default policy,
which is not part of the sources at hand; by the comment "each warp handles a [KM0, kN1] tile"
the lanes of warp `w` own the rows `w * kM0 .. w * kM0 + kM0 - 1` of `o_acc_4`.  This is
`get_warp_id()` of the lane that owns `row`. -/
def get_warp_id (p : Problem) (row : Nat) : Nat := row / p.kM0

/-- One iteration of the accumulation loop (lines 291-311). -/
def accumulate_body (p : Problem) (lds : Tile R) (o_acc_dram : Tile R) (split_start : Nat)
    (st : AccState R) : AccState R :=
  ⟨st.window_row + p.kNumWarps * p.kM0,
   fun row c =>
     let o_tile := o_acc_dram (st.window_row + row) c
     let i_split := split_start + get_warp_id p row
     let row_start := p.kM0 * get_warp_id p row
     let lse_scale := lds (row - row_start) i_split
     st.o_acc_4 row c + lse_scale * o_tile⟩

/-- The running sums `o_acc_4` after the accumulation loop (lines 282-312). -/
def o_acc_4 (p : Problem) (exp log : R → R) (inp : Inputs R) : Tile R :=
  (for_splits p.kNumWarps (padded_num_splits p inp.num_splits) p.kNumWarps_pos
    (accumulate_body p (lse_scales p exp log inp) inp.o_acc) 0 ⟨0, fun _ _ => 0⟩).o_acc_4

/-- The unrolled loop `static_for<0, kNumWarps, 1>` (lines 340-354): `n` passes, each adding
the `[kM0, kN1]` window of `o_acc_4_lds` at row `origin` into `o_acc` and moving the window
down by `kM0` rows. -/
def reduce_warps (kM0 : Nat) (o_acc_4_lds : Tile R) : Nat → Nat → Tile R → Tile R
  | 0, _, o_acc => o_acc
  | n + 1, origin, o_acc =>
    reduce_warps kM0 o_acc_4_lds n (origin + kM0)
      (fun r c => o_acc r c + o_acc_4_lds (origin + r) c)

/-- The tile `o_acc` before `o_acc_element_func` is applied (lines 314-354). -/
def o_acc_sum (p : Problem) (exp log : R → R) (inp : Inputs R) : Tile R :=
  reduce_warps p.kM0 (o_acc_4 p exp log inp) p.kNumWarps 0 (fun _ _ => 0)

/-- The seven-argument `operator()` (lines 114-359). -/
def operator_call (p : Problem) (exp log : R → R)
    (lse_element_func o_acc_element_func : Val R → Val R) (inp : Inputs R) : Outputs R :=
  ⟨fun r c => o_acc_element_func (o_acc_sum p exp log inp r c),
   fun row =>
     if p.kStoreLSE = true ∧ row < p.kM0 then lse_element_func (lse_logsum p exp log inp row)
     else inp.lse_dram row⟩

/-- The five-argument `operator()` (lines 361-377). -/
def operator_call_default (p : Problem) (exp log : R → R) (inp : Inputs R) : Outputs R :=
  operator_call p exp log id id inp

/-- The index pairs `(row - row_start, i_split)` that one iteration of the accumulation loop
passes to `lse_acc_lds` (line 305), one for every row of `o_acc_4`, appended to `acc`. -/
def lookup_body (p : Problem) (split_start : Nat) (acc : List (Nat × Nat)) :
    List (Nat × Nat) :=
  acc ++ (List.range (p.kNumWarps * p.kM0)).map
    (fun row => (row - p.kM0 * get_warp_id p row, split_start + get_warp_id p row))

/-- All index pairs `(row, column)` at which the accumulation loop (lines 290-312) reads the
scratch LSE tile during one call with `num_splits` splits. -/
def lse_scale_lookups (p : Problem) (num_splits : Nat) : List (Nat × Nat) :=
  for_splits p.kNumWarps (padded_num_splits p num_splits) p.kNumWarps_pos (lookup_body p) 0 []

/-- The values of `split_start` at which the body of the accumulation loop (lines 290-312)
runs during one call with `num_splits` splits, in program order. -/
def split_starts (p : Problem) (num_splits : Nat) : List Nat :=
  for_splits p.kNumWarps (padded_num_splits p num_splits) p.kNumWarps_pos
    (fun split_start acc => acc ++ [split_start]) 0 []

/-- The value that the 32-bit signed `index_t` holds for the arithmetic result `z`: `z` itself
when it fits, else its two's-complement wrap (the behaviour of the hardware; the overflow itself
is undefined in the language). -/
def index_t_wrap (z : Int) : Int := (z + 2147483648) % 4294967296 - 2147483648

/-- Modelled from the spec: `integer_divide_ceil` (declared in `ck_tile/core`, not part of the
sources at hand) on two `index_t` operands, `(x + y - 1) / y` evaluated in 32-bit signed
arithmetic, the division truncating toward zero. -/
def integer_divide_ceil_index_t (x y : Int) : Int :=
  index_t_wrap (Int.tdiv (index_t_wrap (index_t_wrap (x + y) - 1)) y)

/-- The loop bound `padded_num_splits` (line 285) as the `index_t` the code computes. -/
def padded_num_splits_index_t (num_splits kNumWarps : Int) : Int :=
  index_t_wrap (integer_divide_ceil_index_t num_splits kNumWarps * kNumWarps)

/-- The header of the accumulation loop (line 290) in `index_t` arithmetic: the values of
`split_start` at which the body runs, in order, starting from `split_start` with the values
`acc` already visited; `none` when `fuel` evaluations of the loop condition do not reach the
end of the loop. -/
def split_starts_index_t (kNumWarps padded : Int) : Nat → Int → List Int → Option (List Int)
  | 0, _, _ => none
  | fuel + 1, split_start, acc =>
    if split_start < padded then
      split_starts_index_t kNumWarps padded fuel (index_t_wrap (split_start + kNumWarps))
        (acc ++ [split_start])
    else some acc

/-! ### Observable events of one call -/

/-- The tile windows and accessors through which `operator()` touches memory. -/
inductive Window where
  | lse_acc_dram_window
  | lse_acc_lds
  | lse_dram_window_tmp
  | o_acc_4_dram_window
  | o_acc_4_lds_window
  deriving DecidableEq

/-- What one call of `operator()` does to memory and to the block, in program order:
`load_tile` and `store_tile` on a window, an element write `lse_acc_lds(row, col) = ...`
through the scratch accessor (lines 244 and 261), `move_tile_window` by a number of rows, and
the barrier `block_sync_lds()` at a source line. -/
inductive Event where
  | load_tile (w : Window)
  | store_tile (w : Window)
  | lds_write (row col : Nat)
  | move_tile_window (w : Window) (rows : Nat)
  | block_sync_lds (line : Nat)
  deriving DecidableEq

/-- The event is a barrier. -/
def Event.is_sync : Event → Bool
  | Event.block_sync_lds _ => true
  | _ => false

/-- The element writes of the sweep that stores the lse scales (lines 226-267): for every
row and column of the `[kM0, kMaxSplits]` tile, a write when `col < num_splits`; both
branches on `lse_logsum` write the same elements. -/
def store_lse_scales_events (p : Problem) (num_splits : Nat) : List Event :=
  (List.range p.kM0).flatMap (fun row =>
    ((List.range p.kMaxSplits).filter (fun col => decide (col < num_splits))).map
      (fun col => Event.lds_write row col))

/-- One iteration of the accumulation loop (lines 291-311) with its events: the tile load at
line 292 and the window move at line 311. -/
def traced_body (p : Problem) (lds : Tile R) (o_acc_dram : Tile R) (split_start : Nat)
    (st : AccState R × List Event) : AccState R × List Event :=
  (accumulate_body p lds o_acc_dram split_start st.1,
   st.2 ++ [Event.load_tile Window.o_acc_4_dram_window,
     Event.move_tile_window Window.o_acc_4_dram_window (p.kNumWarps * p.kM0)])

/-- The events of the unrolled loop `static_for<0, kNumWarps, 1>` (lines 340-354). -/
def reduce_warps_events (p : Problem) : List Event :=
  (List.range p.kNumWarps).flatMap (fun _ =>
    [Event.load_tile Window.o_acc_4_lds_window,
     Event.move_tile_window Window.o_acc_4_lds_window p.kM0])

/-- The events of lines 143-288, up to the barrier before the accumulation loop. -/
def events_before_loop (p : Problem) (num_splits : Nat) : List Event :=
  [Event.load_tile Window.lse_acc_dram_window, Event.store_tile Window.lse_acc_lds,
    Event.block_sync_lds 151]
  ++ store_lse_scales_events p num_splits
  ++ (if p.kStoreLSE = true then [Event.store_tile Window.lse_dram_window_tmp] else [])
  ++ [Event.block_sync_lds 288]

/-- The seven-argument `operator()` (lines 114-359) together with the events of the call. -/
def operator_call_traced (p : Problem) (exp log : R → R)
    (lse_element_func o_acc_element_func : Val R → Val R) (inp : Inputs R) :
    Outputs R × List Event :=
  let loop := for_splits p.kNumWarps (padded_num_splits p inp.num_splits) p.kNumWarps_pos
    (traced_body p (lse_scales p exp log inp) inp.o_acc) 0
    (⟨0, fun _ _ => 0⟩, events_before_loop p inp.num_splits)
  (⟨fun r c => o_acc_element_func
      (reduce_warps p.kM0 loop.1.o_acc_4 p.kNumWarps 0 (fun _ _ => 0) r c),
    fun row =>
      if p.kStoreLSE = true ∧ row < p.kM0 then lse_element_func (lse_logsum p exp log inp row)
      else inp.lse_dram row⟩,
   loop.2 ++ [Event.store_tile Window.o_acc_4_lds_window, Event.block_sync_lds 339]
     ++ reduce_warps_events p)

/-! ### Concrete configurations and inputs -/

/-- A block of one row and two columns, `kMaxSplits = 4`, with `kNumWarps` warps. -/
def small_problem (kNumWarps : Nat) (h : 0 < kNumWarps) : Problem :=
  ⟨1, 2, 4, kNumWarps, true, h⟩

/-- One row, two columns, `kMaxSplits = 4`, one warp. -/
def problem_w1 : Problem := small_problem 1 (by decide)

/-- One row, two columns, `kMaxSplits = 4`, two warps. -/
def problem_w2 : Problem := small_problem 2 (by decide)

/-- One row, two columns, `kMaxSplits = 4`, four warps. -/
def problem_w4 : Problem := small_problem 4 (by decide)

/-- One row, two columns, `kMaxSplits = 8`, one warp. -/
def problem_w1_k8 : Problem := ⟨1, 2, 8, 1, true, by decide⟩

/-- One row, two columns, `kMaxSplits = 8`, four warps. -/
def problem_w4_k8 : Problem := ⟨1, 2, 8, 4, true, by decide⟩

/-- The end-to-end scenario: three splits with LSE `[1, 2, -inf]` and output vectors
`[[1,1],[2,2],[99,99]]` for the one row; every further split index of the tiles holds the LSE
`pad_lse` and the output vector `[pad_o, pad_o]`. -/
def scenario (pad_lse pad_o : Val ℝ) : Inputs ℝ :=
  ⟨fun s _ => if s = 0 then Val.fin 1 else if s = 1 then Val.fin 2 else if s = 2 then Val.negInf
     else pad_lse,
   fun row _ => if row = 0 then Val.fin 1 else if row = 1 then Val.fin 2
     else if row = 2 then Val.fin 99 else pad_o,
   fun _ => Val.nan, 3, fun _ _ => Val.nan⟩

/-- The inputs of the end-to-end scenario, for any configuration with `kM0 = 1` and `kN1 = 2`:
`num_splits = 3`, LSE `[1, 2, -inf]` and output vectors `[[1,1],[2,2],[99,99]]` for the one
row.  The padding split indices of the tiles are left free. -/
def IsScenario (p : Problem) (inp : Inputs ℝ) : Prop :=
  p.kM0 = 1 ∧ p.kN1 = 2 ∧ 3 ≤ p.kMaxSplits ∧ inp.num_splits = 3 ∧
  inp.lse_acc 0 0 = Val.fin 1 ∧ inp.lse_acc 1 0 = Val.fin 2 ∧ inp.lse_acc 2 0 = Val.negInf ∧
  ∀ c, c < 2 →
    inp.o_acc 0 c = Val.fin 1 ∧ inp.o_acc 1 c = Val.fin 2 ∧ inp.o_acc 2 c = Val.fin 99

/-- The end-to-end scenario with the splits 0 and 1 exchanged: LSE `[2, 1, -inf]` and output
vectors `[[2,2],[1,1],[99,99]]`; the padding is that of `scenario pad_lse pad_o`. -/
def scenario_swapped (pad_lse pad_o : Val ℝ) : Inputs ℝ :=
  ⟨fun s r => (scenario pad_lse pad_o).lse_acc (Equiv.swap 0 1 s) r,
   fun row c => (scenario pad_lse pad_o).o_acc (Equiv.swap 0 1 row) c,
   fun _ => Val.nan, 3, fun _ _ => Val.nan⟩

/-- The all-degenerate scenario: two splits with LSE `[-inf, -inf]` and output entries `o`;
every further split index of the tiles holds the LSE `pad_lse` and the output entries
`pad_o`. -/
def degenerate_scenario (o pad_lse pad_o : Val ℝ) : Inputs ℝ :=
  ⟨fun s _ => if s < 2 then Val.negInf else pad_lse,
   fun row _ => if row < 2 then o else pad_o,
   fun _ => Val.nan, 2, fun _ _ => Val.nan⟩

/-- The inputs `inp` with `k` added to every partial LSE value of row `r`, that is to
`lse_acc[s][r]` for every split `s < num_splits`; everything else is as in `inp`. -/
def shift_lse (inp : Inputs R) (r : Nat) (k : R) : Inputs R :=
  ⟨fun s row => if row = r ∧ s < inp.num_splits then inp.lse_acc s row + Val.fin k
     else inp.lse_acc s row,
   inp.o_acc, inp.lse_dram, inp.num_splits, inp.smem⟩

/-- Modelled from the spec: of the rounding to binary32 (`LSEDataType = float`) only the
underflow: a number of magnitude at most `2^-150`, half the smallest positive binary32 number
`2^-149`, rounds to `0` (round to nearest, ties to even); every other number is kept. -/
def round_underflow (y : R) : R := if |y| ≤ 1 / 2 ^ 150 then 0 else y

/-- Modelled from the spec: `ck_tile::exp` on `float` (declared in `ck_tile/core`, not part of
the sources at hand) as the exponential `exp` of the number type followed by the rounding to
binary32, of which the underflow is modelled. -/
def exp_underflow (exp : R → R) (x : R) : R := round_underflow (exp x)

/-- Two splits with the LSE `v0`, `v1` and the output entries `1` for the one row; every
further split index of the tiles holds the LSE `-inf` and the output entries `0`. -/
def two_splits (v0 v1 : Val ℝ) : Inputs ℝ :=
  ⟨fun s _ => if s = 0 then v0 else if s = 1 then v1 else Val.negInf,
   fun row _ => if row < 2 then Val.fin 1 else Val.fin 0,
   fun _ => Val.nan, 2, fun _ _ => Val.nan⟩

/-- One split with the LSE `v0` and the output entries `o0` for the one row; every further
split index of the tiles holds the LSE `pad_lse` and the output entries `pad_o`. -/
def single_split (v0 o0 pad_lse pad_o : Val ℝ) : Inputs ℝ :=
  ⟨fun s _ => if s = 0 then v0 else pad_lse,
   fun row _ => if row = 0 then o0 else pad_o,
   fun _ => Val.nan, 1, fun _ _ => Val.nan⟩

end BlockFmhaFwdSplitKVCombinePipeline

/-! ## The permute example (`example/65_hip_tensor_permute/elementwise_permute_4D_fp16_ht.cpp`)

Element values (`float`) are kept abstract, or are exact rationals where the data is given. -/

namespace hip_tensor_permute

/-- Modelled from the spec: `Tensor` is declared in `ck/library/utility/host_tensor.hpp`, which
is not part of the sources at hand; `Tensor<T> t(lengths)` is a packed row-major tensor: the
flat buffer `mData` and, for rank 4, the lengths `l0 .. l3`. -/
structure Tensor (α : Type) where
  l0 : Nat
  l1 : Nat
  l2 : Nat
  l3 : Nat
  mData : Nat → α

/-- Modelled from the spec: the offset in `mData` of the element `t(i0, i1, i2, i3)` of a packed
row-major tensor, the last index running fastest. -/
def Tensor.offset {α : Type} (t : Tensor α) (i0 i1 i2 i3 : Nat) : Nat :=
  ((i0 * t.l1 + i1) * t.l2 + i2) * t.l3 + i3

/-- The element `t(i0, i1, i2, i3)`. -/
def Tensor.get {α : Type} (t : Tensor α) (i0 i1 i2 i3 : Nat) : α :=
  t.mData (t.offset i0 i1 i2 i3)

/-- The number of elements of the tensor. -/
def Tensor.size {α : Type} (t : Tensor α) : Nat := t.l0 * t.l1 * t.l2 * t.l3

/-- The functor `PassThrough` on `float`: `y = x` (unary_element_wise_operation.hpp, lines
310-314). -/
def PassThrough {α : Type} (x : α) : α := x

/-- The buffer of the destination tensor during `host_elementwise4D`, with the offsets
stored to so far, in program order. -/
structure HostState (α : Type) where
  mData : Nat → α
  stores : List Nat

/-- One store `buffer[offset] = value`. -/
def HostState.write {α : Type} (st : HostState α) (offset : Nat) (value : α) : HostState α :=
  ⟨Function.update st.mData offset value, st.stores ++ [offset]⟩

/-- The host reference `host_elementwise4D` (lines 35-51): the four nested loops over the
lengths of `A_whcn`, each iteration storing `functor_a (functor_b (A_whcn(w, h, c, n)))` to
`B_cnhw(c, n, h, w)`. -/
def host_elementwise4D {α : Type} (B_cnhw A_whcn : Tensor α) (functor_a functor_b : α → α) :
    HostState α :=
  (List.range A_whcn.l0).foldl (fun st w =>
    (List.range A_whcn.l1).foldl (fun st h =>
      (List.range A_whcn.l2).foldl (fun st c =>
        (List.range A_whcn.l3).foldl (fun st n =>
          let a_val := A_whcn.get w h c n
          let tmp_val := functor_b a_val
          st.write (B_cnhw.offset c n h w) (functor_a tmp_val)) st) st) st)
    ⟨B_cnhw.mData, []⟩

/-- Modelled from the spec: `DeviceElementwiseImpl` is declared in
`ck/tensor_operation/gpu/device/impl/device_elementwise_impl_ht.hpp`, which is not part of the
sources at hand; run on one input and one output with the lengths `len`, the strides
`a_strides`, `b_strides` and the operation `op`, it is the strided elementwise copy
`b[∑ i_k * b_strides_k] = op (a[∑ i_k * a_strides_k])` over all indices within the lengths. -/
def device_elementwise {α : Type} (len a_strides b_strides : Fin 4 → Nat) (op : α → α)
    (a b : Nat → α) : Nat → α :=
  (List.range (len 0)).foldl (fun buf i0 =>
    (List.range (len 1)).foldl (fun buf i1 =>
      (List.range (len 2)).foldl (fun buf i2 =>
        (List.range (len 3)).foldl (fun buf i3 =>
          Function.update buf
            (i0 * b_strides 0 + i1 * b_strides 1 + i2 * b_strides 2 + i3 * b_strides 3)
            (op (a (i0 * a_strides 0 + i1 * a_strides 1 + i2 * a_strides 2
              + i3 * a_strides 3)))) buf) buf) buf) b

/-- The lengths `whcn` of `main` (line 58). -/
def whcn : Fin 4 → Nat := ![3, 2, 4, 5]

/-- The lengths `cnhw` of `main` (line 59). -/
def cnhw : Fin 4 → Nat := ![4, 5, 2, 3]

/-- The strides `a_strides` of `main` (lines 79-84). -/
def a_strides : Fin 4 → Nat := ![1, whcn 0, whcn 0 * whcn 1, whcn 0 * whcn 1 * whcn 2]

/-- The strides `b_strides` of `main` (lines 85-90). -/
def b_strides : Fin 4 → Nat := ![cnhw 0 * cnhw 1 * cnhw 2, cnhw 0 * cnhw 1, 1, cnhw 0]

/-- The tensor `a` of `main` with the lengths `whcn` and the buffer `data`. -/
def main_a {α : Type} (data : Nat → α) : Tensor α := ⟨whcn 0, whcn 1, whcn 2, whcn 3, data⟩

/-- A tensor of `main` with the lengths `cnhw` (`b`, `host_b`) and the buffer `data`. -/
def main_b {α : Type} (data : Nat → α) : Tensor α := ⟨cnhw 0, cnhw 1, cnhw 2, cnhw 3, data⟩

/-- The buffer `b.mData` of `main` after the device run and `FromDevice` (lines 94-129), for
the input buffer `a` and the initial output buffer `b`. -/
def main_device_b {α : Type} (a b : Nat → α) : Nat → α :=
  device_elementwise whcn a_strides b_strides PassThrough a b

/-- The buffer `host_b.mData` of `main` after `host_elementwise4D` (lines 134-135). -/
def main_host_b {α : Type} (a host_b : Nat → α) : Nat → α :=
  (host_elementwise4D (main_b host_b) (main_a a) PassThrough PassThrough).mData

/-- The buffer `a.mData` of `main` after `std::iota` (line 64): `0, 1, 2, ...`. -/
def iota : Nat → ℚ := fun i => (i : ℚ)

end hip_tensor_permute

/-! ## Elementwise operations
(`include/ck/tensor_operation/gpu/element/unary_element_wise_operation.hpp`) -/

namespace ck

/-- The bit pattern of a 32-bit `int`: its residue modulo `2^32` (two's complement). -/
def int_bits (q : Int) : Nat := (q % 4294967296).toNat

/-- The `int` with the 32-bit pattern `w % 2^32` (two's complement): `bit_cast<int>` of a
32-bit object, and the conversion to `int` of a literal that only fits `unsigned int`. -/
def bit_cast_int (w : Nat) : Int :=
  if w % 4294967296 < 2147483648 then ((w % 4294967296 : Nat) : Int)
  else ((w % 4294967296 : Nat) : Int) - 4294967296

namespace half_t

/-- Modelled from the spec: `half_t` is declared in `ck/utility/data_type.hpp`, which is not
part of the sources at hand; it is the IEEE-754 binary16 format.  The value of the 16-bit
pattern `bits`: one sign bit, five exponent bits with bias 15, ten fraction bits. -/
def value (bits : Nat) : Val ℚ :=
  let s := bits / 32768 % 2
  let e := bits / 1024 % 32
  let m := bits % 1024
  let sign : ℚ := if s = 1 then -1 else 1
  if e = 31 then (if m = 0 then (if s = 1 then Val.negInf else Val.posInf) else Val.nan)
  else if e = 0 then Val.fin (sign * ((m : ℚ) / 1024) * 2 ^ (-14 : Int))
  else Val.fin (sign * (1 + (m : ℚ) / 1024) * 2 ^ ((e : Int) - 15))

/-- The result of a `half_t` operation whose exact result is `v`: a number is rounded to
binary16 by `rnd`, the special values are kept. -/
def round (rnd : ℚ → Val ℚ) : Val ℚ → Val ℚ
  | Val.fin x => rnd x
  | v => v

/-- What the rounding to binary16 is assumed to do, whatever the rounding mode: a number
that is the value of a bit pattern is returned as it is. -/
def IsRounding (rnd : ℚ → Val ℚ) : Prop :=
  ∀ bits x, value bits = Val.fin x → rnd x = Val.fin x

/-- The rounding that keeps every number, exact arithmetic. -/
def exact (x : ℚ) : Val ℚ := Val.fin x

end half_t

namespace half2_t

/-- Modelled from the spec: `bit_cast<half2_t>` of a 32-bit word (`half2_t` is declared in
`ck/utility/data_type.hpp`, not part of the sources at hand): element 0 is the value of the
low half-word, element 1 the value of the high half-word. -/
def of_bits (w : Nat) : Val ℚ × Val ℚ :=
  (half_t.value (w % 65536), half_t.value (w / 65536 % 65536))

end half2_t

/-- Modelled from the spec: `amd_assembly_and_or_b32` is declared in
`ck/utility/amd_inline_asm.hpp`, which is not part of the sources at hand; it is the
instruction `v_and_or_b32`, `(a & b) | c` on the 32-bit patterns. -/
def amd_assembly_and_or_b32 (a b c : Int) : Int :=
  bit_cast_int ((int_bits a &&& int_bits b) ||| int_bits c)

/-- Modelled from the spec: `amd_assembly_pk_add_f16` is declared in
`ck/utility/amd_inline_asm.hpp`, which is not part of the sources at hand; it is the
instruction `v_pk_add_f16`, the sum of the two operands in each of the two elements, rounded
to binary16. -/
def amd_assembly_pk_add_f16 (rnd : ℚ → Val ℚ) (a b : Val ℚ × Val ℚ) : Val ℚ × Val ℚ :=
  (half_t.round rnd (a.1 + b.1), half_t.round rnd (a.2 + b.2))

/-- Modelled from the spec: `amd_assembly_pk_fma_f16` is declared in
`ck/utility/amd_inline_asm.hpp`, which is not part of the sources at hand; it is the
instruction `v_pk_fma_f16`, the fused `a * b + c` in each of the two elements, rounded to
binary16 once. -/
def amd_assembly_pk_fma_f16 (rnd : ℚ → Val ℚ) (a b c : Val ℚ × Val ℚ) : Val ℚ × Val ℚ :=
  (half_t.round rnd (a.1 * b.1 + c.1), half_t.round rnd (a.2 * b.2 + c.2))

/-- The function `pki4_to_half4` (lines 19-45): the four elements of the returned `half4_t`,
in order. -/
def pki4_to_half4 (rnd : ℚ → Val ℚ) (q : Int) : List (Val ℚ) :=
  let LO : Int := 0x000f000f
  let HI : Int := 0x00f000f0
  let EX : Int := 0x64006400
  let lo := amd_assembly_and_or_b32 q LO EX
  let hi := amd_assembly_and_or_b32 q HI EX
  let SUB : Int := bit_cast_int 0xE408E408
  let MUL : Int := 0x2c002c00
  let ADD : Int := bit_cast_int 0xd480d480
  let res0 := amd_assembly_pk_add_f16 rnd (half2_t.of_bits (int_bits lo))
    (half2_t.of_bits (int_bits SUB))
  let res1 := amd_assembly_pk_fma_f16 rnd (half2_t.of_bits (int_bits hi))
    (half2_t.of_bits (int_bits MUL)) (half2_t.of_bits (int_bits ADD))
  [res0.1, res0.2, res1.1, res1.2]

/-- Modelled from the spec: one byte of the result of the instruction `v_perm_b32`, chosen by
the selector byte `sel` from the eight bytes of `S0` (upper four) and `S1` (lower four):
`0..3` a byte of `S1`, `4..7` a byte of `S0`, `8..11` the replicated sign bit of a half-word,
`12` the byte `0x00`, anything above the byte `0xff`. -/
def perm_byte (S0 S1 sel : Nat) : Nat :=
  if sel < 4 then S1 / 256 ^ sel % 256
  else if sel < 8 then S0 / 256 ^ (sel - 4) % 256
  else if sel = 8 then (if S1 / 32768 % 2 = 1 then 0xff else 0)
  else if sel = 9 then (if S1 / 2147483648 % 2 = 1 then 0xff else 0)
  else if sel = 10 then (if S0 / 32768 % 2 = 1 then 0xff else 0)
  else if sel = 11 then (if S0 / 2147483648 % 2 = 1 then 0xff else 0)
  else if sel = 12 then 0
  else 0xff

/-- Modelled from the spec: the compiler builtin `__builtin_amdgcn_perm (src0, src1, selector)`
is the instruction `v_perm_b32`: byte `i` of the result is chosen by byte `i` of the selector
from the bytes of `src0` and `src1`. -/
def __builtin_amdgcn_perm (src0 src1 selector : Nat) : Nat :=
  perm_byte src0 src1 (selector % 256)
    + 256 * perm_byte src0 src1 (selector / 256 % 256)
    + 65536 * perm_byte src0 src1 (selector / 65536 % 256)
    + 16777216 * perm_byte src0 src1 (selector / 16777216 % 256)

/-- Modelled from the spec: the instruction `v_pk_add_f16` with the modifiers
`neg_lo:[0,1] neg_hi:[0,1]` of the inline assembly at lines 1372-1377: in each of the two
elements the second operand is negated before the sum, which is rounded to binary16. -/
def v_pk_add_f16_neg (rnd : ℚ → Val ℚ) (a b : Val ℚ × Val ℚ) : Val ℚ × Val ℚ :=
  (half_t.round rnd (a.1 - b.1), half_t.round rnd (a.2 - b.2))

/-- The function `pki4_to_half2` (lines 81-106), the enabled branch (lines 84-92): the two
elements of the returned `half2_t`, for the `pk_i4_t` with the byte `q % 256`. -/
def pki4_to_half2 (rnd : ℚ → Val ℚ) (q : Nat) : Val ℚ × Val ℚ :=
  let x_u8 := q % 256
  let i4s := (((x_u8 &&& 0x0f) <<< 16) ||| ((x_u8 &&& 0xf0) >>> 4)) % 4294967296
  let EX : Int := 0x64006400
  let SUB : Int := bit_cast_int 0xE408E408
  let lo : Int := bit_cast_int (i4s ||| int_bits EX)
  amd_assembly_pk_add_f16 rnd (half2_t.of_bits (int_bits lo)) (half2_t.of_bits (int_bits SUB))

/-- The function `pki4_to_half2` (lines 81-106), the disabled `#else` branch (lines 94-104):
the two integers `(x_u8 & 0x0f) - 8` and `((x_u8 & 0xf0) >> 4) - 8`, computed in `int`, are
converted to `half_t` and stored as element 1 and element 0. -/
def pki4_to_half2_else (rnd : ℚ → Val ℚ) (q : Nat) : Val ℚ × Val ℚ :=
  let x_u8 := q % 256
  let x_h := half_t.round rnd (Val.fin ((((x_u8 &&& 0x0f : Nat) : Int) - 8 : Int) : ℚ))
  let x_l := half_t.round rnd (Val.fin (((((x_u8 &&& 0xf0) >>> 4 : Nat) : Int) - 8 : Int) : ℚ))
  (x_l, x_h)

/-- The nibble `n_i = (q >> 4 i) & 0xF` of the 32-bit pattern of `q`. -/
def nibble (q : Int) (i : Nat) : Nat := (int_bits q >>> (4 * i)) &&& 0xF

namespace math

/-- Modelled from the spec: `ck::math::rcp` is declared in `ck/utility/math_v2.hpp`, which is
not part of the sources at hand; it is the reciprocal `1 / x`. -/
def rcp {R : Type} [Field R] (x : R) : R := 1 / x

end math

namespace tensor_operation

namespace element_wise

namespace PassThroughPack8

/-- The operator `PassThroughPack8::operator()(half8_t&, const pk_i4x4_t&)` (lines 160-184,
the enabled branch): the eight elements stored to `y`, in order, for the `pk_i4x4_t` with the
32-bit pattern `x % 2^32`. -/
def operator_call_half8 (rnd : ℚ → Val ℚ) (x : Nat) : List (Val ℚ) :=
  pki4_to_half4 rnd (bit_cast_int x) ++ pki4_to_half4 rnd (bit_cast_int x >>> (8 : Nat))

end PassThroughPack8

namespace FastNumericArrayConverter

/-- The word `reinterpret_cast<uint32_t const&>(Input)` of an array of four `uint8_t`
(little-endian); element `i` of the array is `Input i % 256`. -/
def uint8_4 (Input : Nat → Nat) : Nat :=
  Input 0 % 256 + 256 * (Input 1 % 256) + 65536 * (Input 2 % 256)
    + 16777216 * (Input 3 % 256)

/-- The function `FastNumericArrayConverter<uint8_t, ck::half_t, 4>::convert` (lines
1358-1380): the four elements of `Output`, in order. -/
def convert_4 (rnd : ℚ → Val ℚ) (Input : Nat → Nat) : List (Val ℚ) :=
  let byte_selector_01 : Nat := 0x05010500
  let byte_selector_23 : Nat := 0x05030502
  let fp16_adder : Nat := 0x64646464
  let half_2_0 := __builtin_amdgcn_perm fp16_adder (uint8_4 Input) byte_selector_01
  let half_2_1 := __builtin_amdgcn_perm fp16_adder (uint8_4 Input) byte_selector_23
  let I8s_TO_F16s_MAGIC_NUM : Nat := 0x64806480
  let out_0 := v_pk_add_f16_neg rnd (half2_t.of_bits half_2_0)
    (half2_t.of_bits I8s_TO_F16s_MAGIC_NUM)
  let out_1 := v_pk_add_f16_neg rnd (half2_t.of_bits half_2_1)
    (half2_t.of_bits I8s_TO_F16s_MAGIC_NUM)
  [out_0.1, out_0.2, out_1.1, out_1.2]

/-- The function `FastNumericArrayConverter<uint8_t, ck::half_t, N>::convert` (lines
1394-1410): the `N` elements of `Output`, in order; `none` when the `static_assert` on
`N % VEC_WIDTH` rejects `N`. -/
def convert (rnd : ℚ → Val ℚ) (N : Nat) (Input : Nat → Nat) : Option (List (Val ℚ)) :=
  let VEC_WIDTH := 4
  if N % VEC_WIDTH = 0 then
    some ((List.range (N / VEC_WIDTH)).flatMap
      (fun i => convert_4 rnd (fun j => Input (VEC_WIDTH * i + j))))
  else none

end FastNumericArrayConverter

namespace FastGelu

/-- The host `FastGelu::operator()<float, float>` (lines 735-744), in exact arithmetic over
the field `R` with the exponential `exp`: the value stored to `y`. -/
def operator_call_host {R : Type} [Field R] (exp : R → R) (x : R) : R :=
  let c1 : R := -2.0 * 0.035677
  let c2 : R := -2.0 * 0.797885
  let u := x * (c1 * x * x + c2)
  let emu := exp u
  x / (1 + emu)

/-- The device `FastGelu::operator()<float, float>` (lines 747-757), in exact arithmetic over
the field `R` with the exponential `exp` (for `__ocml_exp_f32`): the value stored to `y`. -/
def operator_call_device {R : Type} [Field R] (exp : R → R) (x : R) : R :=
  let c1 : R := -2.0 * 0.035677
  let c2 : R := -2.0 * 0.797885
  let u := x * (c1 * x * x + c2)
  let emu := exp u
  x * math.rcp (1 + emu)

end FastGelu

end element_wise

end tensor_operation

end ck

/-! ## Arithmetic of element values -/

namespace Val

variable {R : Type} [LinearOrderedField R]

theorem add_def (a b : Val R) : a + b = add a b := rfl

theorem sub_def (a b : Val R) : a - b = add a (neg b) := rfl

theorem mul_def (a b : Val R) : a * b = mul a b := rfl

theorem zero_def : (0 : Val R) = fin 0 := rfl

@[simp] theorem fin_add_fin (x y : R) : (fin x : Val R) + fin y = fin (x + y) := rfl

@[simp] theorem fin_sub_fin (x y : R) : (fin x : Val R) - fin y = fin (x - y) := by
  simp [sub_def, neg, add, sub_eq_add_neg]

@[simp] theorem negInf_sub_fin (y : R) : (negInf : Val R) - fin y = negInf := rfl

@[simp] theorem fin_mul_fin (x y : R) : (fin x : Val R) * fin y = fin (x * y) := rfl

theorem sum_fin (f : Nat → R) (n : Nat) :
    (∑ i in Finset.range n, (fin (f i) : Val R)) = fin (∑ i in Finset.range n, f i) := by
  induction n with
  | zero => rfl
  | succ n ih => rw [Finset.sum_range_succ, Finset.sum_range_succ, ih]; rfl

theorem max_negInf_left (b : Val R) (hb : IsLSE b) : max negInf b = b := by
  cases b <;> simp [max, gt, IsLSE] at hb ⊢

theorem max_fin_negInf (x : R) : max (fin x) negInf = fin x := by
  simp [max, gt]

theorem max_fin_fin (x y : R) : max (fin x) (fin y) = fin (if y < x then x else y) := by
  by_cases h : y < x <;> simp [max, gt, h]

/-- The maximum of the first `K` entries of a row of well-formed LSE values: `-inf` when all
of them are, otherwise the largest finite one. -/
theorem reduce_max_spec (v : Nat → Val R) (K : Nat) (h : ∀ c, c < K → IsLSE (v c)) :
    (reduce_row max negInf v K = negInf ∧ ∀ c, c < K → v c = negInf) ∨
    (∃ m, reduce_row max negInf v K = fin m ∧ (∃ c, c < K ∧ v c = fin m) ∧
      ∀ c, c < K → ∀ x, v c = fin x → x ≤ m) := by
  induction K with
  | zero => left; exact ⟨rfl, fun c hc => absurd hc (Nat.not_lt_zero c)⟩
  | succ K ih =>
    have hK := h K (Nat.lt_succ_self K)
    rcases ih (fun c hc => h c (Nat.lt_succ_of_lt hc)) with ⟨e, hall⟩ | ⟨m, e, ⟨c0, hc0, e0⟩, hle⟩
    · cases hv : v K with
      | nan => simp [hv, IsLSE] at hK
      | posInf => simp [hv, IsLSE] at hK
      | negInf =>
        left
        refine ⟨?_, ?_⟩
        · simp [reduce_row, e, hv, max, gt]
        · intro c hc
          rcases Nat.lt_succ_iff_lt_or_eq.1 hc with h1 | h1
          · exact hall c h1
          · rw [h1]; exact hv
      | fin y =>
        right
        refine ⟨y, ?_, ⟨K, Nat.lt_succ_self K, hv⟩, ?_⟩
        · simp [reduce_row, e, hv, max, gt]
        · intro c hc x hx
          rcases Nat.lt_succ_iff_lt_or_eq.1 hc with h1 | h1
          · rw [hall c h1] at hx; cases hx
          · rw [h1, hv] at hx; cases hx; exact le_refl _
    · cases hv : v K with
      | nan => simp [hv, IsLSE] at hK
      | posInf => simp [hv, IsLSE] at hK
      | negInf =>
        right
        refine ⟨m, ?_, ⟨c0, Nat.lt_succ_of_lt hc0, e0⟩, ?_⟩
        · simp [reduce_row, e, hv, max_fin_negInf]
        · intro c hc x hx
          rcases Nat.lt_succ_iff_lt_or_eq.1 hc with h1 | h1
          · exact hle c h1 x hx
          · rw [h1, hv] at hx; cases hx
      | fin y =>
        right
        by_cases hym : y < m
        · refine ⟨m, ?_, ⟨c0, Nat.lt_succ_of_lt hc0, e0⟩, ?_⟩
          · simp [reduce_row, e, hv, max_fin_fin, hym]
          · intro c hc x hx
            rcases Nat.lt_succ_iff_lt_or_eq.1 hc with h1 | h1
            · exact hle c h1 x hx
            · rw [h1, hv] at hx; cases hx; exact le_of_lt hym
        · refine ⟨y, ?_, ⟨K, Nat.lt_succ_self K, hv⟩, ?_⟩
          · simp [reduce_row, e, hv, max_fin_fin, hym]
          · intro c hc x hx
            rcases Nat.lt_succ_iff_lt_or_eq.1 hc with h1 | h1
            · exact le_trans (hle c h1 x hx) (not_lt.1 hym)
            · rw [h1, hv] at hx; cases hx; exact le_refl _

theorem toR_vexp_nonneg (v : Val ℝ) : 0 ≤ (vexp Real.exp v).toR := by
  cases v <;> simp [vexp, toR, Real.exp_nonneg]

/-- A sum of element values is finite only if every summand is. -/
theorem isFin_of_sum_fin (t : Nat → Val R) (n : Nat) (x : R)
    (h : ∑ i in Finset.range n, t i = fin x) : ∀ i, i < n → IsFin (t i) := by
  induction n generalizing x with
  | zero => intro i hi; exact absurd hi (Nat.not_lt_zero i)
  | succ n ih =>
    rw [Finset.sum_range_succ] at h
    intro i hi
    cases hs : ∑ i in Finset.range n, t i with
    | nan => rw [hs] at h; cases htn : t n <;> rw [htn] at h <;> cases h
    | negInf => rw [hs] at h; cases htn : t n <;> rw [htn] at h <;> cases h
    | posInf => rw [hs] at h; cases htn : t n <;> rw [htn] at h <;> cases h
    | fin y =>
      rcases Nat.lt_succ_iff_lt_or_eq.1 hi with h1 | h1
      · exact ih y hs i h1
      · rw [hs] at h
        rw [h1]
        cases htn : t n with
        | fin z => trivial
        | nan => rw [htn] at h; cases h
        | negInf => rw [htn] at h; cases h
        | posInf => rw [htn] at h; cases h

theorem reduce_row_add (t : Nat → Val R) (n : Nat) :
    reduce_row (fun e0 e1 => e0 + e1) (fin 0) t n = ∑ i in Finset.range n, t i := by
  induction n with
  | zero => rfl
  | succ n ih => rw [Finset.sum_range_succ, ← ih]; rfl

end Val

/-! ## The accumulation loop and the reduction across warps, in closed form -/

section loops

variable {R : Type} [LinearOrderedField R]

open BlockFmhaFwdSplitKVCombinePipeline

theorem for_splits_done {σ : Type} (W padded : Nat) (hW : 0 < W) (body : Nat → σ → σ) (s : Nat)
    (st : σ) (h : padded ≤ s) : for_splits W padded hW body s st = st := by
  rw [for_splits, if_neg (by omega)]

theorem for_splits_step {σ : Type} (W padded : Nat) (hW : 0 < W) (body : Nat → σ → σ) (s : Nat)
    (st : σ) (h : s < padded) :
    for_splits W padded hW body s st = for_splits W padded hW body (s + W) (body s st) := by
  rw [for_splits, if_pos h]

/-- After `k` iterations the loop has added, to every element of `o_acc_4`, the `k` products
of the scratch weight looked up for the owning warp and the element of the tile loaded in
that iteration. -/
theorem accumulate_loop_eq (p : Problem) (lds o : Tile R) (padded : Nat) (k : Nat) :
    ∀ (s : Nat) (st : AccState R), (∀ i, i < k → s + i * p.kNumWarps < padded) →
      padded ≤ s + k * p.kNumWarps →
      (for_splits p.kNumWarps padded p.kNumWarps_pos (accumulate_body p lds o) s st).o_acc_4
        = fun row c => st.o_acc_4 row c + ∑ i in Finset.range k,
            lds (row - p.kM0 * get_warp_id p row) (s + i * p.kNumWarps + get_warp_id p row)
              * o (st.window_row + i * (p.kNumWarps * p.kM0) + row) c := by
  induction k with
  | zero =>
    intro s st _ h
    rw [for_splits_done _ _ _ _ _ _ (by omega)]
    funext row c
    simp
  | succ k ih =>
    intro s st hlt hge
    have h0 : s < padded := by simpa using hlt 0 (Nat.succ_pos k)
    rw [for_splits_step _ _ _ _ _ _ h0, ih]
    · funext row c
      rw [Finset.sum_range_succ']
      simp only [accumulate_body, Nat.zero_mul, Nat.add_zero]
      rw [add_assoc]
      congr 1
      rw [add_comm]
      congr 1
      apply Finset.sum_congr rfl
      intro i _
      have e1 : s + p.kNumWarps + i * p.kNumWarps = s + (i + 1) * p.kNumWarps := by ring
      have e2 : st.window_row + p.kNumWarps * p.kM0 + i * (p.kNumWarps * p.kM0)
          = st.window_row + (i + 1) * (p.kNumWarps * p.kM0) := by ring
      rw [e1, e2]
    · intro i hi
      have := hlt (i + 1) (by omega)
      have e1 : s + p.kNumWarps + i * p.kNumWarps = s + (i + 1) * p.kNumWarps := by ring
      omega
    · have e1 : s + p.kNumWarps + k * p.kNumWarps = s + (k + 1) * p.kNumWarps := by ring
      omega

theorem reduce_warps_eq (kM0 : Nat) (lds : Tile R) (n : Nat) :
    ∀ (origin : Nat) (o_acc : Tile R) (r c : Nat),
      reduce_warps kM0 lds n origin o_acc r c
        = o_acc r c + ∑ g in Finset.range n, lds (origin + g * kM0 + r) c := by
  induction n with
  | zero => intro origin o_acc r c; simp [reduce_warps]
  | succ n ih =>
    intro origin o_acc r c
    rw [reduce_warps, ih, Finset.sum_range_succ', add_assoc]
    congr 1
    rw [add_comm]
    simp only [Nat.zero_mul, Nat.add_zero]
    congr 1
    apply Finset.sum_congr rfl
    intro g _
    have e : origin + kM0 + g * kM0 = origin + (g + 1) * kM0 := by ring
    rw [e]

theorem sum_range_mul_eq {M : Type} [AddCommMonoid M] (f : Nat → M) (W : Nat) (T : Nat) :
    ∑ s in Finset.range (T * W), f s
      = ∑ t in Finset.range T, ∑ g in Finset.range W, f (t * W + g) := by
  induction T with
  | zero => simp
  | succ T ih =>
    rw [Finset.sum_range_succ, ← ih, Nat.succ_mul, Finset.sum_range_add]

theorem padded_num_splits_le (p : Problem) (n : Nat) : n ≤ padded_num_splits p n := by
  have hW := p.kNumWarps_pos
  unfold padded_num_splits integer_divide_ceil
  have h := Nat.div_add_mod (n + p.kNumWarps - 1) p.kNumWarps
  have h2 := Nat.mod_lt (n + p.kNumWarps - 1) hW
  rw [Nat.mul_comm] at h
  omega

theorem padded_num_splits_of_dvd (p : Problem) (n : Nat) (h : p.kNumWarps ∣ n) :
    padded_num_splits p n = n := by
  have hW := p.kNumWarps_pos
  obtain ⟨q, rfl⟩ := h
  unfold padded_num_splits integer_divide_ceil
  have e : p.kNumWarps * q + p.kNumWarps - 1 = (p.kNumWarps - 1) + p.kNumWarps * q := by omega
  rw [e, Nat.add_mul_div_left _ _ hW, Nat.div_eq_of_lt (by omega), Nat.zero_add, Nat.mul_comm]

/-- The tile before postprocessing: for every row of the block, the sum over all split indices
below `padded_num_splits` of the scratch entry of that row and split times the element of
that split. -/
theorem o_acc_sum_eq (p : Problem) (exp log : R → R) (inp : Inputs R) (r c : Nat)
    (hr : r < p.kM0) :
    o_acc_sum p exp log inp r c
      = ∑ s in Finset.range (padded_num_splits p inp.num_splits),
          lse_scales p exp log inp r s * inp.o_acc (s * p.kM0 + r) c := by
  have hrow : ∀ g, get_warp_id p (g * p.kM0 + r) = g := by
    intro g
    unfold get_warp_id
    rw [Nat.mul_comm, Nat.mul_add_div (by omega), Nat.div_eq_of_lt hr, Nat.add_zero]
  unfold o_acc_sum o_acc_4
  rw [reduce_warps_eq, accumulate_loop_eq p _ _ _ (integer_divide_ceil inp.num_splits p.kNumWarps)]
  · simp only [Nat.zero_add, zero_add]
    simp only [hrow]
    unfold padded_num_splits
    rw [sum_range_mul_eq, Finset.sum_comm]
    apply Finset.sum_congr rfl
    intro t _
    apply Finset.sum_congr rfl
    intro g _
    have e1 : g * p.kM0 + r - p.kM0 * g = r := by rw [Nat.mul_comm]; omega
    have e2 : t * (p.kNumWarps * p.kM0) + (g * p.kM0 + r) = (t * p.kNumWarps + g) * p.kM0 + r := by
      ring
    rw [e1, e2]
  · intro i hi
    unfold padded_num_splits
    have := Nat.mul_lt_mul_of_pos_right hi p.kNumWarps_pos
    omega
  · unfold padded_num_splits
    omega

end loops

/-! ## The log-sum-exp stages on one row, in exact real arithmetic -/

section lse

open BlockFmhaFwdSplitKVCombinePipeline Val

theorem lse_accum_eq {R : Type} [LinearOrderedField R] (p : Problem) (inp : Inputs R)
    (r c : Nat) (hr : r < p.kM0) (hc : c < p.kMaxSplits) :
    lse_accum p inp r c = if c < inp.num_splits then inp.lse_acc c r else negInf := by
  simp [lse_accum, lse_acc_lds, hr, hc]

theorem lse_scales_padding {R : Type} [LinearOrderedField R] (p : Problem) (exp log : R → R)
    (inp : Inputs R) (r c : Nat) (hc : inp.num_splits ≤ c) :
    lse_scales p exp log inp r c = lse_acc_lds p inp r c := by
  unfold lse_scales
  rw [if_neg]
  omega

theorem lse_scales_valid {R : Type} [LinearOrderedField R] (p : Problem) (exp log : R → R)
    (inp : Inputs R) (r s : Nat) (hr : r < p.kM0) (hn : inp.num_splits ≤ p.kMaxSplits)
    (hs : s < inp.num_splits) :
    lse_scales p exp log inp r s
      = if eqv (lse_logsum p exp log inp r) negInf then fin 0
        else vexp exp (inp.lse_acc s r - lse_logsum p exp log inp r) := by
  unfold lse_scales
  rw [if_pos ⟨hr, by omega, hs⟩, lse_accum_eq p inp r s hr (by omega), if_pos hs]

/-- A row all of whose valid LSE values are `-inf`. -/
theorem lse_row_degenerate (p : Problem) (inp : Inputs ℝ) (r : Nat) (hr : r < p.kM0)
    (hv : ∀ s, s < inp.num_splits → inp.lse_acc s r = negInf) :
    lse_max p inp r = negInf ∧ lse_logsum p Real.exp Real.log inp r = negInf := by
  have hacc : ∀ c, c < p.kMaxSplits → lse_accum p inp r c = negInf := by
    intro c hc
    rw [lse_accum_eq p inp r c hr hc]
    split
    · exact hv c ‹_›
    · rfl
  have hmax : lse_max p inp r = negInf := by
    rcases reduce_max_spec (lse_accum p inp r) p.kMaxSplits
      (fun c hc => by rw [hacc c hc]; trivial) with ⟨e, _⟩ | ⟨m, _, ⟨c0, hc0, e0⟩, _⟩
    · exact e
    · rw [hacc c0 hc0] at e0; cases e0
  have hexp : ∀ c, lse_exp p Real.exp inp r c = fin 0 := by
    intro c
    simp [lse_exp, hmax, eqv]
  have hsum : lse_sum p Real.exp inp r = fin 0 := by
    unfold lse_sum block_tile_reduce
    rw [reduce_row_add, Finset.sum_congr rfl (fun c _ => hexp c)]
    simp [zero_def.symm]
  refine ⟨hmax, ?_⟩
  simp [lse_logsum, hsum, eqv]

/-- A row whose valid LSE values are finite or `-inf`, at least one of them finite. -/
theorem lse_row_nondegenerate (p : Problem) (inp : Inputs ℝ) (r : Nat) (hr : r < p.kM0)
    (hn : inp.num_splits ≤ p.kMaxSplits)
    (hv : ∀ s, s < inp.num_splits → IsLSE (inp.lse_acc s r))
    (hf : ∃ s, s < inp.num_splits ∧ IsFin (inp.lse_acc s r)) :
    0 < ∑ s in Finset.range inp.num_splits, (vexp Real.exp (inp.lse_acc s r)).toR ∧
    (∃ m, lse_max p inp r = fin m ∧
      lse_sum p Real.exp inp r
        = fin ((∑ s in Finset.range inp.num_splits, (vexp Real.exp (inp.lse_acc s r)).toR)
            * Real.exp (-m))) ∧
    lse_logsum p Real.exp Real.log inp r
      = fin (Real.log (∑ s in Finset.range inp.num_splits,
          (vexp Real.exp (inp.lse_acc s r)).toR)) := by
  have hacc := fun c hc => lse_accum_eq p inp r c hr hc
  have hL : ∀ c, c < p.kMaxSplits → IsLSE (lse_accum p inp r c) := by
    intro c hc
    rw [hacc c hc]
    split
    · exact hv c ‹_›
    · trivial
  have hS : ∑ c in Finset.range p.kMaxSplits, (vexp Real.exp (lse_accum p inp r c)).toR
      = ∑ s in Finset.range inp.num_splits, (vexp Real.exp (inp.lse_acc s r)).toR := by
    rw [← Finset.sum_subset (Finset.range_mono hn)]
    · apply Finset.sum_congr rfl
      intro c hc
      have hc1 := Finset.mem_range.1 hc
      rw [hacc c (by omega), if_pos hc1]
    · intro c hc hc1
      rw [hacc c (Finset.mem_range.1 hc), if_neg (by simpa using hc1)]
      simp [vexp, toR]
  have hpos : 0 < ∑ s in Finset.range inp.num_splits, (vexp Real.exp (inp.lse_acc s r)).toR := by
    obtain ⟨s, hs, hfin⟩ := hf
    apply Finset.sum_pos'
    · intro i _
      exact toR_vexp_nonneg _
    · refine ⟨s, Finset.mem_range.2 hs, ?_⟩
      cases hx : inp.lse_acc s r with
      | fin x => simp [vexp, toR, Real.exp_pos]
      | nan => rw [hx] at hfin; exact absurd hfin (by simp [IsFin])
      | negInf => rw [hx] at hfin; exact absurd hfin (by simp [IsFin])
      | posInf => rw [hx] at hfin; exact absurd hfin (by simp [IsFin])
  rcases reduce_max_spec (lse_accum p inp r) p.kMaxSplits hL with
    ⟨_, hall⟩ | ⟨m, e, _, _⟩
  · exfalso
    obtain ⟨s, hs, hfin⟩ := hf
    have h1 := hall s (by omega)
    rw [hacc s (by omega), if_pos hs] at h1
    rw [h1] at hfin
    exact hfin
  · have hmax : lse_max p inp r = fin m := e
    have hexp : ∀ c, c < p.kMaxSplits → lse_exp p Real.exp inp r c
        = fin ((vexp Real.exp (lse_accum p inp r c)).toR * Real.exp (-m)) := by
      intro c hc
      have hLc := hL c hc
      unfold lse_exp
      rw [hmax]
      cases hx : lse_accum p inp r c with
      | fin x => simp [eqv, vexp, toR, sub_eq_add_neg, Real.exp_add]
      | negInf => simp [eqv, vexp, toR]
      | nan => rw [hx] at hLc; exact absurd hLc (by simp [IsLSE])
      | posInf => rw [hx] at hLc; exact absurd hLc (by simp [IsLSE])
    have hsum : lse_sum p Real.exp inp r
        = fin ((∑ s in Finset.range inp.num_splits, (vexp Real.exp (inp.lse_acc s r)).toR)
            * Real.exp (-m)) := by
      unfold lse_sum block_tile_reduce
      rw [reduce_row_add, Finset.sum_congr rfl (fun c hc => hexp c (Finset.mem_range.1 hc)),
        sum_fin, ← Finset.sum_mul, hS]
    refine ⟨hpos, ⟨m, hmax, hsum⟩, ?_⟩
    have hne : (∑ s in Finset.range inp.num_splits, (vexp Real.exp (inp.lse_acc s r)).toR)
        * Real.exp (-m) ≠ 0 := mul_ne_zero (ne_of_gt hpos) (Real.exp_ne_zero _)
    have hnn : ¬ (∑ s in Finset.range inp.num_splits, (vexp Real.exp (inp.lse_acc s r)).toR)
        * Real.exp (-m) < 0 := not_lt.2 (le_of_lt (mul_pos hpos (Real.exp_pos _)))
    have hlog : Real.log ((∑ s in Finset.range inp.num_splits,
        (vexp Real.exp (inp.lse_acc s r)).toR) * Real.exp (-m)) + m
        = Real.log (∑ s in Finset.range inp.num_splits,
            (vexp Real.exp (inp.lse_acc s r)).toR) := by
      rw [Real.log_mul (ne_of_gt hpos) (Real.exp_ne_zero _), Real.log_exp]
      ring
    unfold lse_logsum
    rw [hsum, hmax]
    have h1 : eqv (fin ((∑ s in Finset.range inp.num_splits,
        (vexp Real.exp (inp.lse_acc s r)).toR) * Real.exp (-m))) (fin 0) = false := by
      simp only [eqv]
      exact decide_eq_false hne
    have h2 : vlog Real.log (fin ((∑ s in Finset.range inp.num_splits,
        (vexp Real.exp (inp.lse_acc s r)).toR) * Real.exp (-m)))
        = fin (Real.log ((∑ s in Finset.range inp.num_splits,
            (vexp Real.exp (inp.lse_acc s r)).toR) * Real.exp (-m))) := by
      simp only [vlog]
      rw [if_neg hnn, if_neg hne]
    rw [h1, h2, fin_add_fin, hlog]
    simp

/-- The scratch entries of a non-degenerate row after stage 4 are the softmax weights. -/
theorem lse_scales_nondegenerate (p : Problem) (inp : Inputs ℝ) (r : Nat) (hr : r < p.kM0)
    (hn : inp.num_splits ≤ p.kMaxSplits)
    (hv : ∀ s, s < inp.num_splits → IsLSE (inp.lse_acc s r))
    (hf : ∃ s, s < inp.num_splits ∧ IsFin (inp.lse_acc s r)) (s : Nat)
    (hs : s < inp.num_splits) :
    lse_scales p Real.exp Real.log inp r s
      = fin ((vexp Real.exp (inp.lse_acc s r)).toR
          / ∑ j in Finset.range inp.num_splits, (vexp Real.exp (inp.lse_acc j r)).toR) := by
  obtain ⟨hpos, _, hlog⟩ := lse_row_nondegenerate p inp r hr hn hv hf
  rw [lse_scales_valid p _ _ inp r s hr hn hs, hlog]
  have hvs := hv s hs
  generalize (∑ j in Finset.range inp.num_splits, (vexp Real.exp (inp.lse_acc j r)).toR) = S
    at hpos ⊢
  cases hx : inp.lse_acc s r with
  | fin x =>
    simp only [eqv, fin_sub_fin, vexp, toR]
    rw [Real.exp_sub, Real.exp_log hpos]
    simp
  | negInf => simp [eqv, vexp, toR]
  | nan => rw [hx] at hvs; exact absurd hvs (by simp [IsLSE])
  | posInf => rw [hx] at hvs; exact absurd hvs (by simp [IsLSE])

/-- A finite merged statistic only arises from a row whose valid LSE values are finite or
`-inf`, at least one of them finite. -/
theorem isLSE_of_logsum_fin (p : Problem) (inp : Inputs ℝ) (r : Nat) (hr : r < p.kM0)
    (hn : inp.num_splits ≤ p.kMaxSplits) (L : ℝ)
    (h : lse_logsum p Real.exp Real.log inp r = fin L) :
    (∀ s, s < inp.num_splits → IsLSE (inp.lse_acc s r)) ∧
    ∃ s, s < inp.num_splits ∧ IsFin (inp.lse_acc s r) := by
  unfold lse_logsum at h
  cases hz : eqv (lse_sum p Real.exp inp r) (fin 0) with
  | true => rw [hz] at h; simp at h
  | false =>
    rw [hz] at h
    simp only [Bool.false_eq_true, if_false] at h
    obtain ⟨m, hm⟩ : ∃ m, lse_max p inp r = fin m := by
      cases hm : lse_max p inp r with
      | fin m => exact ⟨m, rfl⟩
      | nan => rw [hm] at h; cases hl : vlog Real.log (lse_sum p Real.exp inp r) <;>
          rw [hl] at h <;> cases h
      | negInf => rw [hm] at h; cases hl : vlog Real.log (lse_sum p Real.exp inp r) <;>
          rw [hl] at h <;> cases h
      | posInf => rw [hm] at h; cases hl : vlog Real.log (lse_sum p Real.exp inp r) <;>
          rw [hl] at h <;> cases h
    obtain ⟨σ, hσ⟩ : ∃ σ, lse_sum p Real.exp inp r = fin σ := by
      cases hsum : lse_sum p Real.exp inp r with
      | fin σ => exact ⟨σ, rfl⟩
      | nan => rw [hsum, hm] at h; cases h
      | negInf => rw [hsum, hm] at h; cases h
      | posInf => rw [hsum, hm] at h; cases h
    have hfin : ∀ c, c < p.kMaxSplits → IsFin (lse_exp p Real.exp inp r c) := by
      apply isFin_of_sum_fin _ _ σ
      rw [← reduce_row_add]
      exact hσ
    have hL : ∀ c, c < p.kMaxSplits → IsLSE (lse_accum p inp r c) := by
      intro c hc
      have h1 := hfin c hc
      unfold lse_exp at h1
      rw [hm] at h1
      cases hx : lse_accum p inp r c with
      | fin x => trivial
      | negInf => trivial
      | nan => rw [hx] at h1; exact absurd h1 (by simp [eqv, sub_def, add, neg, vexp, IsFin])
      | posInf => rw [hx] at h1; exact absurd h1 (by simp [eqv, sub_def, add, neg, vexp, IsFin])
    have hv : ∀ s, s < inp.num_splits → IsLSE (inp.lse_acc s r) := by
      intro s hs
      have h1 := hL s (by omega)
      rwa [lse_accum_eq p inp r s hr (by omega), if_pos hs] at h1
    refine ⟨hv, ?_⟩
    by_contra hno
    have hall : ∀ s, s < inp.num_splits → inp.lse_acc s r = negInf := by
      intro s hs
      have h1 := hv s hs
      cases hx : inp.lse_acc s r with
      | negInf => rfl
      | fin x => exact absurd ⟨s, hs, by rw [hx]; trivial⟩ hno
      | nan => rw [hx] at h1; exact absurd h1 (by simp [IsLSE])
      | posInf => rw [hx] at h1; exact absurd h1 (by simp [IsLSE])
    have := (lse_row_degenerate p inp r hr hall).1
    rw [hm] at this
    cases this

/-- The scratch entries of a degenerate row after stage 4 are `0` on the valid columns. -/
theorem lse_scales_degenerate (p : Problem) (inp : Inputs ℝ) (r : Nat) (hr : r < p.kM0)
    (hn : inp.num_splits ≤ p.kMaxSplits)
    (hv : ∀ s, s < inp.num_splits → inp.lse_acc s r = negInf) (s : Nat)
    (hs : s < inp.num_splits) :
    lse_scales p Real.exp Real.log inp r s = fin 0 := by
  rw [lse_scales_valid p _ _ inp r s hr hn hs, (lse_row_degenerate p inp r hr hv).2]
  simp [eqv]

/-- The tile before postprocessing, split into the valid splits and the padding splits that the
accumulation loop consumes. -/
theorem o_acc_sum_split {R : Type} [LinearOrderedField R] (p : Problem) (exp log : R → R)
    (inp : Inputs R) (r c : Nat) (hr : r < p.kM0) :
    o_acc_sum p exp log inp r c
      = ∑ s in Finset.range inp.num_splits,
          lse_scales p exp log inp r s * inp.o_acc (s * p.kM0 + r) c
        + ∑ s in Finset.Ico inp.num_splits (padded_num_splits p inp.num_splits),
          lse_acc_lds p inp r s * inp.o_acc (s * p.kM0 + r) c := by
  rw [o_acc_sum_eq p exp log inp r c hr,
    ← Finset.sum_range_add_sum_Ico _ (padded_num_splits_le p inp.num_splits)]
  congr 1
  apply Finset.sum_congr rfl
  intro s hs
  rw [lse_scales_padding p exp log inp r s (Finset.mem_Ico.1 hs).1]

/-- The tile before postprocessing when `num_splits` is a multiple of `kNumWarps`. -/
theorem o_acc_sum_of_dvd {R : Type} [LinearOrderedField R] (p : Problem) (exp log : R → R)
    (inp : Inputs R) (r c : Nat) (hr : r < p.kM0) (hd : p.kNumWarps ∣ inp.num_splits) :
    o_acc_sum p exp log inp r c
      = ∑ s in Finset.range inp.num_splits,
          lse_scales p exp log inp r s * inp.o_acc (s * p.kM0 + r) c := by
  rw [o_acc_sum_eq p exp log inp r c hr, padded_num_splits_of_dvd p _ hd]

/-! ### The end-to-end scenario -/

theorem exp_one_bounds : (2.718 : ℝ) < Real.exp 1 ∧ Real.exp 1 < 2.719 :=
  ⟨lt_trans (by norm_num) Real.exp_one_gt_d9, lt_trans Real.exp_one_lt_d9 (by norm_num)⟩

theorem exp_two_eq : Real.exp 2 = Real.exp 1 * Real.exp 1 := by
  rw [← Real.exp_add]; norm_num

theorem exp_small_upper : Real.exp (0.3123 : ℝ) < 1.3666 := by
  have h := Real.exp_bound (show |(0.3123 : ℝ)| ≤ 1 by rw [abs_of_pos] <;> norm_num)
    (show 0 < 5 by norm_num)
  rw [abs_le] at h
  have h2 := h.2
  simp only [Finset.sum_range_succ, Finset.sum_range_zero, Nat.factorial] at h2
  rw [abs_of_pos (by norm_num : (0:ℝ) < 0.3123)] at h2
  norm_num at h2
  linarith

theorem exp_small_lower : (1.3692 : ℝ) < Real.exp (0.3143 : ℝ) := by
  have h := Real.exp_bound (show |(0.3143 : ℝ)| ≤ 1 by rw [abs_of_pos] <;> norm_num)
    (show 0 < 5 by norm_num)
  rw [abs_le] at h
  have h2 := h.1
  simp only [Finset.sum_range_succ, Finset.sum_range_zero, Nat.factorial] at h2
  rw [abs_of_pos (by norm_num : (0:ℝ) < 0.3143)] at h2
  norm_num at h2
  linarith

theorem log_scenario_bounds :
    |Real.log (Real.exp 1 + Real.exp 2) - 2.3133| < 0.001 := by
  obtain ⟨h1, h2⟩ := exp_one_bounds
  have hpos : 0 < Real.exp 1 + Real.exp 2 := add_pos (Real.exp_pos _) (Real.exp_pos _)
  have hu := exp_small_upper
  have hl := exp_small_lower
  rw [abs_lt]
  constructor
  · rw [lt_sub_iff_add_lt, Real.lt_log_iff_exp_lt hpos]
    have e : (-0.001 + 2.3133 : ℝ) = 1 + 1 + 0.3123 := by norm_num
    rw [e, Real.exp_add, Real.exp_add, exp_two_eq]
    nlinarith [Real.exp_pos 1, Real.exp_pos (0.3123 : ℝ)]
  · rw [sub_lt_iff_lt_add, Real.log_lt_iff_lt_exp hpos]
    have e : (0.001 + 2.3133 : ℝ) = 1 + 1 + 0.3143 := by norm_num
    rw [e, Real.exp_add, Real.exp_add, exp_two_eq]
    nlinarith [Real.exp_pos 1, Real.exp_pos (0.3143 : ℝ)]

theorem weight_bounds :
    |Real.exp 1 / (Real.exp 1 + Real.exp 2) - 0.269| < 0.001 ∧
    |Real.exp 2 / (Real.exp 1 + Real.exp 2) - 0.731| < 0.001 ∧
    |(Real.exp 1 + 2 * Real.exp 2) / (Real.exp 1 + Real.exp 2) - 1.731| < 0.001 := by
  obtain ⟨h1, h2⟩ := exp_one_bounds
  have hpos : 0 < Real.exp 1 + Real.exp 1 * Real.exp 1 :=
    add_pos (Real.exp_pos _) (mul_pos (Real.exp_pos _) (Real.exp_pos _))
  rw [exp_two_eq]
  refine ⟨?_, ?_, ?_⟩
  · rw [abs_lt]
    constructor
    · rw [lt_sub_iff_add_lt, lt_div_iff₀ hpos]; nlinarith
    · rw [sub_lt_iff_lt_add, div_lt_iff₀ hpos]; nlinarith
  · rw [abs_lt]
    constructor
    · rw [lt_sub_iff_add_lt, lt_div_iff₀ hpos]; nlinarith
    · rw [sub_lt_iff_lt_add, div_lt_iff₀ hpos]; nlinarith
  · rw [abs_lt]
    constructor
    · rw [lt_sub_iff_add_lt, lt_div_iff₀ hpos]; nlinarith
    · rw [sub_lt_iff_lt_add, div_lt_iff₀ hpos]; nlinarith

theorem isScenario_scenario (W : Nat) (hW : 0 < W) (a b : Val ℝ) :
    IsScenario (small_problem W hW) (scenario a b) :=
  ⟨rfl, rfl, Nat.le_succ 3, rfl, rfl, rfl, rfl, fun _ _ => ⟨rfl, rfl, rfl⟩⟩

theorem scenario_isLSE (p : Problem) (inp : Inputs ℝ) (h : IsScenario p inp) (s : Nat)
    (hs : s < inp.num_splits) : IsLSE (inp.lse_acc s 0) := by
  obtain ⟨_, _, _, hn, h0, h1, h2, _⟩ := h
  rw [hn] at hs
  interval_cases s
  · rw [h0]; trivial
  · rw [h1]; trivial
  · rw [h2]; trivial

theorem scenario_isFin (p : Problem) (inp : Inputs ℝ) (h : IsScenario p inp) :
    ∃ s, s < inp.num_splits ∧ IsFin (inp.lse_acc s 0) := by
  obtain ⟨_, _, _, hn, h0, _⟩ := h
  exact ⟨0, by omega, by rw [h0]; trivial⟩

theorem scenario_sum (p : Problem) (inp : Inputs ℝ) (h : IsScenario p inp) :
    ∑ i in Finset.range inp.num_splits, (vexp Real.exp (inp.lse_acc i 0)).toR
      = Real.exp 1 + Real.exp 2 := by
  obtain ⟨_, _, _, hn, h0, h1, h2, _⟩ := h
  rw [hn]
  simp [Finset.sum_range_succ, h0, h1, h2, vexp, toR]

theorem scenario_logsum (p : Problem) (inp : Inputs ℝ) (h : IsScenario p inp) :
    lse_logsum p Real.exp Real.log inp 0 = fin (Real.log (Real.exp 1 + Real.exp 2)) := by
  have h' := (lse_row_nondegenerate p inp 0 (by rw [h.1]; exact Nat.one_pos)
    (by rw [h.2.2.2.1]; exact h.2.2.1) (scenario_isLSE p inp h) (scenario_isFin p inp h)).2.2
  rw [scenario_sum p inp h] at h'
  exact h'

theorem scenario_scales (p : Problem) (inp : Inputs ℝ) (h : IsScenario p inp) :
    lse_scales p Real.exp Real.log inp 0 0 = fin (Real.exp 1 / (Real.exp 1 + Real.exp 2)) ∧
    lse_scales p Real.exp Real.log inp 0 1 = fin (Real.exp 2 / (Real.exp 1 + Real.exp 2)) ∧
    lse_scales p Real.exp Real.log inp 0 2 = fin 0 := by
  have hh := fun s hs => lse_scales_nondegenerate p inp 0 (by rw [h.1]; exact Nat.one_pos)
    (by rw [h.2.2.2.1]; exact h.2.2.1) (scenario_isLSE p inp h) (scenario_isFin p inp h) s hs
  rw [scenario_sum p inp h] at hh
  obtain ⟨_, _, _, hn, h0, h1, h2, _⟩ := h
  refine ⟨?_, ?_, ?_⟩
  · rw [hh 0 (by omega), h0]; simp [vexp, toR]
  · rw [hh 1 (by omega), h1]; simp [vexp, toR]
  · rw [hh 2 (by omega), h2]; simp [vexp, toR]

/-- The contribution of the three valid splits of the scenario to an output column. -/
theorem scenario_valid_sum (p : Problem) (inp : Inputs ℝ) (h : IsScenario p inp) (c : Nat)
    (hc : c < 2) :
    ∑ s in Finset.range inp.num_splits,
        lse_scales p Real.exp Real.log inp 0 s * inp.o_acc (s * p.kM0 + 0) c
      = fin ((Real.exp 1 + 2 * Real.exp 2) / (Real.exp 1 + Real.exp 2)) := by
  obtain ⟨w0, w1, w2⟩ := scenario_scales p inp h
  obtain ⟨hM, _, _, hn, _, _, _, ho⟩ := h
  obtain ⟨o0, o1, o2⟩ := ho c hc
  rw [hn, hM]
  simp only [Finset.sum_range_succ, Finset.sum_range_zero, Nat.mul_one, Nat.add_zero, w0, w1,
    w2, o0, o1, o2, fin_mul_fin, zero_add]
  rw [fin_add_fin, fin_add_fin]
  congr 1
  ring

/-- The scenario run with four warps: the loop also consumes the padding split 3, weighted
by the raw LSE value of that split. -/
theorem scenario_output_four (p : Problem) (inp : Inputs ℝ) (h : IsScenario p inp)
    (hW : p.kNumWarps = 4) (hK : 4 ≤ p.kMaxSplits) (c : Nat) (hc : c < 2) :
    o_acc_sum p Real.exp Real.log inp 0 c
      = fin ((Real.exp 1 + 2 * Real.exp 2) / (Real.exp 1 + Real.exp 2))
        + inp.lse_acc 3 0 * inp.o_acc 3 c := by
  have hM := h.1
  have hn := h.2.2.2.1
  have hpad : padded_num_splits p inp.num_splits = 4 := by
    unfold padded_num_splits integer_divide_ceil
    rw [hW, hn]
  rw [o_acc_sum_split p _ _ inp 0 c (by rw [hM]; exact Nat.one_pos),
    scenario_valid_sum p inp h c hc, hpad, hn]
  have e : Finset.Ico 3 4 = {3} := by decide
  rw [e, Finset.sum_singleton]
  simp only [lse_acc_lds]
  rw [if_pos ⟨by rw [hM]; exact Nat.one_pos, by omega⟩, hM]

theorem isScenario_w1 (a b : Val ℝ) : IsScenario problem_w1 (scenario a b) :=
  isScenario_scenario 1 _ a b

theorem isScenario_w4 (a b : Val ℝ) : IsScenario problem_w4 (scenario a b) :=
  isScenario_scenario 4 _ a b

theorem isScenario_w4_k8 (a b : Val ℝ) : IsScenario problem_w4_k8 (scenario a b) :=
  ⟨rfl, rfl, by decide, rfl, rfl, rfl, rfl, fun _ _ => ⟨rfl, rfl, rfl⟩⟩

/-- The scenario run with `kNumWarps = 4` and `kMaxSplits = 4`, the padding split 3 holding
the LSE `a` and the output entries `b`. -/
theorem scenario_w4_output (a b : Val ℝ) (c : Nat) (hc : c < 2) :
    o_acc_sum problem_w4 Real.exp Real.log (scenario a b) 0 c
      = fin ((Real.exp 1 + 2 * Real.exp 2) / (Real.exp 1 + Real.exp 2)) + a * b := by
  rw [scenario_output_four _ _ (isScenario_w4 a b) rfl (by decide) c hc]
  rfl

/-- The scenario run with `kNumWarps = 4` and `kMaxSplits = 8`. -/
theorem scenario_w4_k8_output (a b : Val ℝ) (c : Nat) (hc : c < 2) :
    o_acc_sum problem_w4_k8 Real.exp Real.log (scenario a b) 0 c
      = fin ((Real.exp 1 + 2 * Real.exp 2) / (Real.exp 1 + Real.exp 2)) + a * b := by
  rw [scenario_output_four _ _ (isScenario_w4_k8 a b) rfl (by decide) c hc]
  rfl

end lse

/-! ## What the stages depend on -/

section dependence

open BlockFmhaFwdSplitKVCombinePipeline Val

theorem reduce_row_congr {R : Type} (f : Val R → Val R → Val R) (init : Val R)
    (v w : Nat → Val R) (n : Nat) (h : ∀ c, c < n → v c = w c) :
    reduce_row f init v n = reduce_row f init w n := by
  induction n with
  | zero => rfl
  | succ n ih =>
    simp only [reduce_row]
    rw [ih (fun c hc => h c (Nat.lt_succ_of_lt hc)), h n (Nat.lt_succ_self n)]

/-- The merged statistic of a row depends only on the LSE values of the valid splits of that
row. -/
theorem lse_logsum_congr {R : Type} [LinearOrderedField R] (p : Problem) (exp log : R → R)
    (in1 in2 : Inputs R) (r : Nat) (hr : r < p.kM0) (hnum : in1.num_splits = in2.num_splits)
    (h : ∀ s, s < in1.num_splits → in1.lse_acc s r = in2.lse_acc s r) :
    lse_logsum p exp log in1 r = lse_logsum p exp log in2 r := by
  have hacc : ∀ c, c < p.kMaxSplits → lse_accum p in1 r c = lse_accum p in2 r c := by
    intro c hc
    rw [lse_accum_eq p in1 r c hr hc, lse_accum_eq p in2 r c hr hc, ← hnum]
    by_cases hcn : c < in1.num_splits
    · rw [if_pos hcn, if_pos hcn, h c hcn]
    · rw [if_neg hcn, if_neg hcn]
  have hmax : lse_max p in1 r = lse_max p in2 r :=
    reduce_row_congr _ _ _ _ _ hacc
  have hexp : ∀ c, c < p.kMaxSplits → lse_exp p exp in1 r c = lse_exp p exp in2 r c := by
    intro c hc
    unfold lse_exp
    rw [hmax, hacc c hc]
  have hsum : lse_sum p exp in1 r = lse_sum p exp in2 r :=
    reduce_row_congr _ _ _ _ _ hexp
  unfold lse_logsum
  rw [hsum, hmax]

/-- The scratch entry of a valid split after stage 4 depends only on the LSE values of the
valid splits of that row. -/
theorem lse_scales_congr {R : Type} [LinearOrderedField R] (p : Problem) (exp log : R → R)
    (in1 in2 : Inputs R) (r : Nat) (hr : r < p.kM0) (hnum : in1.num_splits = in2.num_splits)
    (hn : in1.num_splits ≤ p.kMaxSplits)
    (h : ∀ s, s < in1.num_splits → in1.lse_acc s r = in2.lse_acc s r) (s : Nat)
    (hs : s < in1.num_splits) :
    lse_scales p exp log in1 r s = lse_scales p exp log in2 r s := by
  rw [lse_scales_valid p exp log in1 r s hr hn hs,
    lse_scales_valid p exp log in2 r s hr (hnum ▸ hn) (hnum ▸ hs),
    lse_logsum_congr p exp log in1 in2 r hr hnum h, h s hs]

/-- The merged statistic of a row of well-formed LSE values, in closed form. -/
theorem lse_logsum_closed (p : Problem) (inp : Inputs ℝ) (r : Nat) (hr : r < p.kM0)
    (hn : inp.num_splits ≤ p.kMaxSplits)
    (hv : ∀ s, s < inp.num_splits → IsLSE (inp.lse_acc s r)) :
    ((∃ s, s < inp.num_splits ∧ IsFin (inp.lse_acc s r)) ∧
      lse_logsum p Real.exp Real.log inp r
        = fin (Real.log (∑ s in Finset.range inp.num_splits,
            (vexp Real.exp (inp.lse_acc s r)).toR))) ∨
    ((∀ s, s < inp.num_splits → inp.lse_acc s r = negInf) ∧
      lse_logsum p Real.exp Real.log inp r = negInf) := by
  by_cases hf : ∃ s, s < inp.num_splits ∧ IsFin (inp.lse_acc s r)
  · exact Or.inl ⟨hf, (lse_row_nondegenerate p inp r hr hn hv hf).2.2⟩
  · right
    have hall : ∀ s, s < inp.num_splits → inp.lse_acc s r = negInf := by
      intro s hs
      have h1 := hv s hs
      cases hx : inp.lse_acc s r with
      | negInf => rfl
      | fin x => exact absurd ⟨s, hs, by rw [hx]; trivial⟩ hf
      | nan => rw [hx] at h1; exact absurd h1 (by simp [IsLSE])
      | posInf => rw [hx] at h1; exact absurd h1 (by simp [IsLSE])
    exact ⟨hall, (lse_row_degenerate p inp r hr hall).2⟩

/-- A property that every iteration of the loop preserves holds when the loop is left. -/
theorem for_splits_invariant {σ : Type} (W padded : Nat) (hW : 0 < W) (body : Nat → σ → σ)
    (Inv : Nat → σ → Prop)
    (hstep : ∀ s st, s < padded → Inv s st → Inv (s + W) (body s st)) (k : Nat) :
    ∀ s st, padded - s ≤ k → Inv s st →
      ∃ s1, padded ≤ s1 ∧ Inv s1 (for_splits W padded hW body s st) := by
  induction k with
  | zero =>
    intro s st hk hi
    rw [for_splits_done W padded hW body s st (by omega)]
    exact ⟨s, by omega, hi⟩
  | succ k ih =>
    intro s st hk hi
    by_cases hs : s < padded
    · rw [for_splits_step W padded hW body s st hs]
      exact ih (s + W) (body s st) (by omega) (hstep s st hs hi)
    · rw [for_splits_done W padded hW body s st (by omega)]
      exact ⟨s, by omega, hi⟩

/-- Every scratch lookup of the accumulation loop is at a row of the block and at a column
below `padded_num_splits`. -/
theorem lse_scale_lookups_bound (p : Problem) (n : Nat) (e : Nat × Nat)
    (he : e ∈ lse_scale_lookups p n) : e.1 < p.kM0 ∧ e.2 < padded_num_splits p n := by
  have hW := p.kNumWarps_pos
  have hdvd : p.kNumWarps ∣ padded_num_splits p n := Dvd.intro_left _ rfl
  obtain ⟨s1, _, _, hall⟩ := for_splits_invariant p.kNumWarps (padded_num_splits p n) hW
    (lookup_body p)
    (fun s acc => p.kNumWarps ∣ s ∧ ∀ e, e ∈ acc → e.1 < p.kM0 ∧ e.2 < padded_num_splits p n)
    (by
      intro s acc hs ⟨hd, hacc⟩
      refine ⟨Dvd.dvd.add hd (dvd_refl _), ?_⟩
      intro e he
      unfold lookup_body at he
      rcases List.mem_append.1 he with h | h
      · exact hacc e h
      · obtain ⟨row, hrow, rfl⟩ := List.mem_map.1 h
        have hrow1 := List.mem_range.1 hrow
        have hM : 0 < p.kM0 := by
          rcases Nat.eq_zero_or_pos p.kM0 with h0 | h0
          · rw [h0] at hrow1; simp at hrow1
          · exact h0
        have hw : get_warp_id p row < p.kNumWarps := by
          unfold get_warp_id
          exact Nat.div_lt_of_lt_mul (by rwa [Nat.mul_comm] at hrow1)
        have hle : s + p.kNumWarps ≤ padded_num_splits p n := by
          obtain ⟨a, ha⟩ := hd
          obtain ⟨b, hb⟩ := hdvd
          rw [ha, hb] at hs ⊢
          have hab : a < b := Nat.lt_of_mul_lt_mul_left hs
          calc p.kNumWarps * a + p.kNumWarps = p.kNumWarps * (a + 1) := by ring
            _ ≤ p.kNumWarps * b := Nat.mul_le_mul_left _ hab
        refine ⟨?_, by simp only; omega⟩
        simp only
        unfold get_warp_id
        have := Nat.div_add_mod row p.kM0
        have := Nat.mod_lt row hM
        omega)
    (padded_num_splits p n) 0 [] (by omega) ⟨dvd_zero _, by simp⟩
  exact hall e he

/-- The accumulation loop looks up every column below `padded_num_splits`. -/
theorem lse_scale_lookups_cover (p : Problem) (n : Nat) (hM : 0 < p.kM0) (c : Nat)
    (hc : c < padded_num_splits p n) : (0, c) ∈ lse_scale_lookups p n := by
  have hW := p.kNumWarps_pos
  obtain ⟨s1, hs1, hall⟩ := for_splits_invariant p.kNumWarps (padded_num_splits p n) hW
    (lookup_body p) (fun s acc => ∀ c, c < s → (0, c) ∈ acc)
    (by
      intro s acc _ hacc c hc
      unfold lookup_body
      rw [List.mem_append]
      by_cases hcs : c < s
      · exact Or.inl (hacc c hcs)
      · right
        rw [List.mem_map]
        refine ⟨(c - s) * p.kM0, ?_, ?_⟩
        · rw [List.mem_range]
          exact Nat.mul_lt_mul_of_pos_right (by omega) hM
        · have hw : get_warp_id p ((c - s) * p.kM0) = c - s := by
            unfold get_warp_id
            exact Nat.mul_div_cancel _ hM
          rw [hw, Nat.mul_comm, Nat.sub_self]
          congr 1
          omega)
    (padded_num_splits p n) 0 [] (by omega) (by intro c hc; omega)
  exact hall c (by omega)

end dependence

/-! ## The events of one call -/

section events

variable {R : Type} [LinearOrderedField R]

open BlockFmhaFwdSplitKVCombinePipeline

/-- A loop whose bound is `T * W` runs its body `T` times, at `0, W, 2 W, ...`. -/
theorem for_splits_eq_foldl {σ : Type} (W T : Nat) (hW : 0 < W) (body : Nat → σ → σ)
    (st : σ) :
    for_splits W (T * W) hW body 0 st
      = (List.range T).foldl (fun st t => body (t * W) st) st := by
  have key : ∀ (k j : Nat) (st : σ), j + k = T →
      for_splits W (T * W) hW body (j * W) st
        = (List.range' j k).foldl (fun st t => body (t * W) st) st := by
    intro k
    induction k with
    | zero =>
      intro j st hj
      rw [for_splits_done _ _ _ _ _ _ (by rw [← hj]; simp)]
      rfl
    | succ k ih =>
      intro j st hj
      have hlt : j * W < T * W := Nat.mul_lt_mul_of_pos_right (by omega) hW
      rw [for_splits_step _ _ _ _ _ _ hlt, List.range'_succ, List.foldl_cons]
      have e : j * W + W = (j + 1) * W := by ring
      rw [e]
      exact ih (j + 1) (body (j * W) st) (by omega)
  have h := key T 0 st (by omega)
  rw [Nat.zero_mul] at h
  rw [h, List.range_eq_range']

/-- The iterations of the accumulation loop with their events: the values are those of the
loop without events, and every iteration appends one tile load and one window move. -/
theorem traced_foldl (p : Problem) (lds o : Tile R) (l : List Nat) :
    ∀ st : AccState R × List Event,
      l.foldl (fun st t => traced_body p lds o (t * p.kNumWarps) st) st
        = (l.foldl (fun a t => accumulate_body p lds o (t * p.kNumWarps) a) st.1,
           st.2 ++ l.flatMap (fun _ =>
             [Event.load_tile Window.o_acc_4_dram_window,
              Event.move_tile_window Window.o_acc_4_dram_window (p.kNumWarps * p.kM0)])) := by
  induction l with
  | nil => intro st; simp
  | cons t l ih =>
    intro st
    rw [List.foldl_cons, ih]
    simp [traced_body]

/-- The window origin after `k` iterations of the accumulation loop. -/
theorem window_row_foldl (p : Problem) (lds o : Tile R) (l : List Nat) :
    ∀ st : AccState R,
      (l.foldl (fun a t => accumulate_body p lds o (t * p.kNumWarps) a) st).window_row
        = st.window_row + l.length * (p.kNumWarps * p.kM0) := by
  induction l with
  | nil => intro st; simp
  | cons t l ih =>
    intro st
    rw [List.foldl_cons, ih]
    simp only [accumulate_body, List.length_cons]
    ring

/-- The traced accumulation loop of one call, in closed form. -/
theorem traced_loop_eq (p : Problem) (lds o : Tile R) (n : Nat)
    (st : AccState R × List Event) :
    for_splits p.kNumWarps (padded_num_splits p n) p.kNumWarps_pos (traced_body p lds o) 0 st
      = ((for_splits p.kNumWarps (padded_num_splits p n) p.kNumWarps_pos
            (accumulate_body p lds o) 0 st.1),
         st.2 ++ (List.range (integer_divide_ceil n p.kNumWarps)).flatMap (fun _ =>
           [Event.load_tile Window.o_acc_4_dram_window,
            Event.move_tile_window Window.o_acc_4_dram_window (p.kNumWarps * p.kM0)])) := by
  unfold padded_num_splits
  rw [for_splits_eq_foldl, for_splits_eq_foldl, traced_foldl]

/-- The values of the traced call are those of `operator_call`. -/
theorem operator_call_traced_fst (p : Problem) (exp log : R → R) (f g : Val R → Val R)
    (inp : Inputs R) :
    (operator_call_traced p exp log f g inp).1 = operator_call p exp log f g inp := by
  unfold operator_call_traced operator_call o_acc_sum o_acc_4
  simp only [traced_loop_eq]

/-- The events of one call, in closed form. -/
theorem operator_call_traced_snd (p : Problem) (exp log : R → R) (f g : Val R → Val R)
    (inp : Inputs R) :
    (operator_call_traced p exp log f g inp).2
      = events_before_loop p inp.num_splits
        ++ (List.range (integer_divide_ceil inp.num_splits p.kNumWarps)).flatMap (fun _ =>
           [Event.load_tile Window.o_acc_4_dram_window,
            Event.move_tile_window Window.o_acc_4_dram_window (p.kNumWarps * p.kM0)])
        ++ [Event.store_tile Window.o_acc_4_lds_window, Event.block_sync_lds 339]
        ++ reduce_warps_events p := by
  unfold operator_call_traced
  simp only [traced_loop_eq]

theorem filter_sync_store_lse_scales (p : Problem) (n : Nat) :
    (store_lse_scales_events p n).filter Event.is_sync = [] := by
  rw [List.filter_eq_nil_iff]
  intro e he
  unfold store_lse_scales_events at he
  obtain ⟨row, _, h⟩ := List.mem_flatMap.1 he
  obtain ⟨col, _, rfl⟩ := List.mem_map.1 h
  simp [Event.is_sync]

theorem filter_sync_loop (k rows : Nat) :
    ((List.range k).flatMap (fun _ =>
      [Event.load_tile Window.o_acc_4_dram_window,
       Event.move_tile_window Window.o_acc_4_dram_window rows])).filter Event.is_sync
      = [] := by
  rw [List.filter_eq_nil_iff]
  intro e he
  obtain ⟨_, _, h⟩ := List.mem_flatMap.1 he
  simp only [List.mem_cons, List.mem_singleton, List.not_mem_nil, or_false] at h
  rcases h with rfl | rfl <;> simp [Event.is_sync]

theorem filter_sync_reduce_warps (p : Problem) :
    (reduce_warps_events p).filter Event.is_sync = [] := by
  rw [List.filter_eq_nil_iff]
  intro e he
  unfold reduce_warps_events at he
  obtain ⟨_, _, h⟩ := List.mem_flatMap.1 he
  simp only [List.mem_cons, List.mem_singleton, List.not_mem_nil, or_false] at h
  rcases h with rfl | rfl <;> simp [Event.is_sync]

/-- The barriers of one call, in program order. -/
theorem filter_sync_operator_call (p : Problem) (exp log : R → R) (f g : Val R → Val R)
    (inp : Inputs R) :
    (operator_call_traced p exp log f g inp).2.filter Event.is_sync
      = [Event.block_sync_lds 151, Event.block_sync_lds 288, Event.block_sync_lds 339] := by
  rw [operator_call_traced_snd]
  unfold events_before_loop
  simp only [List.filter_append, filter_sync_store_lse_scales, filter_sync_loop,
    filter_sync_reduce_warps]
  by_cases h : p.kStoreLSE = true <;> simp [h, Event.is_sync, List.filter]

theorem store_tile_not_mem_store_lse_scales (p : Problem) (n : Nat) (w : Window) :
    Event.store_tile w ∉ store_lse_scales_events p n := by
  intro he
  unfold store_lse_scales_events at he
  obtain ⟨row, _, h⟩ := List.mem_flatMap.1 he
  obtain ⟨col, _, h2⟩ := List.mem_map.1 h
  cases h2

theorem store_tile_not_mem_loop (k rows : Nat) (w : Window) :
    Event.store_tile w ∉ (List.range k).flatMap (fun _ =>
      [Event.load_tile Window.o_acc_4_dram_window,
       Event.move_tile_window Window.o_acc_4_dram_window rows]) := by
  intro he
  obtain ⟨_, _, h⟩ := List.mem_flatMap.1 he
  simp at h

theorem store_tile_not_mem_reduce_warps (p : Problem) (w : Window) :
    Event.store_tile w ∉ reduce_warps_events p := by
  intro he
  unfold reduce_warps_events at he
  obtain ⟨_, _, h⟩ := List.mem_flatMap.1 he
  simp at h

/-- The stores of one call to tile windows: only the scratch windows and, when `kStoreLSE` is
set, the merged-LSE destination. -/
theorem store_tile_mem_operator_call (p : Problem) (exp log : R → R) (f g : Val R → Val R)
    (inp : Inputs R) (w : Window)
    (h : Event.store_tile w ∈ (operator_call_traced p exp log f g inp).2) :
    w = Window.lse_acc_lds ∨ w = Window.o_acc_4_lds_window ∨
      (w = Window.lse_dram_window_tmp ∧ p.kStoreLSE = true) := by
  rw [operator_call_traced_snd] at h
  unfold events_before_loop at h
  simp only [List.mem_append, or_assoc] at h
  rcases h with h | h | h | h | h | h | h
  · simp at h; exact Or.inl h
  · exact absurd h (store_tile_not_mem_store_lse_scales p _ w)
  · by_cases hS : p.kStoreLSE = true
    · simp [hS] at h; exact Or.inr (Or.inr ⟨h, hS⟩)
    · simp [hS] at h
  · simp at h
  · exact absurd h (store_tile_not_mem_loop _ _ w)
  · simp at h; exact Or.inr (Or.inl h)
  · exact absurd h (store_tile_not_mem_reduce_warps p w)

/-- The number of `store_tile` statements of one call on the merged-LSE destination. -/
theorem count_store_lse_dram (p : Problem) (exp log : R → R) (f g : Val R → Val R)
    (inp : Inputs R) :
    (operator_call_traced p exp log f g inp).2.count
        (Event.store_tile Window.lse_dram_window_tmp)
      = if p.kStoreLSE = true then 1 else 0 := by
  rw [operator_call_traced_snd]
  unfold events_before_loop
  simp only [List.count_append,
    List.count_eq_zero.2 (store_tile_not_mem_store_lse_scales p _ _),
    List.count_eq_zero.2 (store_tile_not_mem_loop _ _ _),
    List.count_eq_zero.2 (store_tile_not_mem_reduce_warps p _)]
  by_cases hS : p.kStoreLSE = true <;> simp [hS, List.count_cons]

theorem padded_num_splits_lt (p : Problem) (n : Nat) :
    padded_num_splits p n < n + p.kNumWarps := by
  have hW := p.kNumWarps_pos
  unfold padded_num_splits integer_divide_ceil
  have := Nat.div_mul_le_self (n + p.kNumWarps - 1) p.kNumWarps
  omega

theorem padded_num_splits_least (p : Problem) (n m : Nat) (hd : p.kNumWarps ∣ m)
    (hm : n ≤ m) : padded_num_splits p n ≤ m := by
  have hW := p.kNumWarps_pos
  obtain ⟨q, rfl⟩ := hd
  unfold padded_num_splits integer_divide_ceil
  rw [Nat.mul_comm p.kNumWarps q]
  apply Nat.mul_le_mul_right
  apply Nat.lt_succ_iff.1
  rw [Nat.div_lt_iff_lt_mul hW, Nat.succ_mul]
  rw [Nat.mul_comm] at hm
  omega

theorem integer_divide_ceil_eq_ceil (n W : Nat) (hW : 0 < W) :
    integer_divide_ceil n W = ⌈(n : ℚ) / (W : ℚ)⌉₊ := by
  have hWq : (0 : ℚ) < (W : ℚ) := by exact_mod_cast hW
  have hle : n ≤ integer_divide_ceil n W * W := by
    unfold integer_divide_ceil
    have h := Nat.div_add_mod (n + W - 1) W
    have h2 := Nat.mod_lt (n + W - 1) hW
    rw [Nat.mul_comm] at h
    omega
  apply le_antisymm
  · have h1 : (n : ℚ) / (W : ℚ) ≤ (⌈(n : ℚ) / (W : ℚ)⌉₊ : ℚ) := Nat.le_ceil _
    rw [div_le_iff₀ hWq] at h1
    have h2 : n ≤ ⌈(n : ℚ) / (W : ℚ)⌉₊ * W := by exact_mod_cast h1
    unfold integer_divide_ceil
    apply Nat.lt_succ_iff.1
    rw [Nat.div_lt_iff_lt_mul hW, Nat.succ_mul]
    omega
  · rw [Nat.ceil_le, div_le_iff₀ hWq]
    exact_mod_cast hle

/-- The loop header alone: the number of iterations. -/
theorem for_splits_count (p : Problem) (n : Nat) :
    for_splits p.kNumWarps (padded_num_splits p n) p.kNumWarps_pos (fun _ k => k + 1) 0 0
      = integer_divide_ceil n p.kNumWarps := by
  unfold padded_num_splits
  rw [for_splits_eq_foldl]
  generalize integer_divide_ceil n p.kNumWarps = T
  have h : ∀ (l : List Nat) (k : Nat), l.foldl (fun k _ => k + 1) k = k + l.length := by
    intro l
    induction l with
    | nil => intro k; rfl
    | cons a l ih => intro k; rw [List.foldl_cons, ih, List.length_cons]; omega
  rw [h, List.length_range, Nat.zero_add]

/-- The running sums after the accumulation loop: the rows of warp `g` hold, for row `r` of
the block, the sum over the iterations `t` of the scratch entry of split `t * kNumWarps + g`
times the element of that split. -/
theorem o_acc_4_eq (p : Problem) (exp log : R → R) (inp : Inputs R) (g r c : Nat)
    (hr : r < p.kM0) :
    o_acc_4 p exp log inp (g * p.kM0 + r) c
      = ∑ t in Finset.range (integer_divide_ceil inp.num_splits p.kNumWarps),
          lse_scales p exp log inp r (t * p.kNumWarps + g)
            * inp.o_acc ((t * p.kNumWarps + g) * p.kM0 + r) c := by
  have hrow : get_warp_id p (g * p.kM0 + r) = g := by
    unfold get_warp_id
    rw [Nat.mul_comm, Nat.mul_add_div (by omega), Nat.div_eq_of_lt hr, Nat.add_zero]
  unfold o_acc_4
  rw [accumulate_loop_eq p _ _ _ (integer_divide_ceil inp.num_splits p.kNumWarps)]
  · simp only [Nat.zero_add, zero_add, hrow]
    apply Finset.sum_congr rfl
    intro t _
    have e1 : g * p.kM0 + r - p.kM0 * g = r := by rw [Nat.mul_comm]; omega
    have e2 : t * (p.kNumWarps * p.kM0) + (g * p.kM0 + r)
        = (t * p.kNumWarps + g) * p.kM0 + r := by ring
    rw [e1, e2]
  · intro i hi
    unfold padded_num_splits
    have := Nat.mul_lt_mul_of_pos_right hi p.kNumWarps_pos
    omega
  · unfold padded_num_splits
    omega

/-- The tile before postprocessing is the sum of the `kNumWarps` row blocks of `o_acc_4`. -/
theorem o_acc_sum_eq_warps (p : Problem) (exp log : R → R) (inp : Inputs R) (r c : Nat) :
    o_acc_sum p exp log inp r c
      = ∑ g in Finset.range p.kNumWarps, o_acc_4 p exp log inp (g * p.kM0 + r) c := by
  unfold o_acc_sum
  rw [reduce_warps_eq]
  simp only [Nat.zero_add]
  exact zero_add _

end events

/-! ## The stable log-sum-exp without overflow -/

section stable

open BlockFmhaFwdSplitKVCombinePipeline Val

theorem max_posInf_right {R : Type} [LinearOrderedField R] (a : Val R) :
    Val.max a posInf = posInf := by
  cases a <;> simp [Val.max, gt]

theorem max_posInf_left {R : Type} [LinearOrderedField R] (b : Val R) (hb : b ≠ nan) :
    Val.max posInf b = posInf := by
  cases b <;> simp [Val.max, gt] at hb ⊢

theorem max_ne_nan {R : Type} [LinearOrderedField R] (a b : Val R) (ha : a ≠ nan)
    (hb : b ≠ nan) : Val.max a b ≠ nan := by
  unfold Val.max
  split <;> assumption

/-- The maximum of a row without NaN is not NaN, and it is `+inf` as soon as one entry is. -/
theorem reduce_max_nan_free {R : Type} [LinearOrderedField R] (v : Nat → Val R) (K : Nat)
    (h : ∀ c, c < K → v c ≠ nan) :
    reduce_row Val.max negInf v K ≠ nan ∧
    ((∃ c, c < K ∧ v c = posInf) → reduce_row Val.max negInf v K = posInf) := by
  induction K with
  | zero =>
    refine ⟨by simp [reduce_row], ?_⟩
    rintro ⟨c, hc, _⟩
    exact absurd hc (Nat.not_lt_zero c)
  | succ K ih =>
    obtain ⟨ih1, ih2⟩ := ih (fun c hc => h c (Nat.lt_succ_of_lt hc))
    have hK := h K (Nat.lt_succ_self K)
    refine ⟨max_ne_nan _ _ ih1 hK, ?_⟩
    rintro ⟨c, hc, hv⟩
    simp only [reduce_row]
    rcases Nat.lt_succ_iff_lt_or_eq.1 hc with h1 | h1
    · rw [ih2 ⟨c, h1, hv⟩]
      exact max_posInf_left _ hK
    · rw [h1] at hv
      rw [hv]
      exact max_posInf_right _

/-- A row without NaN whose maximum is finite holds finite values and `-inf` only. -/
theorem isLSE_of_max_fin {R : Type} [LinearOrderedField R] (v : Nat → Val R) (K : Nat) (m : R)
    (h : ∀ c, c < K → v c ≠ nan) (hm : reduce_row Val.max negInf v K = fin m) :
    ∀ c, c < K → IsLSE (v c) := by
  intro c hc
  have h2 := (reduce_max_nan_free v K h).2
  cases hx : v c with
  | fin x => trivial
  | negInf => trivial
  | nan => exact absurd hx (h c hc)
  | posInf =>
    rw [h2 ⟨c, hc, hx⟩] at hm
    cases hm

/-- The stable log-sum-exp of a row without NaN whose maximum is the finite number `m`. -/
theorem lse_row_stable (p : Problem) (inp : Inputs ℝ) (r : Nat) (m : ℝ) (hr : r < p.kM0)
    (hnan : ∀ s, s < inp.num_splits → inp.lse_acc s r ≠ nan)
    (hmax : lse_max p inp r = fin m) :
    (∀ c, c < p.kMaxSplits →
      lse_accum p inp r c = negInf ∨ ∃ x, lse_accum p inp r c = fin x ∧ x - m ≤ 0) ∧
    (∀ c, c < p.kMaxSplits →
      ∃ e, lse_exp p Real.exp inp r c = fin e ∧ 0 ≤ e ∧ e ≤ 1 ∧
        (inp.num_splits ≤ c → e = 0)) ∧
    (∃ c, c < p.kMaxSplits ∧ lse_exp p Real.exp inp r c = fin 1) := by
  have hacc := fun c hc => lse_accum_eq p inp r c hr hc
  have hnan2 : ∀ c, c < p.kMaxSplits → lse_accum p inp r c ≠ nan := by
    intro c hc
    rw [hacc c hc]
    split
    · exact hnan c ‹_›
    · simp
  have hL := isLSE_of_max_fin (lse_accum p inp r) p.kMaxSplits m hnan2 hmax
  have harg : ∀ c, c < p.kMaxSplits →
      lse_accum p inp r c = negInf ∨ ∃ x, lse_accum p inp r c = fin x ∧ x - m ≤ 0 := by
    intro c hc
    rcases reduce_max_spec (lse_accum p inp r) p.kMaxSplits hL with
      ⟨e, _⟩ | ⟨m1, e, _, hle⟩
    · rw [show reduce_row Val.max negInf (lse_accum p inp r) p.kMaxSplits = fin m from hmax]
        at e
      cases e
    · have hm1 : m1 = m := by
        have : fin m1 = fin m := e.symm.trans hmax
        injection this
      have hLc := hL c hc
      cases hx : lse_accum p inp r c with
      | fin x => exact Or.inr ⟨x, rfl, by have := hle c hc x hx; rw [hm1] at this; linarith⟩
      | negInf => exact Or.inl rfl
      | nan => rw [hx] at hLc; exact absurd hLc (by simp [IsLSE])
      | posInf => rw [hx] at hLc; exact absurd hLc (by simp [IsLSE])
  refine ⟨harg, ?_, ?_⟩
  · intro c hc
    unfold lse_exp
    rw [hmax]
    rcases harg c hc with h | ⟨x, h, hx⟩
    · rw [h]
      exact ⟨0, by simp [eqv, vexp], le_refl _, zero_le_one, fun _ => rfl⟩
    · rw [h]
      refine ⟨Real.exp (x - m), by simp [eqv, vexp], Real.exp_nonneg _,
        Real.exp_le_one_iff.2 hx, ?_⟩
      intro hcn
      rw [hacc c hc, if_neg (by omega)] at h
      cases h
  · rcases reduce_max_spec (lse_accum p inp r) p.kMaxSplits hL with
      ⟨e, _⟩ | ⟨m1, e, ⟨c0, hc0, e0⟩, _⟩
    · rw [show reduce_row Val.max negInf (lse_accum p inp r) p.kMaxSplits = fin m from hmax]
        at e
      cases e
    · have hm1 : m1 = m := by
        have : fin m1 = fin m := e.symm.trans hmax
        injection this
      refine ⟨c0, hc0, ?_⟩
      unfold lse_exp
      rw [hmax, e0, hm1]
      simp [eqv, vexp]

/-- The row sum and the merged statistic of a row without NaN whose maximum is finite. -/
theorem lse_sum_stable (p : Problem) (inp : Inputs ℝ) (r : Nat) (m : ℝ) (hr : r < p.kM0)
    (hnan : ∀ s, s < inp.num_splits → inp.lse_acc s r ≠ nan)
    (hmax : lse_max p inp r = fin m) :
    ∃ S, lse_sum p Real.exp inp r = fin S ∧ 1 ≤ S ∧ S ≤ (inp.num_splits : ℝ) ∧
      lse_logsum p Real.exp Real.log inp r = fin (Real.log S + m) := by
  obtain ⟨_, hexp, ⟨c0, hc0, h1⟩⟩ := lse_row_stable p inp r m hr hnan hmax
  have hfin : ∀ c, c ∈ Finset.range p.kMaxSplits →
      lse_exp p Real.exp inp r c = fin ((fun c => (lse_exp p Real.exp inp r c).toR) c) := by
    intro c hc
    obtain ⟨e, he, _⟩ := hexp c (Finset.mem_range.1 hc)
    simp only [he, toR]
  have hsum : lse_sum p Real.exp inp r
      = fin (∑ c in Finset.range p.kMaxSplits, (lse_exp p Real.exp inp r c).toR) := by
    unfold lse_sum block_tile_reduce
    rw [reduce_row_add, Finset.sum_congr rfl hfin, sum_fin]
  have hnn : ∀ c, c ∈ Finset.range p.kMaxSplits → 0 ≤ (lse_exp p Real.exp inp r c).toR := by
    intro c hc
    obtain ⟨e, he, h0, _⟩ := hexp c (Finset.mem_range.1 hc)
    simp only [he, toR]
    exact h0
  have hlow : 1 ≤ ∑ c in Finset.range p.kMaxSplits, (lse_exp p Real.exp inp r c).toR := by
    have h := Finset.single_le_sum hnn (Finset.mem_range.2 hc0)
    rw [h1] at h
    exact h
  have hup : ∑ c in Finset.range p.kMaxSplits, (lse_exp p Real.exp inp r c).toR
      ≤ (inp.num_splits : ℝ) := by
    have hle : ∀ c, c ∈ Finset.range p.kMaxSplits →
        (lse_exp p Real.exp inp r c).toR ≤ if c < inp.num_splits then (1 : ℝ) else 0 := by
      intro c hc
      obtain ⟨e, he, _, h1, hz⟩ := hexp c (Finset.mem_range.1 hc)
      simp only [he, toR]
      by_cases hcn : c < inp.num_splits
      · rw [if_pos hcn]; exact h1
      · rw [if_neg hcn, hz (not_lt.1 hcn)]
    refine le_trans (Finset.sum_le_sum hle) ?_
    rw [Finset.sum_boole]
    have hsub : Finset.filter (fun c => c < inp.num_splits) (Finset.range p.kMaxSplits)
        ⊆ Finset.range inp.num_splits := by
      intro c hc
      exact Finset.mem_range.2 (Finset.mem_filter.1 hc).2
    have := Finset.card_le_card hsub
    rw [Finset.card_range] at this
    exact_mod_cast this
  refine ⟨_, hsum, hlow, hup, ?_⟩
  have hpos : 0 < ∑ c in Finset.range p.kMaxSplits, (lse_exp p Real.exp inp r c).toR :=
    lt_of_lt_of_le zero_lt_one hlow
  unfold lse_logsum
  rw [hsum, hmax]
  have h1 : eqv (fin (∑ c in Finset.range p.kMaxSplits, (lse_exp p Real.exp inp r c).toR))
      (fin 0) = false := by
    simp only [eqv]
    exact decide_eq_false (ne_of_gt hpos)
  have h2 : vlog Real.log
      (fin (∑ c in Finset.range p.kMaxSplits, (lse_exp p Real.exp inp r c).toR))
      = fin (Real.log (∑ c in Finset.range p.kMaxSplits,
          (lse_exp p Real.exp inp r c).toR)) := by
    simp only [vlog]
    rw [if_neg (not_lt.2 (le_of_lt hpos)), if_neg (ne_of_gt hpos)]
  rw [h1, h2]
  simp

/-- The row maximum of the end-to-end scenario run with `kMaxSplits = 4`. -/
theorem scenario_w4_max (a b : Val ℝ) : lse_max problem_w4 (scenario a b) 0 = fin 2 := by
  have h12 : ¬ ((2 : ℝ) < 1) := by norm_num
  simp [lse_max, block_tile_reduce, reduce_row, lse_accum, lse_acc_lds, scenario, problem_w4,
    small_problem, Val.max, gt, h12]

end stable

/-! ## The permute example -/

section permute

open hip_tensor_permute

theorem foldl_product {α β σ : Type} (f : σ → α × β → σ) (l₁ : List α) (l₂ : List β) :
    ∀ st : σ, (List.product l₁ l₂).foldl f st
      = l₁.foldl (fun st a => l₂.foldl (fun st b => f st (a, b)) st) st := by
  induction l₁ with
  | nil => intro st; rfl
  | cons a l₁ ih =>
    intro st
    rw [show List.product (a :: l₁) l₂ = List.map (fun b => (a, b)) l₂ ++ List.product l₁ l₂
      from List.product_cons a l₁ l₂, List.foldl_append, List.foldl_map, List.foldl_cons, ih]

/-- The index tuples `(w, h, c, n)` of the four nested loops, in the order of the loops. -/
theorem host_elementwise4D_eq_foldl {α : Type} (B A : Tensor α) (fa fb : α → α) :
    host_elementwise4D B A fa fb
      = (List.product (List.range A.l0) (List.product (List.range A.l1)
          (List.product (List.range A.l2) (List.range A.l3)))).foldl
          (fun st t => st.write (B.offset t.2.2.1 t.2.2.2 t.2.1 t.1)
            (fa (fb (A.get t.1 t.2.1 t.2.2.1 t.2.2.2)))) ⟨B.mData, []⟩ := by
  unfold host_elementwise4D
  rw [foldl_product]
  simp only [foldl_product]

/-- A sequence of stores: the offsets are logged in order, an offset that is not stored to
keeps its value, and with pairwise different offsets every store is still there at the end. -/
theorem foldl_write_spec {α : Type} (L : List (Nat × α)) :
    ∀ st : HostState α,
      (L.foldl (fun st kv => st.write kv.1 kv.2) st).stores = st.stores ++ L.map Prod.fst ∧
      (∀ x, x ∉ L.map Prod.fst →
        (L.foldl (fun st kv => st.write kv.1 kv.2) st).mData x = st.mData x) ∧
      ((L.map Prod.fst).Nodup → ∀ kv, kv ∈ L →
        (L.foldl (fun st kv => st.write kv.1 kv.2) st).mData kv.1 = kv.2) := by
  induction L with
  | nil =>
    intro st
    simp
  | cons a L ih =>
    intro st
    obtain ⟨h1, h2, h3⟩ := ih (st.write a.1 a.2)
    rw [List.foldl_cons]
    refine ⟨?_, ?_, ?_⟩
    · rw [h1]
      simp [HostState.write]
    · intro x hx
      rw [List.map_cons, List.mem_cons, not_or] at hx
      rw [h2 x hx.2]
      simp [HostState.write, Function.update, hx.1]
    · intro hnd kv hkv
      rw [List.map_cons, List.nodup_cons] at hnd
      rcases List.mem_cons.1 hkv with rfl | hmem
      · rw [h2 _ hnd.1]
        simp [HostState.write]
      · exact h3 hnd.2 kv hmem

theorem digit_inj (W a w a' w' : Nat) (hw : w < W) (hw' : w' < W)
    (h : a * W + w = a' * W + w') : a = a' ∧ w = w' := by
  have h1 : (a * W + w) % W = (a' * W + w') % W := by rw [h]
  rw [Nat.mul_add_mod_of_lt hw, Nat.mul_add_mod_of_lt hw'] at h1
  subst h1
  have h2 : a * W = a' * W := by omega
  exact ⟨Nat.eq_of_mul_eq_mul_right (by omega) h2, rfl⟩

theorem digit_lt (A W a w : Nat) (ha : a < A) (hw : w < W) : a * W + w < A * W := by
  have h : (a + 1) * W ≤ A * W := Nat.mul_le_mul_right W ha
  rw [Nat.succ_mul] at h
  omega

/-- Different index tuples within the lengths have different offsets. -/
theorem offset_inj {α : Type} (t : Tensor α) (i0 i1 i2 i3 j0 j1 j2 j3 : Nat)
    (h1 : i1 < t.l1) (h2 : i2 < t.l2) (h3 : i3 < t.l3)
    (k1 : j1 < t.l1) (k2 : j2 < t.l2) (k3 : j3 < t.l3)
    (h : t.offset i0 i1 i2 i3 = t.offset j0 j1 j2 j3) :
    i0 = j0 ∧ i1 = j1 ∧ i2 = j2 ∧ i3 = j3 := by
  unfold Tensor.offset at h
  obtain ⟨e1, e3⟩ := digit_inj _ _ _ _ _ h3 k3 h
  obtain ⟨e2, e4⟩ := digit_inj _ _ _ _ _ h2 k2 e1
  obtain ⟨e5, e6⟩ := digit_inj _ _ _ _ _ h1 k1 e2
  exact ⟨e5, e6, e4, e3⟩

/-- The offset of an index tuple within the lengths is within the buffer. -/
theorem offset_lt {α : Type} (t : Tensor α) (i0 i1 i2 i3 : Nat)
    (h0 : i0 < t.l0) (h1 : i1 < t.l1) (h2 : i2 < t.l2) (h3 : i3 < t.l3) :
    t.offset i0 i1 i2 i3 < t.size := by
  unfold Tensor.offset Tensor.size
  exact digit_lt _ _ _ _ (digit_lt _ _ _ _ (digit_lt _ _ _ _ h0 h1) h2) h3

/-- A duplicate-free list of `n` numbers below `n` holds every number below `n`. -/
theorem mem_of_nodup_lt (K : List Nat) (n : Nat) (hnd : K.Nodup) (hlt : ∀ x ∈ K, x < n)
    (hlen : K.length = n) : ∀ x, x < n → x ∈ K := by
  intro x hx
  have hsub : K.toFinset ⊆ Finset.range n := by
    intro y hy
    exact Finset.mem_range.2 (hlt y (List.mem_toFinset.1 hy))
  have hcard : (Finset.range n).card ≤ K.toFinset.card := by
    rw [List.toFinset_card_of_nodup hnd, Finset.card_range, hlen]
  have heq := Finset.eq_of_subset_of_card_le hsub hcard
  exact List.mem_toFinset.1 (heq ▸ Finset.mem_range.2 hx)

/-- The host reference on tensors of permuted lengths: the stores go to pairwise different
offsets, which are exactly the offsets of the buffer of `B`, each in-range index tuple of `A`
is found at the permuted place of `B`, and nothing beyond the buffer changes. -/
theorem host_elementwise4D_spec {α : Type} (B A : Tensor α) (fa fb : α → α)
    (hl0 : B.l0 = A.l2) (hl1 : B.l1 = A.l3) (hl2 : B.l2 = A.l1) (hl3 : B.l3 = A.l0) :
    (host_elementwise4D B A fa fb).stores.Nodup ∧
    (∀ x, x ∈ (host_elementwise4D B A fa fb).stores ↔ x < B.size) ∧
    (∀ w h c n, w < A.l0 → h < A.l1 → c < A.l2 → n < A.l3 →
      (host_elementwise4D B A fa fb).mData (B.offset c n h w) = fa (fb (A.get w h c n))) ∧
    (∀ x, B.size ≤ x → (host_elementwise4D B A fa fb).mData x = B.mData x) := by
  rw [host_elementwise4D_eq_foldl]
  generalize hI : List.product (List.range A.l0) (List.product (List.range A.l1)
    (List.product (List.range A.l2) (List.range A.l3))) = I
  have hmemI : ∀ w h c n, (w, h, c, n) ∈ I ↔ w < A.l0 ∧ h < A.l1 ∧ c < A.l2 ∧ n < A.l3 := by
    intro w h c n
    rw [← hI]
    show (w, h, c, n) ∈ (List.range A.l0) ×ˢ ((List.range A.l1) ×ˢ
      ((List.range A.l2) ×ˢ (List.range A.l3))) ↔ _
    simp only [List.mem_product, List.mem_range]
  have hndI : I.Nodup := by
    rw [← hI]
    exact List.Nodup.product (List.nodup_range _) (List.Nodup.product (List.nodup_range _)
      (List.Nodup.product (List.nodup_range _) (List.nodup_range _)))
  have hlenI : I.length = B.size := by
    rw [← hI]
    show ((List.range A.l0) ×ˢ ((List.range A.l1) ×ˢ
      ((List.range A.l2) ×ˢ (List.range A.l3)))).length = _
    simp only [List.length_product, List.length_range, Tensor.size, hl0, hl1, hl2, hl3]
    ring
  have hfold : I.foldl (fun st t => st.write (B.offset t.2.2.1 t.2.2.2 t.2.1 t.1)
        (fa (fb (A.get t.1 t.2.1 t.2.2.1 t.2.2.2)))) (⟨B.mData, []⟩ : HostState α)
      = (I.map (fun t => (B.offset t.2.2.1 t.2.2.2 t.2.1 t.1,
          fa (fb (A.get t.1 t.2.1 t.2.2.1 t.2.2.2))))).foldl
          (fun st kv => st.write kv.1 kv.2) ⟨B.mData, []⟩ := by
    rw [List.foldl_map]
  rw [hfold]
  obtain ⟨h1, h2, h3⟩ := foldl_write_spec
    (I.map (fun t => (B.offset t.2.2.1 t.2.2.2 t.2.1 t.1,
      fa (fb (A.get t.1 t.2.1 t.2.2.1 t.2.2.2))))) (⟨B.mData, []⟩ : HostState α)
  have hkeys : (I.map (fun t => (B.offset t.2.2.1 t.2.2.2 t.2.1 t.1,
      fa (fb (A.get t.1 t.2.1 t.2.2.1 t.2.2.2))))).map Prod.fst
      = I.map (fun t => B.offset t.2.2.1 t.2.2.2 t.2.1 t.1) := by
    rw [List.map_map]
    rfl
  rw [hkeys] at h1 h2 h3
  rw [List.nil_append] at h1
  have hnd : (I.map (fun t => B.offset t.2.2.1 t.2.2.2 t.2.1 t.1)).Nodup := by
    refine List.Nodup.map_on ?_ hndI
    rintro ⟨w, h, c, n⟩ ht ⟨w', h', c', n'⟩ ht' e
    obtain ⟨-, b1, -, b3⟩ := (hmemI w h c n).1 ht
    obtain ⟨-, b1', -, b3'⟩ := (hmemI w' h' c' n').1 ht'
    have b0 := ((hmemI w h c n).1 ht).1
    have b0' := ((hmemI w' h' c' n').1 ht').1
    obtain ⟨e0, e1, e2, e3⟩ := offset_inj B c n h w c' n' h' w'
      (hl1 ▸ b3) (hl2 ▸ b1) (hl3 ▸ b0) (hl1 ▸ b3') (hl2 ▸ b1') (hl3 ▸ b0') e
    subst e0 e1 e2 e3
    rfl
  have hlt : ∀ x ∈ I.map (fun t => B.offset t.2.2.1 t.2.2.2 t.2.1 t.1), x < B.size := by
    intro x hx
    obtain ⟨⟨w, h, c, n⟩, ht, rfl⟩ := List.mem_map.1 hx
    obtain ⟨b0, b1, b2, b3⟩ := (hmemI w h c n).1 ht
    exact offset_lt B c n h w (hl0 ▸ b2) (hl1 ▸ b3) (hl2 ▸ b1) (hl3 ▸ b0)
  have hlen : (I.map (fun t => B.offset t.2.2.1 t.2.2.2 t.2.1 t.1)).length = B.size := by
    rw [List.length_map, hlenI]
  refine ⟨?_, ?_, ?_, ?_⟩
  · rw [h1]
    exact hnd
  · intro x
    rw [h1]
    exact ⟨hlt x, mem_of_nodup_lt _ _ hnd hlt hlen x⟩
  · intro w h c n b0 b1 b2 b3
    exact h3 hnd (B.offset c n h w, fa (fb (A.get w h c n)))
      (List.mem_map.2 ⟨(w, h, c, n), (hmemI w h c n).2 ⟨b0, b1, b2, b3⟩, rfl⟩)
  · intro x hx
    refine h2 x (fun hmem => ?_)
    have := hlt x hmem
    omega

/-- Every offset of the buffer is the offset of an index tuple within the lengths. -/
theorem offset_surj {α : Type} (t : Tensor α) (y : Nat) (hy : y < t.size) :
    ∃ i0 i1 i2 i3, i0 < t.l0 ∧ i1 < t.l1 ∧ i2 < t.l2 ∧ i3 < t.l3 ∧
      t.offset i0 i1 i2 i3 = y := by
  unfold Tensor.size at hy
  have h3 : 0 < t.l3 := Nat.pos_of_ne_zero (fun h => by
    rw [h, Nat.mul_zero] at hy
    exact absurd hy (Nat.not_lt_zero _))
  have hy3 : y / t.l3 < t.l0 * t.l1 * t.l2 := (Nat.div_lt_iff_lt_mul h3).2 hy
  have h2 : 0 < t.l2 := Nat.pos_of_ne_zero (fun h => by
    rw [h, Nat.mul_zero] at hy3
    exact absurd hy3 (Nat.not_lt_zero _))
  have hy2 : y / t.l3 / t.l2 < t.l0 * t.l1 := (Nat.div_lt_iff_lt_mul h2).2 hy3
  have h1 : 0 < t.l1 := Nat.pos_of_ne_zero (fun h => by
    rw [h, Nat.mul_zero] at hy2
    exact absurd hy2 (Nat.not_lt_zero _))
  have hy1 : y / t.l3 / t.l2 / t.l1 < t.l0 := (Nat.div_lt_iff_lt_mul h1).2 hy2
  refine ⟨y / t.l3 / t.l2 / t.l1, y / t.l3 / t.l2 % t.l1, y / t.l3 % t.l2, y % t.l3,
    hy1, Nat.mod_lt _ h1, Nat.mod_lt _ h2, Nat.mod_lt _ h3, ?_⟩
  unfold Tensor.offset
  rw [Nat.div_add_mod', Nat.div_add_mod', Nat.div_add_mod']

set_option maxRecDepth 1000000 in
/-- The strided copy of `main` stores element `6` of `a` at offset `1` of `b`. -/
theorem main_device_b_one {α : Type} (a b : Nat → α) : main_device_b a b 1 = a 6 := rfl

/-- The host reference of `main` stores element `40` of `a` at offset `1` of `host_b`. -/
theorem main_host_b_one {α : Type} (a b : Nat → α) : main_host_b a b 1 = a 40 :=
  (host_elementwise4D_spec (main_b b) (main_a a) PassThrough PassThrough rfl rfl rfl rfl).2.2.1
    1 0 0 0 (by decide : (1 : Nat) < 3) (by decide : (0 : Nat) < 2)
    (by decide : (0 : Nat) < 4) (by decide : (0 : Nat) < 5)

end permute

/-! ## Degenerate rows, bounded weights, lookups inside the tile -/

section bounds

open BlockFmhaFwdSplitKVCombinePipeline Val

/-- The row sum of a row all of whose valid LSE values are `-inf` is `0`. -/
theorem lse_sum_degenerate (p : Problem) (inp : Inputs ℝ) (r : Nat) (hr : r < p.kM0)
    (hv : ∀ s, s < inp.num_splits → inp.lse_acc s r = negInf) :
    lse_sum p Real.exp inp r = fin 0 := by
  have hmax := (lse_row_degenerate p inp r hr hv).1
  have hexp : ∀ c, lse_exp p Real.exp inp r c = fin 0 := by
    intro c
    simp [lse_exp, hmax, eqv]
  unfold lse_sum block_tile_reduce
  rw [reduce_row_add, Finset.sum_congr rfl (fun c _ => hexp c)]
  simp [zero_def.symm]

/-- A row of well-formed LSE values is either all `-inf`, with `row_max = -inf`,
`row_sum = 0` and `lse_logsum = -inf`, or has a finite value, with `row_max` finite,
`row_sum > 0` and `lse_logsum` finite. -/
theorem lse_row_cases (p : Problem) (inp : Inputs ℝ) (r : Nat) (hr : r < p.kM0)
    (hn : inp.num_splits ≤ p.kMaxSplits)
    (hv : ∀ s, s < inp.num_splits → IsLSE (inp.lse_acc s r)) :
    ((∀ s, s < inp.num_splits → inp.lse_acc s r = negInf) ∧
      lse_max p inp r = negInf ∧ lse_sum p Real.exp inp r = fin 0 ∧
      lse_logsum p Real.exp Real.log inp r = negInf) ∨
    ((∃ s, s < inp.num_splits ∧ IsFin (inp.lse_acc s r)) ∧
      (∃ m, lse_max p inp r = fin m) ∧ (∃ S, lse_sum p Real.exp inp r = fin S ∧ 0 < S) ∧
      ∃ L, lse_logsum p Real.exp Real.log inp r = fin L) := by
  rcases lse_logsum_closed p inp r hr hn hv with ⟨hf, _⟩ | ⟨hall, hlog⟩
  · right
    obtain ⟨hpos, ⟨m, hm, hsum⟩, hlog⟩ := lse_row_nondegenerate p inp r hr hn hv hf
    exact ⟨hf, ⟨m, hm⟩, ⟨_, hsum, mul_pos hpos (Real.exp_pos _)⟩, ⟨_, hlog⟩⟩
  · left
    exact ⟨hall, (lse_row_degenerate p inp r hr hall).1, lse_sum_degenerate p inp r hr hall,
      hlog⟩

/-- The loop bound stays within `kMaxSplits` when `kNumWarps` divides `kMaxSplits`. -/
theorem padded_num_splits_le_kMaxSplits (p : Problem) (n : Nat) (hn : n ≤ p.kMaxSplits)
    (hd : p.kNumWarps ∣ p.kMaxSplits) : padded_num_splits p n ≤ p.kMaxSplits :=
  padded_num_splits_least p n p.kMaxSplits hd hn

/-- The body of the accumulation loop runs at multiples of `kNumWarps` below the loop bound. -/
theorem split_starts_spec (p : Problem) (n : Nat) (s : Nat) (hs : s ∈ split_starts p n) :
    p.kNumWarps ∣ s ∧ s < padded_num_splits p n := by
  have hW := p.kNumWarps_pos
  obtain ⟨s1, _, _, hall⟩ := for_splits_invariant p.kNumWarps (padded_num_splits p n) hW
    (fun split_start acc => acc ++ [split_start])
    (fun s acc => p.kNumWarps ∣ s ∧ ∀ e, e ∈ acc → p.kNumWarps ∣ e ∧ e < padded_num_splits p n)
    (by
      intro s acc hs ⟨hd, hacc⟩
      refine ⟨Dvd.dvd.add hd (dvd_refl _), ?_⟩
      intro e he
      rcases List.mem_append.1 he with h | h
      · exact hacc e h
      · rw [List.mem_singleton] at h
        subst h
        exact ⟨hd, hs⟩)
    (padded_num_splits p n) 0 [] (by omega)
    ⟨dvd_zero _, fun e he => absurd he (List.not_mem_nil e)⟩
  exact hall s hs

end bounds

/-! ## One split, and a shift of the LSE values of a row -/

section shift

open BlockFmhaFwdSplitKVCombinePipeline Val

theorem fin_one_mul {R : Type} [LinearOrderedField R] (a : Val R) : fin 1 * a = a := by
  cases a <;> simp [mul_def, mul, infTimes]

theorem add_fin_sub_add_fin {R : Type} [LinearOrderedField R] (a m : Val R) (k : R) :
    (a + fin k) - (m + fin k) = a - m := by
  cases a <;> cases m <;> simp [sub_def, add_def, add, neg]
  ring

theorem max_add_fin {R : Type} [LinearOrderedField R] (a b : Val R) (k : R) :
    Val.max (a + fin k) (b + fin k) = Val.max a b + fin k := by
  cases a <;> cases b <;> simp [Val.max, gt, add_def, add]
  split <;> rfl

theorem eqv_add_fin_negInf {R : Type} [LinearOrderedField R] (a : Val R) (k : R) :
    eqv (a + fin k) negInf = eqv a negInf := by
  cases a <;> simp [eqv, add_def, add]

theorem reduce_max_add_fin {R : Type} [LinearOrderedField R] (v : Nat → Val R) (k : R)
    (n : Nat) :
    reduce_row Val.max negInf (fun c => v c + fin k) n
      = reduce_row Val.max negInf v n + fin k := by
  induction n with
  | zero => rfl
  | succ n ih =>
    simp only [reduce_row]
    rw [ih, max_add_fin]

/-- The padded register tile of the shifted row is the padded register tile shifted. -/
theorem lse_accum_shift {R : Type} [LinearOrderedField R] (p : Problem) (inp : Inputs R)
    (r c : Nat) (k : R) (hr : r < p.kM0) (hc : c < p.kMaxSplits) :
    lse_accum p (shift_lse inp r k) r c = lse_accum p inp r c + fin k := by
  rw [lse_accum_eq p _ r c hr hc, lse_accum_eq p inp r c hr hc]
  show (if c < inp.num_splits then
      (if r = r ∧ c < inp.num_splits then inp.lse_acc c r + fin k else inp.lse_acc c r)
    else negInf) = _
  by_cases h : c < inp.num_splits
  · rw [if_pos h, if_pos ⟨rfl, h⟩, if_pos h]
  · rw [if_neg h, if_neg h]
    rfl

theorem lse_max_shift {R : Type} [LinearOrderedField R] (p : Problem) (inp : Inputs R)
    (r : Nat) (k : R) (hr : r < p.kM0) :
    lse_max p (shift_lse inp r k) r = lse_max p inp r + fin k := by
  unfold lse_max block_tile_reduce
  rw [reduce_row_congr Val.max negInf _ (fun c => lse_accum p inp r c + fin k) p.kMaxSplits
    (fun c hc => lse_accum_shift p inp r c k hr hc), reduce_max_add_fin]

theorem lse_sum_shift {R : Type} [LinearOrderedField R] (p : Problem) (exp : R → R)
    (inp : Inputs R) (r : Nat) (k : R) (hr : r < p.kM0) :
    lse_sum p exp (shift_lse inp r k) r = lse_sum p exp inp r := by
  unfold lse_sum block_tile_reduce
  apply reduce_row_congr
  intro c hc
  unfold lse_exp
  rw [lse_max_shift p inp r k hr, lse_accum_shift p inp r c k hr hc, eqv_add_fin_negInf,
    add_fin_sub_add_fin]

/-- Adding `k` to the valid LSE values of a row adds `k` to its merged statistic. -/
theorem lse_logsum_shift {R : Type} [LinearOrderedField R] (p : Problem) (exp log : R → R)
    (inp : Inputs R) (r : Nat) (k : R) (hr : r < p.kM0) :
    lse_logsum p exp log (shift_lse inp r k) r = lse_logsum p exp log inp r + fin k := by
  unfold lse_logsum
  rw [lse_sum_shift p exp inp r k hr, lse_max_shift p inp r k hr]
  split
  · rfl
  · rw [add_assoc]

/-- Adding `k` to the valid LSE values of a row leaves the scratch entries of the row after
stage 4 as they are, the valid as well as the padding columns. -/
theorem lse_scales_shift {R : Type} [LinearOrderedField R] (p : Problem) (exp log : R → R)
    (inp : Inputs R) (r s : Nat) (k : R) (hr : r < p.kM0) :
    lse_scales p exp log (shift_lse inp r k) r s = lse_scales p exp log inp r s := by
  unfold lse_scales
  show (if r < p.kM0 ∧ s < p.kMaxSplits ∧ s < inp.num_splits then _ else _) = _
  by_cases h : r < p.kM0 ∧ s < p.kMaxSplits ∧ s < inp.num_splits
  · rw [if_pos h, if_pos h, lse_logsum_shift p exp log inp r k hr,
      lse_accum_shift p inp r s k hr h.2.1, eqv_add_fin_negInf, add_fin_sub_add_fin]
  · rw [if_neg h, if_neg h]
    unfold lse_acc_lds
    show (if r < p.kM0 ∧ s < p.kMaxSplits then
        (if r = r ∧ s < inp.num_splits then inp.lse_acc s r + fin k else inp.lse_acc s r)
      else inp.smem r s) = _
    by_cases h2 : r < p.kM0 ∧ s < p.kMaxSplits
    · rw [if_pos h2, if_pos h2, if_neg (fun h3 => h ⟨h2.1, h2.2, h3.2⟩)]
    · rw [if_neg h2, if_neg h2]

/-- Adding `k` to the valid LSE values of a row leaves the row of the tile before
postprocessing as it is. -/
theorem o_acc_sum_shift {R : Type} [LinearOrderedField R] (p : Problem) (exp log : R → R)
    (inp : Inputs R) (r c : Nat) (k : R) (hr : r < p.kM0) :
    o_acc_sum p exp log (shift_lse inp r k) r c = o_acc_sum p exp log inp r c := by
  rw [o_acc_sum_eq p exp log _ r c hr, o_acc_sum_eq p exp log inp r c hr]
  show ∑ s in Finset.range (padded_num_splits p inp.num_splits),
    lse_scales p exp log (shift_lse inp r k) r s * inp.o_acc (s * p.kM0 + r) c = _
  apply Finset.sum_congr rfl
  intro s _
  rw [lse_scales_shift p exp log inp r s k hr]

theorem padded_num_splits_one (p : Problem) : padded_num_splits p 1 = p.kNumWarps := by
  unfold padded_num_splits integer_divide_ceil
  rw [Nat.add_sub_cancel_left, Nat.div_self p.kNumWarps_pos, Nat.one_mul]

/-- One split with a finite LSE `v0`: `lse_logsum = v0`, the weight of split 0 is `1`, and the
row of the tile before postprocessing is the partial output of split 0 plus, for every padding
split the accumulation loop consumes, its output weighted by the raw LSE left in scratch. -/
theorem single_split_row (p : Problem) (inp : Inputs ℝ) (r c : Nat) (v0 : ℝ)
    (hr : r < p.kM0) (hK : 1 ≤ p.kMaxSplits) (h1 : inp.num_splits = 1)
    (h0 : inp.lse_acc 0 r = fin v0) :
    lse_logsum p Real.exp Real.log inp r = fin v0 ∧
    lse_scales p Real.exp Real.log inp r 0 = fin 1 ∧
    o_acc_sum p Real.exp Real.log inp r c
      = inp.o_acc r c + ∑ s in Finset.Ico 1 p.kNumWarps,
          lse_acc_lds p inp r s * inp.o_acc (s * p.kM0 + r) c := by
  have hn : inp.num_splits ≤ p.kMaxSplits := by omega
  have hv : ∀ s, s < inp.num_splits → IsLSE (inp.lse_acc s r) := by
    intro s hs
    have hs0 : s = 0 := by omega
    rw [hs0, h0]
    trivial
  have hf : ∃ s, s < inp.num_splits ∧ IsFin (inp.lse_acc s r) :=
    ⟨0, by omega, by rw [h0]; trivial⟩
  have hlog := (lse_row_nondegenerate p inp r hr hn hv hf).2.2
  have hsc := lse_scales_nondegenerate p inp r hr hn hv hf 0 (by omega)
  have hsum := o_acc_sum_split p Real.exp Real.log inp r c hr
  rw [h1] at hlog hsc hsum
  rw [Finset.sum_range_one, h0] at hlog hsc
  simp only [vexp, toR] at hlog hsc
  rw [Real.log_exp] at hlog
  rw [div_self (Real.exp_ne_zero v0)] at hsc
  refine ⟨hlog, hsc, ?_⟩
  rw [hsum, Finset.sum_range_one, hsc, fin_one_mul, Nat.zero_mul, Nat.zero_add,
    padded_num_splits_one]

end shift

/-! ## Elementwise operations -/

section elementwise

open ck ck.tensor_operation.element_wise

/-- The host `FastGelu` in its `tanh` form. -/
theorem FastGelu_host_eq_tanh (x : ℝ) :
    FastGelu.operator_call_host Real.exp x
      = 0.5 * x * (1 + Real.tanh (0.797885 * x + 0.035677 * x ^ 3)) := by
  unfold FastGelu.operator_call_host
  simp only []
  have hu : x * (-2.0 * 0.035677 * x * x + -2.0 * 0.797885)
      = -(0.797885 * x + 0.035677 * x ^ 3) + -(0.797885 * x + 0.035677 * x ^ 3) := by ring
  rw [hu]
  generalize (0.797885 * x + 0.035677 * x ^ 3) = z
  rw [Real.tanh_eq_sinh_div_cosh, Real.sinh_eq, Real.cosh_eq, Real.exp_add, Real.exp_neg]
  have hpos := Real.exp_pos z
  field_simp
  ring

/-- The device `FastGelu` denotes the same number as the host `FastGelu`. -/
theorem FastGelu_device_eq_host {R : Type} [Field R] (exp : R → R) (x : R) :
    FastGelu.operator_call_device exp x = FastGelu.operator_call_host exp x := by
  unfold FastGelu.operator_call_device FastGelu.operator_call_host math.rcp
  simp only []
  rw [mul_one_div]

/-- Bounds on `sqrt(2/pi)` to six decimals and a half. -/
theorem sqrt_two_div_pi_bounds :
    (0.7978845 : ℝ) ≤ Real.sqrt (2 / Real.pi) ∧ Real.sqrt (2 / Real.pi) ≤ 0.7978855 := by
  have h1 := Real.pi_gt_d6
  have h2 := Real.pi_lt_d6
  have hpi := Real.pi_pos
  constructor
  · rw [Real.le_sqrt' (by norm_num), le_div_iff₀ hpi]
    norm_num
    linarith
  · rw [Real.sqrt_le_iff, div_le_iff₀ hpi]
    refine ⟨by norm_num, ?_⟩
    norm_num
    linarith

end elementwise

/-! ## Bit patterns and binary16 values -/

section bits

open ck

/-- Bitwise `(x & y) | z` acts on the low `k` bits and on the bits above them separately. -/
theorem and_or_split (k a b c d e f : Nat) (ha : a < 2 ^ k) (hc : c < 2 ^ k)
    (he : e < 2 ^ k) :
    ((2 ^ k * b + a) &&& (2 ^ k * d + c)) ||| (2 ^ k * f + e)
      = 2 ^ k * ((b &&& d) ||| f) + ((a &&& c) ||| e) := by
  have hlt : (a &&& c) ||| e < 2 ^ k := Nat.or_lt_two_pow (Nat.and_lt_two_pow a hc) he
  apply Nat.eq_of_testBit_eq
  intro j
  simp only [Nat.testBit_or, Nat.testBit_and, Nat.testBit_mul_pow_two_add _ ha,
    Nat.testBit_mul_pow_two_add _ hc, Nat.testBit_mul_pow_two_add _ he,
    Nat.testBit_mul_pow_two_add _ hlt]
  split <;> simp only [Nat.testBit_or, Nat.testBit_and]

set_option maxRecDepth 100000 in
theorem byte_and_low : ∀ l, l < 256 → l &&& 0x0f = l % 16 := by decide

set_option maxRecDepth 100000 in
theorem byte_and_high : ∀ l, l < 256 → l &&& 0xf0 = 16 * (l / 16) := by decide

/-- A half-word masked within its low byte and or-ed with `0x6400`. -/
theorem lane_and_or (L m : Nat) (hm : m < 256) :
    (L &&& m) ||| 0x6400 = 0x6400 + ((L % 256) &&& m) := by
  have h := and_or_split 8 (L % 256) (L / 256) m 0 0 0x64 (Nat.mod_lt _ (by norm_num)) hm
    (by norm_num)
  rw [Nat.and_zero, Nat.zero_or, Nat.or_zero] at h
  have e1 : 2 ^ 8 * (L / 256) + L % 256 = L := Nat.div_add_mod L 256
  rw [e1] at h
  simpa using h

/-- A word masked with the same half-word mask in both halves and or-ed with `0x64006400`. -/
theorem word_and_or (B m : Nat) (hm : m < 65536) :
    (B &&& (65536 * m + m)) ||| 0x64006400
      = 65536 * (((B / 65536) &&& m) ||| 0x6400) + (((B % 65536) &&& m) ||| 0x6400) := by
  have h := and_or_split 16 (B % 65536) (B / 65536) m m 0x6400 0x6400
    (Nat.mod_lt _ (by norm_num)) hm (by norm_num)
  have e1 : 2 ^ 16 * (B / 65536) + B % 65536 = B := Nat.div_add_mod B 65536
  rw [e1] at h
  exact h

theorem int_bits_lt (q : Int) : int_bits q < 4294967296 := by
  unfold int_bits
  omega

theorem int_bits_bit_cast_int (w : Nat) : int_bits (bit_cast_int w) = w % 4294967296 := by
  unfold int_bits bit_cast_int
  split <;> omega

end bits

section halfvals

open ck Val

theorem half_value_6400 (t : Nat) (ht : t < 1024) :
    half_t.value (0x6400 + t) = fin (1024 + (t : ℚ)) := by
  have h1 : (0x6400 + t) / 32768 % 2 = 0 := by omega
  have h2 : (0x6400 + t) / 1024 % 32 = 25 := by omega
  have h3 : (0x6400 + t) % 1024 = t := by omega
  simp only [half_t.value, h1, h2, h3]
  norm_num
  field_simp

theorem half_value_consts :
    half_t.value 0xE408 = fin (-1032) ∧ half_t.value 0x2c00 = fin (1 / 16) ∧
    half_t.value 0xd480 = fin (-72) ∧ half_t.value 0x6480 = fin 1152 ∧
    half_t.value 0 = fin 0 := by
  refine ⟨?_, ?_, ?_, ?_, ?_⟩ <;> norm_num [half_t.value]

/-- The natural numbers from `2^e` to `2^(e+1) - 1`, `e ≤ 10`, and their negatives are
binary16 values. -/
theorem half_value_pos (e t : Nat) (he : e ≤ 10) (ht : t < 2 ^ e) :
    half_t.value ((e + 15) * 1024 + t * 2 ^ (10 - e)) = fin ((2 : ℚ) ^ e + t) ∧
    half_t.value (32768 + ((e + 15) * 1024 + t * 2 ^ (10 - e))) = fin (-((2 : ℚ) ^ e + t)) := by
  have hp : 2 ^ (10 - e) * 2 ^ e = 1024 := by
    rw [← pow_add, Nat.sub_add_cancel he]
    norm_num
  have hM : t * 2 ^ (10 - e) < 1024 := by
    calc t * 2 ^ (10 - e) < 2 ^ e * 2 ^ (10 - e) :=
          Nat.mul_lt_mul_of_pos_right ht (Nat.two_pow_pos _)
      _ = 1024 := by rw [Nat.mul_comm]; exact hp
  have hq : ((t * 2 ^ (10 - e) : Nat) : ℚ) * 2 ^ e = 1024 * t := by
    have hp' : ((2 : ℚ) ^ (10 - e) * 2 ^ e) = 1024 := by exact_mod_cast hp
    push_cast
    rw [mul_assoc, hp']
    ring
  generalize t * 2 ^ (10 - e) = M at hM hq ⊢
  have hz : (((e + 15 : Nat) : Int) - 15) = (e : Int) := by
    push_cast
    ring
  have hpos : (0 : ℚ) < 2 ^ e := by positivity
  constructor
  · have h1 : ((e + 15) * 1024 + M) / 32768 % 2 = 0 := by omega
    have h2 : ((e + 15) * 1024 + M) / 1024 % 32 = e + 15 := by omega
    have h3 : ((e + 15) * 1024 + M) % 1024 = M := by omega
    simp only [half_t.value, h1, h2, h3]
    rw [if_neg (by omega), if_neg (by omega), if_neg (by omega), hz, zpow_natCast]
    congr 1
    field_simp
    linarith
  · have h1 : (32768 + ((e + 15) * 1024 + M)) / 32768 % 2 = 1 := by omega
    have h2 : (32768 + ((e + 15) * 1024 + M)) / 1024 % 32 = e + 15 := by omega
    have h3 : (32768 + ((e + 15) * 1024 + M)) % 1024 = M := by omega
    simp only [half_t.value, h1, h2, h3]
    rw [if_neg (by omega), if_neg (by omega), if_pos trivial, hz, zpow_natCast]
    congr 1
    field_simp
    linarith

/-- Every integer of magnitude below `2048` is a binary16 value. -/
theorem half_value_int (z : Int) (hz : |z| < 2048) : ∃ bits, half_t.value bits = fin (z : ℚ) := by
  have key : ∀ a : Nat, 0 < a → a < 2048 →
      ∃ e t, e ≤ 10 ∧ t < 2 ^ e ∧ a = 2 ^ e + t := by
    intro a ha hlt
    refine ⟨Nat.log 2 a, a - 2 ^ Nat.log 2 a, ?_, ?_, ?_⟩
    · have : Nat.log 2 a < 11 := Nat.log_lt_of_lt_pow (by omega) (by omega)
      omega
    · have h1 := Nat.lt_pow_succ_log_self (by norm_num : 1 < 2) a
      rw [pow_succ] at h1
      omega
    · have h2 := Nat.pow_log_le_self 2 (by omega : a ≠ 0)
      omega
  rcases lt_trichotomy z 0 with h | h | h
  · obtain ⟨e, t, he, ht, ha⟩ := key (-z).toNat (by omega) (by rw [abs_lt] at hz; omega)
    refine ⟨_, (half_value_pos e t he ht).2.trans ?_⟩
    congr 1
    have : (z : ℚ) = -(((-z).toNat : Nat) : ℚ) := by
      have h3 : (((-z).toNat : Nat) : Int) = -z := Int.toNat_of_nonneg (by omega)
      have : z = -(((-z).toNat : Nat) : Int) := by omega
      exact_mod_cast this
    rw [this, ha]
    push_cast
    ring
  · subst h
    exact ⟨0, by norm_num [half_t.value]⟩
  · obtain ⟨e, t, he, ht, ha⟩ := key z.toNat (by omega) (by rw [abs_lt] at hz; omega)
    refine ⟨_, (half_value_pos e t he ht).1.trans ?_⟩
    congr 1
    have : (z : ℚ) = ((z.toNat : Nat) : ℚ) := by
      have h3 : ((z.toNat : Nat) : Int) = z := Int.toNat_of_nonneg (by omega)
      exact_mod_cast h3.symm
    rw [this, ha]
    push_cast
    ring

theorem round_int (rnd : ℚ → Val ℚ) (hr : half_t.IsRounding rnd) (z : Int)
    (hz : |z| < 2048) : half_t.round rnd (fin (z : ℚ)) = fin (z : ℚ) := by
  obtain ⟨b, hb⟩ := half_value_int z hz
  exact hr b _ hb

/-- One element of the low-bit pair of `pki4_to_half4`: `(1024 + n) - 1032`. -/
theorem lo_lane (rnd : ℚ → Val ℚ) (hr : half_t.IsRounding rnd) (n : Nat) (hn : n < 16) :
    half_t.round rnd (half_t.value (0x6400 + n) + half_t.value 0xE408)
      = fin ((n : ℚ) - 8) := by
  rw [half_value_6400 n (by omega), half_value_consts.1, fin_add_fin]
  have e : (1024 + (n : ℚ) + -1032) = (((n : Int) - 8 : Int) : ℚ) := by
    push_cast
    ring
  rw [e, round_int rnd hr _ (by rw [abs_lt]; omega)]
  push_cast
  rfl

/-- One element of the high-bit pair of `pki4_to_half4`: `(1024 + 16 n) * (1/16) - 72`. -/
theorem hi_lane (rnd : ℚ → Val ℚ) (hr : half_t.IsRounding rnd) (n : Nat) (hn : n < 16) :
    half_t.round rnd (half_t.value (0x6400 + 16 * n) * half_t.value 0x2c00
        + half_t.value 0xd480)
      = fin ((n : ℚ) - 8) := by
  rw [half_value_6400 (16 * n) (by omega), half_value_consts.2.1, half_value_consts.2.2.1,
    fin_mul_fin, fin_add_fin]
  have e : ((1024 + ((16 * n : Nat) : ℚ)) * (1 / 16) + -72) = (((n : Int) - 8 : Int) : ℚ) := by
    push_cast
    ring
  rw [e, round_int rnd hr _ (by rw [abs_lt]; omega)]
  push_cast
  rfl

theorem lo_word (B : Nat) :
    (B &&& 0x000f000f) ||| 0x64006400
      = 65536 * (0x6400 + B / 65536 % 16) + (0x6400 + B % 16) := by
  have h := word_and_or B 0xf (by norm_num)
  rw [lane_and_or _ _ (by norm_num), lane_and_or _ _ (by norm_num),
    byte_and_low _ (Nat.mod_lt _ (by norm_num)),
    byte_and_low _ (Nat.mod_lt _ (by norm_num))] at h
  norm_num at h ⊢
  rw [h]

theorem hi_word (B : Nat) :
    (B &&& 0x00f000f0) ||| 0x64006400
      = 65536 * (0x6400 + 16 * (B / 1048576 % 16)) + (0x6400 + 16 * (B / 16 % 16)) := by
  have h := word_and_or B 0xf0 (by norm_num)
  rw [lane_and_or _ _ (by norm_num), lane_and_or _ _ (by norm_num),
    byte_and_high _ (Nat.mod_lt _ (by norm_num)),
    byte_and_high _ (Nat.mod_lt _ (by norm_num))] at h
  norm_num at h ⊢
  rw [h]
  omega

theorem nibble_eq (q : Int) (i : Nat) : nibble q i = int_bits q / 16 ^ i % 16 := by
  unfold nibble
  rw [Nat.shiftRight_eq_div_pow, show (0xF : Nat) = 2 ^ 4 - 1 from rfl,
    Nat.and_pow_two_sub_one_eq_mod, pow_mul]
  norm_num

theorem int_bits_consts :
    int_bits 0x000f000f = 0x000f000f ∧ int_bits 0x00f000f0 = 0x00f000f0 ∧
    int_bits 0x64006400 = 0x64006400 ∧ int_bits 0x2c002c00 = 0x2c002c00 ∧
    int_bits (bit_cast_int 0xE408E408) = 0xE408E408 ∧
    int_bits (bit_cast_int 0xd480d480) = 0xd480d480 := by
  decide

/-- The two elements that `bit_cast<half2_t>` reads from a word given by its half-words. -/
theorem of_bits_halves (hi lo : Nat) (hhi : hi < 65536) (hlo : lo < 65536) :
    half2_t.of_bits (65536 * hi + lo) = (half_t.value lo, half_t.value hi) := by
  unfold half2_t.of_bits
  have h1 : (65536 * hi + lo) % 65536 = lo := by omega
  have h2 : (65536 * hi + lo) / 65536 % 65536 = hi := by omega
  rw [h1, h2]

/-- The function `pki4_to_half4` returns `[n_0 - 8, n_4 - 8, n_1 - 8, n_5 - 8]`. -/
theorem pki4_to_half4_eq (rnd : ℚ → Val ℚ) (hr : half_t.IsRounding rnd) (q : Int) :
    pki4_to_half4 rnd q
      = [fin ((nibble q 0 : ℚ) - 8), fin ((nibble q 4 : ℚ) - 8),
         fin ((nibble q 1 : ℚ) - 8), fin ((nibble q 5 : ℚ) - 8)] := by
  obtain ⟨cLO, cHI, cEX, cMUL, cSUB, cADD⟩ := int_bits_consts
  have hB := int_bits_lt q
  have hlo : int_bits (amd_assembly_and_or_b32 q 0x000f000f 0x64006400)
      = 65536 * (0x6400 + int_bits q / 65536 % 16) + (0x6400 + int_bits q % 16) := by
    unfold amd_assembly_and_or_b32
    rw [int_bits_bit_cast_int, cLO, cEX, lo_word]
    omega
  have hhi : int_bits (amd_assembly_and_or_b32 q 0x00f000f0 0x64006400)
      = 65536 * (0x6400 + 16 * (int_bits q / 1048576 % 16))
        + (0x6400 + 16 * (int_bits q / 16 % 16)) := by
    unfold amd_assembly_and_or_b32
    rw [int_bits_bit_cast_int, cHI, cEX, hi_word]
    omega
  have hSUB : half2_t.of_bits 0xE408E408 = (half_t.value 0xE408, half_t.value 0xE408) :=
    of_bits_halves 0xE408 0xE408 (by norm_num) (by norm_num)
  have hMUL : half2_t.of_bits 0x2c002c00 = (half_t.value 0x2c00, half_t.value 0x2c00) :=
    of_bits_halves 0x2c00 0x2c00 (by norm_num) (by norm_num)
  have hADD : half2_t.of_bits 0xd480d480 = (half_t.value 0xd480, half_t.value 0xd480) :=
    of_bits_halves 0xd480 0xd480 (by norm_num) (by norm_num)
  have n0 : nibble q 0 = int_bits q % 16 := by rw [nibble_eq]; norm_num
  have n1 : nibble q 1 = int_bits q / 16 % 16 := by rw [nibble_eq]; norm_num
  have n4 : nibble q 4 = int_bits q / 65536 % 16 := by rw [nibble_eq]; norm_num
  have n5 : nibble q 5 = int_bits q / 1048576 % 16 := by rw [nibble_eq]; norm_num
  unfold pki4_to_half4
  simp only []
  rw [hlo, hhi, cSUB, cMUL, cADD, hSUB, hMUL, hADD,
    of_bits_halves _ _ (by omega) (by omega), of_bits_halves _ _ (by omega) (by omega)]
  simp only [amd_assembly_pk_add_f16, amd_assembly_pk_fma_f16]
  rw [lo_lane rnd hr _ (Nat.mod_lt _ (by norm_num)),
    lo_lane rnd hr _ (Nat.mod_lt _ (by norm_num)),
    hi_lane rnd hr _ (Nat.mod_lt _ (by norm_num)),
    hi_lane rnd hr _ (Nat.mod_lt _ (by norm_num)), n0, n1, n4, n5]

end halfvals

section converter

open ck ck.tensor_operation.element_wise Val

theorem isRounding_exact : half_t.IsRounding half_t.exact := fun _ _ _ => rfl

/-- The word with the binary16 patterns `0x64uu` of two bytes of the input. -/
theorem perm_01 (W : Nat) :
    __builtin_amdgcn_perm 0x64646464 W 0x05010500
      = 65536 * (0x6400 + W / 256 % 256) + (0x6400 + W % 256) := by
  simp [__builtin_amdgcn_perm, perm_byte]
  omega

theorem perm_23 (W : Nat) :
    __builtin_amdgcn_perm 0x64646464 W 0x05030502
      = 65536 * (0x6400 + W / 16777216 % 256) + (0x6400 + W / 65536 % 256) := by
  simp [__builtin_amdgcn_perm, perm_byte]
  omega

/-- One element of the converter: `(1024 + u) - 1152`. -/
theorem u8_lane (rnd : ℚ → Val ℚ) (hr : half_t.IsRounding rnd) (u : Nat) (hu : u < 256) :
    half_t.round rnd (half_t.value (0x6400 + u) - half_t.value 0x6480)
      = fin ((u : ℚ) - 128) := by
  rw [half_value_6400 u (by omega), half_value_consts.2.2.2.1, fin_sub_fin]
  have e : (1024 + (u : ℚ) - 1152) = (((u : Int) - 128 : Int) : ℚ) := by
    push_cast
    ring
  rw [e, round_int rnd hr _ (by rw [abs_lt]; omega)]
  push_cast
  rfl

theorem convert_4_eq (rnd : ℚ → Val ℚ) (hr : half_t.IsRounding rnd) (Input : Nat → Nat) :
    FastNumericArrayConverter.convert_4 rnd Input
      = [fin (((Input 0 % 256 : Nat) : ℚ) - 128), fin (((Input 1 % 256 : Nat) : ℚ) - 128),
         fin (((Input 2 % 256 : Nat) : ℚ) - 128), fin (((Input 3 % 256 : Nat) : ℚ) - 128)] := by
  have h0 : FastNumericArrayConverter.uint8_4 Input % 256 = Input 0 % 256 := by
    unfold FastNumericArrayConverter.uint8_4
    omega
  have h1 : FastNumericArrayConverter.uint8_4 Input / 256 % 256 = Input 1 % 256 := by
    unfold FastNumericArrayConverter.uint8_4
    omega
  have h2 : FastNumericArrayConverter.uint8_4 Input / 65536 % 256 = Input 2 % 256 := by
    unfold FastNumericArrayConverter.uint8_4
    omega
  have h3 : FastNumericArrayConverter.uint8_4 Input / 16777216 % 256 = Input 3 % 256 := by
    unfold FastNumericArrayConverter.uint8_4
    omega
  have hM : half2_t.of_bits 0x64806480 = (half_t.value 0x6480, half_t.value 0x6480) :=
    of_bits_halves 0x6480 0x6480 (by norm_num) (by norm_num)
  unfold FastNumericArrayConverter.convert_4
  simp only []
  rw [perm_01, perm_23, h0, h1, h2, h3, hM,
    of_bits_halves _ _ (by omega) (by omega), of_bits_halves _ _ (by omega) (by omega)]
  simp only [v_pk_add_f16_neg]
  rw [u8_lane rnd hr _ (Nat.mod_lt _ (by norm_num)),
    u8_lane rnd hr _ (Nat.mod_lt _ (by norm_num)),
    u8_lane rnd hr _ (Nat.mod_lt _ (by norm_num)),
    u8_lane rnd hr _ (Nat.mod_lt _ (by norm_num))]

/-- Groups of four consecutive elements, concatenated in order. -/
theorem flatMap_groups_of_four {α : Type} (f : Nat → α) (k : Nat) :
    (List.range k).flatMap (fun i => [f (4 * i), f (4 * i + 1), f (4 * i + 2), f (4 * i + 3)])
      = (List.range (4 * k)).map f := by
  induction k with
  | zero => rfl
  | succ k ih =>
    rw [List.range_succ, List.flatMap_append, ih]
    have e : 4 * (k + 1) = 4 * k + 1 + 1 + 1 + 1 := by ring
    rw [e, List.range_succ, List.range_succ, List.range_succ, List.range_succ]
    simp

theorem convert_eq (rnd : ℚ → Val ℚ) (hr : half_t.IsRounding rnd) (N : Nat)
    (Input : Nat → Nat) (hN : N % 4 = 0) :
    FastNumericArrayConverter.convert rnd N Input
      = some ((List.range N).map (fun i => fin (((Input i % 256 : Nat) : ℚ) - 128))) := by
  unfold FastNumericArrayConverter.convert
  simp only []
  rw [if_pos hN]
  congr 1
  have e : (fun i => FastNumericArrayConverter.convert_4 rnd (fun j => Input (4 * i + j)))
      = (fun i => [(fin (((Input (4 * i) % 256 : Nat) : ℚ) - 128) : Val ℚ),
          fin (((Input (4 * i + 1) % 256 : Nat) : ℚ) - 128),
          fin (((Input (4 * i + 2) % 256 : Nat) : ℚ) - 128),
          fin (((Input (4 * i + 3) % 256 : Nat) : ℚ) - 128)]) := by
    funext i
    rw [convert_4_eq rnd hr]
    rfl
  rw [e]
  have h4 := flatMap_groups_of_four
    (fun i => (fin (((Input i % 256 : Nat) : ℚ) - 128) : Val ℚ)) (N / 4)
  have hN4 : 4 * (N / 4) = N := by omega
  rw [hN4] at h4
  exact h4

end converter

section pack8

open ck ck.tensor_operation.element_wise Val

/-- The arithmetic shift `q >> 8` of an `int` moves the bits 8..31 of the pattern of `q` to
the bits 0..23; only the bits 24..31 of the result depend on the sign. -/
theorem int_bits_shift8 (q : Int) : int_bits (q >>> (8 : Nat)) % 16777216 = int_bits q / 256 := by
  rw [Int.shiftRight_eq_div_pow]
  unfold int_bits
  norm_num
  omega

theorem nibble_bit_cast_int (x i : Nat) :
    nibble (bit_cast_int x) i = x % 4294967296 / 16 ^ i % 16 := by
  rw [nibble_eq, int_bits_bit_cast_int]

/-- The nibbles 0, 1, 4, 5 of `q >> 8` are the nibbles 2, 3, 6, 7 of `q`. -/
theorem nibble_shift8 (q : Int) :
    nibble (q >>> (8 : Nat)) 0 = nibble q 2 ∧ nibble (q >>> (8 : Nat)) 1 = nibble q 3 ∧
    nibble (q >>> (8 : Nat)) 4 = nibble q 6 ∧ nibble (q >>> (8 : Nat)) 5 = nibble q 7 := by
  have h := int_bits_shift8 q
  simp only [nibble_eq]
  norm_num
  refine ⟨?_, ?_, ?_, ?_⟩ <;> omega

theorem PassThroughPack8_eq (rnd : ℚ → Val ℚ) (hr : half_t.IsRounding rnd) (x : Nat) :
    PassThroughPack8.operator_call_half8 rnd x
      = [fin ((nibble (bit_cast_int x) 0 : ℚ) - 8), fin ((nibble (bit_cast_int x) 4 : ℚ) - 8),
         fin ((nibble (bit_cast_int x) 1 : ℚ) - 8), fin ((nibble (bit_cast_int x) 5 : ℚ) - 8),
         fin ((nibble (bit_cast_int x) 2 : ℚ) - 8), fin ((nibble (bit_cast_int x) 6 : ℚ) - 8),
         fin ((nibble (bit_cast_int x) 3 : ℚ) - 8), fin ((nibble (bit_cast_int x) 7 : ℚ) - 8)] := by
  obtain ⟨h0, h1, h4, h5⟩ := nibble_shift8 (bit_cast_int x)
  unfold PassThroughPack8.operator_call_half8
  rw [pki4_to_half4_eq rnd hr, pki4_to_half4_eq rnd hr, h0, h1, h4, h5]
  rfl

/-- The shift by eight bits with zero fill, on the pattern of the `int`. -/
theorem nibble_logical_shift8 (x : Nat) :
    nibble (bit_cast_int (x % 4294967296 / 256)) 0 = nibble (bit_cast_int x) 2 ∧
    nibble (bit_cast_int (x % 4294967296 / 256)) 1 = nibble (bit_cast_int x) 3 ∧
    nibble (bit_cast_int (x % 4294967296 / 256)) 4 = nibble (bit_cast_int x) 6 ∧
    nibble (bit_cast_int (x % 4294967296 / 256)) 5 = nibble (bit_cast_int x) 7 := by
  refine ⟨?_, ?_, ?_, ?_⟩
  · rw [nibble_bit_cast_int, nibble_bit_cast_int]
    norm_num
  · rw [nibble_bit_cast_int, nibble_bit_cast_int]
    norm_num
    omega
  · rw [nibble_bit_cast_int, nibble_bit_cast_int]
    norm_num
    omega
  · rw [nibble_bit_cast_int, nibble_bit_cast_int]
    norm_num
    omega

end pack8

section lanes

open ck Val

/-- The pattern of `lo` in `pki4_to_half4`: the half-words `0x6400 + n_4` and `0x6400 + n_0`. -/
theorem and_or_lo_bits (q : Int) :
    int_bits (amd_assembly_and_or_b32 q 0x000f000f 0x64006400)
      = 65536 * (0x6400 + nibble q 4) + (0x6400 + nibble q 0) := by
  obtain ⟨cLO, _, cEX, _, _, _⟩ := int_bits_consts
  have n0 : nibble q 0 = int_bits q % 16 := by rw [nibble_eq]; norm_num
  have n4 : nibble q 4 = int_bits q / 65536 % 16 := by rw [nibble_eq]; norm_num
  unfold amd_assembly_and_or_b32
  rw [int_bits_bit_cast_int, cLO, cEX, lo_word, n0, n4]
  omega

/-- The pattern of `hi` in `pki4_to_half4`: the half-words `0x6400 + 16 n_5` and
`0x6400 + 16 n_1`. -/
theorem and_or_hi_bits (q : Int) :
    int_bits (amd_assembly_and_or_b32 q 0x00f000f0 0x64006400)
      = 65536 * (0x6400 + 16 * nibble q 5) + (0x6400 + 16 * nibble q 1) := by
  obtain ⟨_, cHI, cEX, _, _, _⟩ := int_bits_consts
  have n1 : nibble q 1 = int_bits q / 16 % 16 := by rw [nibble_eq]; norm_num
  have n5 : nibble q 5 = int_bits q / 1048576 % 16 := by rw [nibble_eq]; norm_num
  unfold amd_assembly_and_or_b32
  rw [int_bits_bit_cast_int, cHI, cEX, hi_word, n1, n5]
  omega

theorem nibble_lt (q : Int) (i : Nat) : nibble q i < 16 := by
  rw [nibble_eq]
  exact Nat.mod_lt _ (by norm_num)

end lanes

/-! ## The two-nibble decoder and the occupancy tables -/

section half2

open ck Val

set_option maxRecDepth 100000 in
/-- The word `lo` of `pki4_to_half2`: the half-words `0x6400 + low nibble` and
`0x6400 + high nibble`. -/
theorem byte_splice : ∀ l, l < 256 →
    ((((l &&& 0x0f) <<< 16) ||| ((l &&& 0xf0) >>> 4)) % 4294967296) ||| 0x64006400
      = 65536 * (0x6400 + l % 16) + (0x6400 + l / 16) := by
  decide

set_option maxRecDepth 100000 in
theorem byte_high_nibble : ∀ l, l < 256 → (l &&& 0xf0) >>> 4 = l / 16 := by decide

/-- The enabled branch of `pki4_to_half2` returns (high nibble - 8, low nibble - 8). -/
theorem pki4_to_half2_eq (rnd : ℚ → Val ℚ) (hr : half_t.IsRounding rnd) (q : Nat) :
    pki4_to_half2 rnd q
      = (fin (((q % 256 / 16 : Nat) : ℚ) - 8), fin (((q % 16 : Nat) : ℚ) - 8)) := by
  obtain ⟨_, _, cEX, _, cSUB, _⟩ := int_bits_consts
  have hx : q % 256 < 256 := Nat.mod_lt _ (by norm_num)
  have h16 : q % 256 % 16 = q % 16 := by omega
  unfold pki4_to_half2
  simp only []
  rw [cEX, cSUB, int_bits_bit_cast_int, byte_splice _ hx,
    Nat.mod_eq_of_lt (by omega), of_bits_halves _ _ (by omega) (by omega),
    of_bits_halves 0xE408 0xE408 (by norm_num) (by norm_num)]
  simp only [amd_assembly_pk_add_f16]
  rw [lo_lane rnd hr _ (by omega), lo_lane rnd hr _ (Nat.mod_lt _ (by norm_num)), h16]

/-- The `#else` branch of `pki4_to_half2` returns (high nibble - 8, low nibble - 8). -/
theorem pki4_to_half2_else_eq (rnd : ℚ → Val ℚ) (hr : half_t.IsRounding rnd) (q : Nat) :
    pki4_to_half2_else rnd q
      = (fin (((q % 256 / 16 : Nat) : ℚ) - 8), fin (((q % 16 : Nat) : ℚ) - 8)) := by
  have hx : q % 256 < 256 := Nat.mod_lt _ (by norm_num)
  have h16 : q % 256 % 16 = q % 16 := by omega
  unfold pki4_to_half2_else
  simp only []
  rw [byte_and_low _ hx, byte_high_nibble _ hx, h16,
    round_int rnd hr _ (by rw [abs_lt]; omega), round_int rnd hr _ (by rw [abs_lt]; omega)]
  push_cast
  rfl

end half2

section occupancy

open BlockFmhaFwdSplitKVCombinePipeline

/-- The values of `kMaxSplits` for which `detail::log2` is defined, in increasing order. -/
theorem log2_table :
    detail.log2 4 = some 2 ∧ detail.log2 8 = some 3 ∧ detail.log2 16 = some 4 ∧
    detail.log2 32 = some 5 ∧ detail.log2 64 = some 6 ∧ detail.log2 128 = some 7 := by
  decide

/-- The lookup with `Problem::kBlockPerCu = -1`, by bucket. -/
theorem kBlockPerCu_bucket (h m : Int) :
    (h ≤ 32 → kBlockPerCu (-1) h m
      = (detail.log2 m).bind (fun v => occupancy_at [3, 3, 3, 3, 3, 1] (v - 2))) ∧
    (32 < h → h ≤ 128 → kBlockPerCu (-1) h m
      = (detail.log2 m).bind (fun v => occupancy_at [3, 3, 3, 3, 2, 1] (v - 2))) ∧
    (128 < h → h ≤ 256 → kBlockPerCu (-1) h m
      = (detail.log2 m).bind (fun v => occupancy_at [2, 2, 2, 2, 2, 1] (v - 2))) := by
  refine ⟨?_, ?_, ?_⟩
  · intro h1
    simp [kBlockPerCu, h1]
  · intro h1 h2
    simp [kBlockPerCu, not_le.2 h1, h2]
  · intro h1 h2
    have h3 : ¬ h ≤ 32 := by omega
    simp [kBlockPerCu, h3, not_le.2 h1, h2]

/-- The selected occupancies along `kMaxSplits = 4, 8, 16, 32, 64, 128`, by bucket. -/
theorem kBlockPerCu_rows (h : Int) :
    (h ≤ 32 → [4, 8, 16, 32, 64, 128].map (kBlockPerCu (-1) h)
      = [some 3, some 3, some 3, some 3, some 3, some 1]) ∧
    (32 < h → h ≤ 128 → [4, 8, 16, 32, 64, 128].map (kBlockPerCu (-1) h)
      = [some 3, some 3, some 3, some 3, some 2, some 1]) ∧
    (128 < h → h ≤ 256 → [4, 8, 16, 32, 64, 128].map (kBlockPerCu (-1) h)
      = [some 2, some 2, some 2, some 2, some 2, some 1]) := by
  obtain ⟨b1, b2, b3⟩ : (∀ m, h ≤ 32 → kBlockPerCu (-1) h m = _) ∧
      (∀ m, 32 < h → h ≤ 128 → kBlockPerCu (-1) h m = _) ∧
      (∀ m, 128 < h → h ≤ 256 → kBlockPerCu (-1) h m = _) :=
    ⟨fun m => (kBlockPerCu_bucket h m).1, fun m => (kBlockPerCu_bucket h m).2.1,
      fun m => (kBlockPerCu_bucket h m).2.2⟩
  refine ⟨?_, ?_, ?_⟩
  · intro h1
    simp only [List.map, b1 _ h1]
    decide
  · intro h1 h2
    simp only [List.map, b2 _ h1 h2]
    decide
  · intro h1 h2
    simp only [List.map, b3 _ h1 h2]
    decide

/-- A lookup whose values along `kMaxSplits = 4, ..., 128` are `a0 ≥ a1 ≥ ... ≥ a5 = 1`, all of
them `1`, `2` or `3`: every value is in `{1, 2, 3}`, the values do not increase with
`kMaxSplits`, and the value at `128` is `1`. -/
theorem occupancy_row_props (f : Int → Option Int) (a0 a1 a2 a3 a4 : Int)
    (hf : [4, 8, 16, 32, 64, 128].map f = [some a0, some a1, some a2, some a3, some a4, some 1])
    (hr : a4 ≤ a3 ∧ a3 ≤ a2 ∧ a2 ≤ a1 ∧ a1 ≤ a0 ∧ 1 ≤ a4 ∧ a0 ≤ 3) :
    (∀ m, m ∈ ([4, 8, 16, 32, 64, 128] : List Int) →
      ∃ o, f m = some o ∧ (o = 1 ∨ o = 2 ∨ o = 3)) ∧
    (∀ m, m ∈ ([4, 8, 16, 32, 64, 128] : List Int) →
      ∀ m', m' ∈ ([4, 8, 16, 32, 64, 128] : List Int) → m ≤ m' →
        ∃ o o', f m = some o ∧ f m' = some o' ∧ o' ≤ o) ∧
    f 128 = some 1 := by
  simp only [List.map, List.cons.injEq, and_true] at hf
  obtain ⟨e4, e8, e16, e32, e64, e128⟩ := hf
  refine ⟨?_, ?_, e128⟩
  · intro m hm
    simp only [List.mem_cons, List.mem_singleton, List.not_mem_nil, or_false] at hm
    rcases hm with rfl | rfl | rfl | rfl | rfl | rfl
    · exact ⟨_, e4, by omega⟩
    · exact ⟨_, e8, by omega⟩
    · exact ⟨_, e16, by omega⟩
    · exact ⟨_, e32, by omega⟩
    · exact ⟨_, e64, by omega⟩
    · exact ⟨_, e128, by omega⟩
  · intro m hm m' hm' hle
    simp only [List.mem_cons, List.mem_singleton, List.not_mem_nil, or_false] at hm hm'
    rcases hm with rfl | rfl | rfl | rfl | rfl | rfl <;>
      rcases hm' with rfl | rfl | rfl | rfl | rfl | rfl <;>
      first
        | (exfalso; omega)
        | (simp only [e4, e8, e16, e32, e64, e128]; exact ⟨_, _, rfl, rfl, by omega⟩)

end occupancy

/-! ## The loop bound in 32-bit arithmetic, and weights under rounding -/

section index32

open BlockFmhaFwdSplitKVCombinePipeline

theorem index_t_wrap_of_fits (z : Int) (h0 : -2147483648 ≤ z) (h1 : z ≤ 2147483647) :
    index_t_wrap z = z := by
  unfold index_t_wrap
  omega

/-- Line 285 in `index_t` arithmetic agrees with the unbounded value as long as
`num_splits + kNumWarps - 1` fits. -/
theorem integer_divide_ceil_index_t_eq (n W : Nat) (hW : 0 < W) (hn : n + W ≤ 2147483648) :
    integer_divide_ceil_index_t n W = (integer_divide_ceil n W : Int) := by
  unfold integer_divide_ceil_index_t integer_divide_ceil
  have e1 : index_t_wrap (index_t_wrap ((n : Int) + (W : Int)) - 1)
      = ((n + W - 1 : Nat) : Int) := by
    unfold index_t_wrap
    omega
  have hq : (n + W - 1) / W ≤ n + W - 1 := Nat.div_le_self _ _
  rw [e1, ← Int.ofNat_tdiv]
  generalize (n + W - 1) / W = q at hq ⊢
  rw [index_t_wrap_of_fits _ (by omega) (by omega)]

theorem padded_num_splits_index_t_eq (p : Problem) (n : Nat)
    (hn : n + p.kNumWarps ≤ 2147483648) :
    padded_num_splits_index_t n p.kNumWarps = (padded_num_splits p n : Int) := by
  unfold padded_num_splits_index_t padded_num_splits
  rw [integer_divide_ceil_index_t_eq n _ p.kNumWarps_pos hn]
  have hq : (n + p.kNumWarps - 1) / p.kNumWarps * p.kNumWarps ≤ n + p.kNumWarps - 1 :=
    Nat.div_mul_le_self _ _
  unfold integer_divide_ceil at hq ⊢
  have e : ((((n + p.kNumWarps - 1) / p.kNumWarps : Nat) : Int) * (p.kNumWarps : Int))
      = (((n + p.kNumWarps - 1) / p.kNumWarps * p.kNumWarps : Nat) : Int) := by
    push_cast
    rfl
  rw [e]
  generalize (n + p.kNumWarps - 1) / p.kNumWarps * p.kNumWarps = P at hq ⊢
  rw [index_t_wrap_of_fits _ (by omega) (by omega)]

/-- The loop header in `index_t` arithmetic with a bound `T * W` that fits: the body runs at
`j W, (j + 1) W, ...` up to `(T - 1) W`, and `k + 1` evaluations of the condition are enough. -/
theorem split_starts_index_t_run (W T : Nat) (hW : 0 < W) (hT : T * W ≤ 2147483647) :
    ∀ (k j fuel : Nat) (acc : List Int), j + k = T → k < fuel →
      split_starts_index_t W ((T * W : Nat) : Int) fuel ((j * W : Nat) : Int) acc
        = some (acc ++ (List.range' j k).map (fun t => ((t * W : Nat) : Int))) := by
  intro k
  induction k with
  | zero =>
    intro j fuel acc hj hf
    obtain ⟨f, rfl⟩ : ∃ f, fuel = f + 1 := ⟨fuel - 1, by omega⟩
    have hjT : j = T := by omega
    subst hjT
    simp [split_starts_index_t]
  | succ k ih =>
    intro j fuel acc hj hf
    obtain ⟨f, rfl⟩ : ∃ f, fuel = f + 1 := ⟨fuel - 1, by omega⟩
    have hle : (j + 1) * W ≤ T * W := Nat.mul_le_mul_right W (by omega)
    have hlt : j * W < T * W := Nat.mul_lt_mul_of_pos_right (by omega) hW
    have hcond : ((j * W : Nat) : Int) < ((T * W : Nat) : Int) := by exact_mod_cast hlt
    have hstep : index_t_wrap (((j * W : Nat) : Int) + (W : Int))
        = (((j + 1) * W : Nat) : Int) := by
      have e : (((j * W : Nat) : Int) + (W : Int)) = (((j + 1) * W : Nat) : Int) := by
        push_cast
        ring
      rw [e, index_t_wrap_of_fits _ (by omega) (by omega)]
    unfold split_starts_index_t
    rw [if_pos hcond, hstep, ih (j + 1) f _ (by omega) (by omega), List.range'_succ,
      List.map_cons, List.append_assoc]
    rfl

end index32

section rounded

open BlockFmhaFwdSplitKVCombinePipeline Val

/-- The stage-4 weight of a valid split for any exponential and logarithm that are, like the
exact functions and their roundings, non-negative, `1` at `0`, at most `1` on the non-positive
numbers, and non-negative from `1` on: a number in `[0, 1]`, and `0` when the LSE of the
split is `-inf` or the row is degenerate. -/
theorem lse_scales_bounds {R : Type} [LinearOrderedField R] (p : Problem) (exp log : R → R)
    (inp : Inputs R) (r s : Nat) (hr : r < p.kM0) (hn : inp.num_splits ≤ p.kMaxSplits)
    (hv : ∀ j, j < inp.num_splits → IsLSE (inp.lse_acc j r)) (hs : s < inp.num_splits)
    (h0 : ∀ x, 0 ≤ exp x) (h1 : exp 0 = 1) (hle : ∀ x, x ≤ 0 → exp x ≤ 1)
    (hlog : ∀ y, 1 ≤ y → 0 ≤ log y) :
    ∃ w, lse_scales p exp log inp r s = fin w ∧ 0 ≤ w ∧ w ≤ 1 ∧
      ((inp.lse_acc s r = negInf ∨ ∀ j, j < inp.num_splits → inp.lse_acc j r = negInf) →
        w = 0) := by
  have hacc := fun c hc => lse_accum_eq p inp r c hr hc
  have hL : ∀ c, c < p.kMaxSplits → IsLSE (lse_accum p inp r c) := by
    intro c hc
    rw [hacc c hc]
    split
    · exact hv c ‹_›
    · trivial
  have hsc := lse_scales_valid p exp log inp r s hr hn hs
  rcases reduce_max_spec (lse_accum p inp r) p.kMaxSplits hL with
    ⟨emax, hall⟩ | ⟨m, emax, ⟨c0, hc0, e0⟩, hlem⟩
  · -- the degenerate row
    have hmax : lse_max p inp r = negInf := emax
    have hexp : ∀ c, lse_exp p exp inp r c = fin 0 := by
      intro c
      simp [lse_exp, hmax, eqv]
    have hsum : lse_sum p exp inp r = fin 0 := by
      unfold lse_sum block_tile_reduce
      rw [reduce_row_add, Finset.sum_congr rfl (fun c _ => hexp c)]
      simp [zero_def.symm]
    have hlog' : lse_logsum p exp log inp r = negInf := by
      simp [lse_logsum, hsum, eqv]
    refine ⟨0, ?_, le_refl _, zero_le_one, fun _ => rfl⟩
    rw [hsc, hlog']
    simp [eqv]
  · -- a row with the finite maximum `m`
    have hmax : lse_max p inp r = fin m := emax
    have hexp : ∀ c, c < p.kMaxSplits →
        ∃ e, lse_exp p exp inp r c = fin e ∧ 0 ≤ e := by
      intro c hc
      have hc' := hL c hc
      unfold lse_exp
      rw [hmax]
      cases hx : lse_accum p inp r c with
      | fin x => exact ⟨exp (x - m), by simp [eqv, fin_sub_fin, vexp], h0 _⟩
      | negInf => exact ⟨0, by simp [eqv, negInf_sub_fin, vexp], le_refl _⟩
      | nan => rw [hx] at hc'; exact absurd hc' (by simp [IsLSE])
      | posInf => rw [hx] at hc'; exact absurd hc' (by simp [IsLSE])
    have hone : lse_exp p exp inp r c0 = fin 1 := by
      unfold lse_exp
      rw [hmax, e0]
      simp [eqv, fin_sub_fin, vexp, h1]
    have hfin : ∀ c, c ∈ Finset.range p.kMaxSplits →
        lse_exp p exp inp r c = fin ((lse_exp p exp inp r c).toR) := by
      intro c hc
      obtain ⟨e, he, _⟩ := hexp c (Finset.mem_range.1 hc)
      rw [he]
      rfl
    have hnonneg : ∀ c, c ∈ Finset.range p.kMaxSplits →
        0 ≤ (lse_exp p exp inp r c).toR := by
      intro c hc
      obtain ⟨e, he, hpos⟩ := hexp c (Finset.mem_range.1 hc)
      rw [he]
      exact hpos
    have hS1 : 1 ≤ ∑ c in Finset.range p.kMaxSplits, (lse_exp p exp inp r c).toR := by
      have h := Finset.single_le_sum hnonneg (Finset.mem_range.2 hc0)
      rw [hone] at h
      exact h
    have hsum : lse_sum p exp inp r
        = fin (∑ c in Finset.range p.kMaxSplits, (lse_exp p exp inp r c).toR) := by
      unfold lse_sum block_tile_reduce
      rw [reduce_row_add, Finset.sum_congr rfl hfin, sum_fin]
    generalize (∑ c in Finset.range p.kMaxSplits, (lse_exp p exp inp r c).toR) = S
      at hS1 hsum
    have hS0 : S ≠ 0 := ne_of_gt (lt_of_lt_of_le zero_lt_one hS1)
    have hSn : ¬ S < 0 := not_lt.2 (le_trans zero_le_one hS1)
    have hlog' : lse_logsum p exp log inp r = fin (log S + m) := by
      unfold lse_logsum
      rw [hsum, hmax]
      simp [eqv, vlog, hS0, hSn, fin_add_fin]
    have hlogS := hlog S hS1
    rw [hlog'] at hsc
    have hs' := hacc s (by omega)
    rw [if_pos hs] at hs'
    have hvs := hv s hs
    have hnd : ¬ ∀ j, j < inp.num_splits → inp.lse_acc j r = negInf := by
      intro hd
      have h := hacc c0 hc0
      rw [e0] at h
      by_cases hc : c0 < inp.num_splits
      · rw [if_pos hc, hd c0 hc] at h
        cases h
      · rw [if_neg hc] at h
        cases h
    cases hx : inp.lse_acc s r with
    | fin x =>
      have hxm : x ≤ m := hlem s (by omega) x (by rw [hs', hx])
      refine ⟨exp (x - (log S + m)), ?_, h0 _, hle _ (by linarith), ?_⟩
      · rw [hsc, hx]
        simp [eqv, fin_sub_fin, vexp]
      · rintro (h | h)
        · cases h
        · exact absurd h hnd
    | negInf =>
      refine ⟨0, ?_, le_refl _, zero_le_one, fun _ => rfl⟩
      rw [hsc, hx]
      simp [eqv, negInf_sub_fin, vexp]
    | nan => rw [hx] at hvs; exact absurd hvs (by simp [IsLSE])
    | posInf => rw [hx] at hvs; exact absurd hvs (by simp [IsLSE])

/-- The exact exponential of `-176` is below half the smallest positive binary32 number. -/
theorem exp_neg_176_le : Real.exp (-176) ≤ 1 / 2 ^ 150 := by
  have h2 : (2 : ℝ) ≤ Real.exp 1 := by
    have := Real.add_one_le_exp (1 : ℝ)
    linarith
  have h3 : (2 : ℝ) ^ 176 ≤ Real.exp 1 ^ 176 := pow_le_pow_left₀ (by norm_num) h2 176
  have h4 : Real.exp 1 ^ 176 = Real.exp 176 := by
    rw [← Real.exp_nat_mul]
    norm_num
  have h5 : (2 : ℝ) ^ 150 ≤ 2 ^ 176 := pow_le_pow_right₀ (by norm_num) (by norm_num)
  rw [Real.exp_neg, ← one_div]
  exact one_div_le_one_div_of_le (by positivity) (by linarith)

/-- The exponential with underflow has the properties `lse_scales_bounds` asks for, and it
returns `0` at `-176`. -/
theorem exp_underflow_props :
    (∀ x : ℝ, 0 ≤ exp_underflow Real.exp x) ∧ exp_underflow Real.exp 0 = 1 ∧
    (∀ x : ℝ, x ≤ 0 → exp_underflow Real.exp x ≤ 1) ∧
    (∀ y : ℝ, 1 ≤ y → 0 ≤ Real.log y) ∧ exp_underflow Real.exp (-176) = 0 := by
  refine ⟨?_, ?_, ?_, fun y hy => Real.log_nonneg hy, ?_⟩
  · intro x
    unfold exp_underflow round_underflow
    split
    · exact le_refl _
    · exact le_of_lt (Real.exp_pos x)
  · unfold exp_underflow round_underflow
    rw [Real.exp_zero, if_neg]
    rw [abs_one, not_le]
    have : (1 : ℝ) < 2 ^ 150 := one_lt_pow₀ (by norm_num) (by norm_num)
    exact (div_lt_one (by positivity)).2 this
  · intro x hx
    unfold exp_underflow round_underflow
    split
    · exact zero_le_one
    · exact Real.exp_le_one_iff.2 hx
  · unfold exp_underflow round_underflow
    rw [if_pos]
    rw [abs_of_pos (Real.exp_pos _)]
    exact exp_neg_176_le

/-- Two splits with the LSE `88` and `-88`, the exponential underflowing: the row maximum and
the merged statistic are `88`, and the weight of split 1 is `0`. -/
theorem two_splits_underflow :
    lse_max problem_w1 (two_splits (fin 88) (fin (-88))) 0 = fin 88 ∧
    lse_logsum problem_w1 (exp_underflow Real.exp) Real.log (two_splits (fin 88) (fin (-88))) 0
      = fin 88 ∧
    lse_scales problem_w1 (exp_underflow Real.exp) Real.log (two_splits (fin 88) (fin (-88))) 0 0
      = fin 1 ∧
    lse_scales problem_w1 (exp_underflow Real.exp) Real.log (two_splits (fin 88) (fin (-88))) 0 1
      = fin 0 := by
  obtain ⟨_, e0, _, _, eu⟩ := exp_underflow_props
  have hlt : ¬ ((88 : ℝ) < -88) := by norm_num
  have hmax : lse_max problem_w1 (two_splits (fin 88) (fin (-88))) 0 = fin 88 := by
    simp [lse_max, block_tile_reduce, reduce_row, lse_accum, lse_acc_lds, two_splits,
      problem_w1, small_problem, Val.max, gt, hlt]
  have hsum : lse_sum problem_w1 (exp_underflow Real.exp) (two_splits (fin 88) (fin (-88))) 0
      = fin 1 := by
    have e1 : ((-88 : ℝ) - 88) = -176 := by norm_num
    have hexp : lse_exp problem_w1 (exp_underflow Real.exp) (two_splits (fin 88) (fin (-88))) 0
        = fun c => vexp (exp_underflow Real.exp)
            (lse_accum problem_w1 (two_splits (fin 88) (fin (-88))) 0 c - fin 88) := by
      funext c
      unfold lse_exp
      rw [hmax]
      simp [eqv]
    unfold lse_sum block_tile_reduce
    rw [hexp]
    simp [reduce_row, lse_accum, lse_acc_lds, two_splits, problem_w1, small_problem, vexp,
      fin_sub_fin, negInf_sub_fin, fin_add_fin, e0, e1, eu]
  have hlog : lse_logsum problem_w1 (exp_underflow Real.exp) Real.log
      (two_splits (fin 88) (fin (-88))) 0 = fin 88 := by
    have h10 : ¬ ((1 : ℝ) < 0) := by norm_num
    simp [lse_logsum, hsum, hmax, eqv, vlog, h10, fin_add_fin]
  have hn : (two_splits (fin 88) (fin (-88))).num_splits ≤ problem_w1.kMaxSplits := by decide
  refine ⟨hmax, hlog, ?_, ?_⟩
  · rw [lse_scales_valid _ _ _ _ 0 0 (by decide) hn (by decide), hlog]
    simp [eqv, two_splits, fin_sub_fin, vexp, e0]
  · rw [lse_scales_valid _ _ _ _ 0 1 (by decide) hn (by decide), hlog]
    have e1 : ((-88 : ℝ) - 88) = -176 := by norm_num
    simp [eqv, two_splits, fin_sub_fin, vexp, e1, eu]

end rounded

/-! ## The claims -/

section claims

open BlockFmhaFwdSplitKVCombinePipeline Val

/-- C1. Log-sum-exp correctness: for every row of the block and every `num_splits` with
`1 ≤ num_splits ≤ kMaxSplits`, if the LSE values of the valid splits of that row are each finite
or `-inf` and at least one is finite, the merged value `lse_logsum` of stage 3 is finite and
equals `log (∑ i < num_splits, exp v_i)` in exact real arithmetic, where `exp (-inf) = 0`. -/
theorem C1_lse_logsum_correct (p : Problem) (inp : Inputs ℝ) (r : Nat) (hr : r < p.kM0)
    (_h1 : 1 ≤ inp.num_splits) (hn : inp.num_splits ≤ p.kMaxSplits)
    (hv : ∀ s, s < inp.num_splits → inp.lse_acc s r = negInf ∨ ∃ x, inp.lse_acc s r = fin x)
    (hf : ∃ s x, s < inp.num_splits ∧ inp.lse_acc s r = fin x) :
    lse_logsum p Real.exp Real.log inp r
      = fin (Real.log (∑ i in Finset.range inp.num_splits,
          (vexp Real.exp (inp.lse_acc i r)).toR)) := by
  refine (lse_row_nondegenerate p inp r hr hn ?_ ?_).2.2
  · intro s hs
    rcases hv s hs with h | ⟨x, h⟩ <;> rw [h] <;> trivial
  · obtain ⟨s, x, hs, h⟩ := hf
    exact ⟨s, hs, by rw [h]; trivial⟩

/-- Witness of C1 on the end-to-end scenario: LSE `[1, 2, -inf]`. -/
theorem C1_lse_logsum_correct_witness :
    lse_logsum problem_w4 Real.exp Real.log (scenario nan nan) 0
      = fin (Real.log (∑ i in Finset.range 3,
          (vexp Real.exp ((scenario nan nan).lse_acc i 0)).toR)) :=
  C1_lse_logsum_correct problem_w4 (scenario nan nan) 0 (by decide)
    (by decide) (by decide)
    (by
      intro s hs
      have hs3 : s < 3 := hs
      interval_cases s
      · exact Or.inr ⟨1, rfl⟩
      · exact Or.inr ⟨2, rfl⟩
      · exact Or.inl rfl)
    ⟨0, 1, by decide, rfl⟩

/-- C2, as the code has it.  Final output formula: for every `num_splits ≤ kMaxSplits` and
every row `r < kM0`, the tile returned by `operator()` with identity postprocessing is, at
`(r, c)`, the sum over the splits `s < num_splits` of `rescale_weight r s * o_acc s r c`, the
weight being the stage-4 scratch entry (`exp (lse_acc s r - lse_logsum r)`, or `0` when
`lse_logsum r = -inf`), plus, for every padding split `s` with
`num_splits ≤ s < padded_num_splits`, the term `lse_acc s r * o_acc s r c` weighted by the raw
LSE value that stage 4 left in the scratch tile.  No term for a split `≥ num_splits` appears
when `num_splits` is a multiple of `kNumWarps`. -/
theorem C2_output_formula (p : Problem) (inp : Inputs ℝ) (f : Val ℝ → Val ℝ) (r c : Nat)
    (hr : r < p.kM0) (hn : inp.num_splits ≤ p.kMaxSplits) :
    (padded_num_splits p inp.num_splits ≤ p.kMaxSplits →
      (operator_call p Real.exp Real.log f id inp).o_acc r c
        = ∑ s in Finset.range inp.num_splits,
            (if eqv (lse_logsum p Real.exp Real.log inp r) negInf then fin 0
              else vexp Real.exp (inp.lse_acc s r - lse_logsum p Real.exp Real.log inp r))
              * inp.o_acc (s * p.kM0 + r) c
          + ∑ s in Finset.Ico inp.num_splits (padded_num_splits p inp.num_splits),
              inp.lse_acc s r * inp.o_acc (s * p.kM0 + r) c) ∧
    (p.kNumWarps ∣ inp.num_splits →
      (operator_call p Real.exp Real.log f id inp).o_acc r c
        = ∑ s in Finset.range inp.num_splits,
            (if eqv (lse_logsum p Real.exp Real.log inp r) negInf then fin 0
              else vexp Real.exp (inp.lse_acc s r - lse_logsum p Real.exp Real.log inp r))
              * inp.o_acc (s * p.kM0 + r) c) := by
  have hvalid : ∑ s in Finset.range inp.num_splits,
      lse_scales p Real.exp Real.log inp r s * inp.o_acc (s * p.kM0 + r) c
      = ∑ s in Finset.range inp.num_splits,
          (if eqv (lse_logsum p Real.exp Real.log inp r) negInf then fin 0
            else vexp Real.exp (inp.lse_acc s r - lse_logsum p Real.exp Real.log inp r))
            * inp.o_acc (s * p.kM0 + r) c := by
    apply Finset.sum_congr rfl
    intro s hs
    rw [lse_scales_valid p _ _ inp r s hr hn (Finset.mem_range.1 hs)]
  refine ⟨?_, ?_⟩
  · intro hp
    show id (o_acc_sum p Real.exp Real.log inp r c) = _
    rw [id, o_acc_sum_split p _ _ inp r c hr, hvalid]
    congr 1
    apply Finset.sum_congr rfl
    intro s hs
    have hs2 := (Finset.mem_Ico.1 hs).2
    simp only [lse_acc_lds]
    rw [if_pos ⟨hr, by omega⟩]
  · intro hd
    show id (o_acc_sum p Real.exp Real.log inp r c) = _
    rw [id, o_acc_sum_of_dvd p _ _ inp r c hr hd, hvalid]

/-- Counterexample to C2 as stated: `kNumWarps = 4`, `kMaxSplits = 4`, `num_splits = 3`, LSE
`[1, 2, -inf]`, outputs `[[1,1],[2,2],[99,99]]`, and a padding split 3 holding LSE `1` and
output `[1, 1]`.  The returned element `(0, 0)` is not the sum over the three valid splits of
`exp (lse_acc s - lse_logsum) * o_acc s`: the loop runs to `padded_num_splits = 4` and adds
`lse_acc 3 * o_acc 3 = 1`. -/
theorem C2_counterexample :
    (operator_call problem_w4 Real.exp Real.log id id
        (scenario (fin 1) (fin 1))).o_acc 0 0
      ≠ ∑ s in Finset.range 3,
          vexp Real.exp ((scenario (fin 1) (fin 1)).lse_acc s 0
            - lse_logsum problem_w4 Real.exp Real.log
                (scenario (fin 1) (fin 1)) 0)
            * (scenario (fin 1) (fin 1)).o_acc (s * 1 + 0) 0 := by
  have hsc := isScenario_w4 (fin 1) (fin 1)
  have hL := scenario_logsum _ _ hsc
  have hR : ∑ s in Finset.range 3,
      vexp Real.exp ((scenario (fin 1) (fin 1)).lse_acc s 0
        - lse_logsum problem_w4 Real.exp Real.log
            (scenario (fin 1) (fin 1)) 0)
        * (scenario (fin 1) (fin 1)).o_acc (s * 1 + 0) 0
      = fin ((Real.exp 1 + 2 * Real.exp 2) / (Real.exp 1 + Real.exp 2)) := by
    rw [← scenario_valid_sum _ _ hsc 0 (by decide)]
    apply Finset.sum_congr rfl
    intro s hs
    rw [lse_scales_valid _ _ _ _ 0 s (by decide) (by decide) (Finset.mem_range.1 hs), hL]
    simp [eqv, problem_w4, small_problem]
  have hO : (operator_call problem_w4 Real.exp Real.log id id
      (scenario (fin 1) (fin 1))).o_acc 0 0
      = fin ((Real.exp 1 + 2 * Real.exp 2) / (Real.exp 1 + Real.exp 2) + 1) := by
    show id (o_acc_sum _ _ _ _ 0 0) = _
    rw [id, scenario_w4_output _ _ 0 (by decide)]
    simp
  rw [hR, hO]
  intro h
  injection h with h
  linarith

/-- Witness of C2 on the end-to-end scenario run with four warps: the padding split 3 is part
of the sum. -/
theorem C2_output_formula_witness :
    (operator_call problem_w4 Real.exp Real.log id id
        (scenario (fin 1) (fin 1))).o_acc 0 0
      = ∑ s in Finset.range 3,
          (if eqv (lse_logsum problem_w4 Real.exp Real.log
                (scenario (fin 1) (fin 1)) 0) negInf then fin 0
            else vexp Real.exp ((scenario (fin 1) (fin 1)).lse_acc s 0
              - lse_logsum problem_w4 Real.exp Real.log
                  (scenario (fin 1) (fin 1)) 0))
            * (scenario (fin 1) (fin 1)).o_acc (s * 1 + 0) 0
        + ∑ s in Finset.Ico 3 4,
            (scenario (fin 1) (fin 1)).lse_acc s 0
              * (scenario (fin 1) (fin 1)).o_acc (s * 1 + 0) 0 :=
  (C2_output_formula problem_w4 (scenario (fin 1) (fin 1)) id 0 0
    (by decide) (by decide)).1 (by decide)

/-- C3, as the code has it.  Degenerate row: for every `num_splits` in `[1, kMaxSplits]` and
every row of the block whose LSE values are `-inf` for every split `< num_splits`,
`lse_logsum` is `-inf` for that row and the rescale weight stored for every valid split of
that row is `0`; when moreover `num_splits` is a multiple of `kNumWarps` and the output
entries of the valid splits in a column are finite numbers, the returned row is `0` in that
column. -/
theorem C3_degenerate_row (p : Problem) (inp : Inputs ℝ) (f : Val ℝ → Val ℝ) (r : Nat)
    (hr : r < p.kM0) (_h1 : 1 ≤ inp.num_splits) (hn : inp.num_splits ≤ p.kMaxSplits)
    (hv : ∀ s, s < inp.num_splits → inp.lse_acc s r = negInf) :
    lse_logsum p Real.exp Real.log inp r = negInf ∧
    (∀ s, s < inp.num_splits → lse_scales p Real.exp Real.log inp r s = fin 0) ∧
    (p.kNumWarps ∣ inp.num_splits → ∀ c,
      (∀ s, s < inp.num_splits → IsFin (inp.o_acc (s * p.kM0 + r) c)) →
      (operator_call p Real.exp Real.log f id inp).o_acc r c = fin 0) := by
  refine ⟨(lse_row_degenerate p inp r hr hv).2, lse_scales_degenerate p inp r hr hn hv, ?_⟩
  intro hd c ho
  show id (o_acc_sum p Real.exp Real.log inp r c) = _
  rw [id, o_acc_sum_of_dvd p _ _ inp r c hr hd]
  have hterm : ∀ s, s ∈ Finset.range inp.num_splits →
      lse_scales p Real.exp Real.log inp r s * inp.o_acc (s * p.kM0 + r) c
        = fin ((fun _ => (0 : ℝ)) s) := by
    intro s hs
    have hs1 := Finset.mem_range.1 hs
    have hfin := ho s hs1
    rw [lse_scales_degenerate p inp r hr hn hv s hs1]
    cases hx : inp.o_acc (s * p.kM0 + r) c with
    | fin x => simp
    | nan => rw [hx] at hfin; exact absurd hfin (by simp [IsFin])
    | negInf => rw [hx] at hfin; exact absurd hfin (by simp [IsFin])
    | posInf => rw [hx] at hfin; exact absurd hfin (by simp [IsFin])
  rw [Finset.sum_congr rfl hterm, sum_fin]
  simp

/-- Counterexample to C3 as stated, in its two parts.  (1) `kNumWarps = 4`, `kMaxSplits = 4`,
`num_splits = 2`, LSE `[-inf, -inf]`, all output entries `1`, padding splits 2 and 3 holding
LSE `1`: the valid LSE values are all `-inf`, yet the returned element `(0, 0)` is `2`, because
the loop runs to `padded_num_splits = 4` and weights the padding splits with their raw LSE.
(2) `kNumWarps = 1`, `num_splits = 2`, LSE `[-inf, -inf]`, output entries `+inf`: the returned
element is `0 * inf + 0 * inf`, a NaN. -/
theorem C3_counterexample :
    (∀ s, s < 2 → (degenerate_scenario (fin 1) (fin 1) (fin 1)).lse_acc s 0 = negInf) ∧
    (operator_call problem_w4 Real.exp Real.log id id
        (degenerate_scenario (fin 1) (fin 1) (fin 1))).o_acc 0 0 = fin 2 ∧
    (operator_call problem_w1 Real.exp Real.log id id
        (degenerate_scenario posInf (fin 1) (fin 1))).o_acc 0 0 = nan := by
  have hdeg : ∀ (o a b : Val ℝ) s, s < (degenerate_scenario o a b).num_splits →
      (degenerate_scenario o a b).lse_acc s 0 = negInf := by
    intro o a b s hs
    have hs2 : s < 2 := hs
    simp [degenerate_scenario, hs2]
  refine ⟨hdeg _ _ _, ?_, ?_⟩
  · show id (o_acc_sum _ _ _ _ 0 0) = _
    rw [id, o_acc_sum_split _ _ _ _ 0 0 (by decide)]
    have hpad : padded_num_splits problem_w4
        (degenerate_scenario (fin 1) (fin 1) (fin 1)).num_splits = 4 := by decide
    rw [hpad]
    show ∑ s in Finset.range 2, _ + ∑ s in Finset.Ico 2 4, _ = _
    have e : Finset.Ico 2 4 = {2, 3} := by decide
    rw [e, Finset.sum_range_succ, Finset.sum_range_succ, Finset.sum_range_zero,
      lse_scales_degenerate _ _ 0 (by decide) (by decide) (hdeg _ _ _) 0 (by decide),
      lse_scales_degenerate _ _ 0 (by decide) (by decide) (hdeg _ _ _) 1 (by decide),
      Finset.sum_pair (by decide)]
    simp [lse_acc_lds, problem_w4, small_problem, degenerate_scenario]
    norm_num
  · show id (o_acc_sum _ _ _ _ 0 0) = _
    rw [id, o_acc_sum_of_dvd _ _ _ _ 0 0 (by decide) (one_dvd _)]
    show ∑ s in Finset.range 2, _ = _
    rw [Finset.sum_range_succ, Finset.sum_range_succ, Finset.sum_range_zero,
      lse_scales_degenerate _ _ 0 (by decide) (by decide) (hdeg _ _ _) 0 (by decide),
      lse_scales_degenerate _ _ 0 (by decide) (by decide) (hdeg _ _ _) 1 (by decide)]
    simp [problem_w1, small_problem, degenerate_scenario, mul_def, mul, infTimes, add_def, add,
      zero_def]

/-- Witness of C3 on the all-degenerate scenario run with two warps: `lse_logsum = -inf`,
weights `0`, output `0`. -/
theorem C3_degenerate_row_witness :
    lse_logsum problem_w2 Real.exp Real.log
        (degenerate_scenario (fin 5) (fin 1) (fin 1)) 0 = negInf ∧
    (∀ s, s < 2 → lse_scales problem_w2 Real.exp Real.log
        (degenerate_scenario (fin 5) (fin 1) (fin 1)) 0 s = fin 0) ∧
    (operator_call problem_w2 Real.exp Real.log id id
        (degenerate_scenario (fin 5) (fin 1) (fin 1))).o_acc 0 0 = fin 0 :=
  have h := C3_degenerate_row problem_w2
    (degenerate_scenario (fin 5) (fin 1) (fin 1)) id 0 (by decide) (by decide) (by decide)
    (by
      intro s hs
      have hs2 : s < 2 := hs
      simp [degenerate_scenario, hs2])
  ⟨h.1, h.2.1, h.2.2 (by decide) 0 (by
    intro s hs
    have hs2 : s < 2 := hs
    simp [degenerate_scenario, problem_w2, small_problem, hs2, IsFin])⟩

/-- C4. Rescale weights are the softmax of the LSE values: after stage 4, for every row `r`
of the block and every column `s < num_splits`, the scratch entry `(r, s)` holds `0` when
`lse_logsum r` is `-inf`, and `exp (lse_acc s r - lse_logsum r)` when `lse_logsum r` is finite;
in the finite case this is `exp v_s / ∑ j < num_splits, exp v_j`, where `exp (-inf) = 0`. -/
theorem C4_rescale_weights_softmax (p : Problem) (inp : Inputs ℝ) (r s : Nat) (hr : r < p.kM0)
    (hn : inp.num_splits ≤ p.kMaxSplits) (hs : s < inp.num_splits) :
    (lse_logsum p Real.exp Real.log inp r = negInf →
      lse_scales p Real.exp Real.log inp r s = fin 0) ∧
    (∀ L, lse_logsum p Real.exp Real.log inp r = fin L →
      lse_scales p Real.exp Real.log inp r s = vexp Real.exp (inp.lse_acc s r - fin L) ∧
      lse_scales p Real.exp Real.log inp r s
        = fin ((vexp Real.exp (inp.lse_acc s r)).toR
            / ∑ j in Finset.range inp.num_splits, (vexp Real.exp (inp.lse_acc j r)).toR)) := by
  refine ⟨?_, ?_⟩
  · intro h
    rw [lse_scales_valid p _ _ inp r s hr hn hs, h]
    simp [eqv]
  · intro L h
    refine ⟨?_, ?_⟩
    · rw [lse_scales_valid p _ _ inp r s hr hn hs, h]
      simp [eqv]
    · obtain ⟨hv, hf⟩ := isLSE_of_logsum_fin p inp r hr hn L h
      exact lse_scales_nondegenerate p inp r hr hn hv hf s hs

/-- Witness of C4 on the end-to-end scenario, row 0 and split 0. -/
theorem C4_rescale_weights_softmax_witness :
    (lse_logsum problem_w4 Real.exp Real.log (scenario nan nan) 0 = negInf →
      lse_scales problem_w4 Real.exp Real.log (scenario nan nan) 0 0
        = fin 0) ∧
    (∀ L, lse_logsum problem_w4 Real.exp Real.log (scenario nan nan) 0
        = fin L →
      lse_scales problem_w4 Real.exp Real.log (scenario nan nan) 0 0
        = vexp Real.exp ((scenario nan nan).lse_acc 0 0 - fin L) ∧
      lse_scales problem_w4 Real.exp Real.log (scenario nan nan) 0 0
        = fin ((vexp Real.exp ((scenario nan nan).lse_acc 0 0)).toR
            / ∑ j in Finset.range (scenario nan nan).num_splits,
                (vexp Real.exp ((scenario nan nan).lse_acc j 0)).toR)) :=
  C4_rescale_weights_softmax problem_w4 (scenario nan nan) 0 0 (by decide)
    (by decide) (by decide)

/-- C5. Normalization: for every row of the block whose `lse_logsum` is finite, the rescale
weights written in stage 4 for the splits below `num_splits` sum to exactly `1`. -/
theorem C5_weights_sum_to_one (p : Problem) (inp : Inputs ℝ) (r : Nat) (L : ℝ)
    (hr : r < p.kM0) (hn : inp.num_splits ≤ p.kMaxSplits)
    (h : lse_logsum p Real.exp Real.log inp r = fin L) :
    ∑ s in Finset.range inp.num_splits, lse_scales p Real.exp Real.log inp r s = fin 1 := by
  obtain ⟨hv, hf⟩ := isLSE_of_logsum_fin p inp r hr hn L h
  have hpos := (lse_row_nondegenerate p inp r hr hn hv hf).1
  rw [Finset.sum_congr rfl (fun s hs =>
    lse_scales_nondegenerate p inp r hr hn hv hf s (Finset.mem_range.1 hs)), sum_fin,
    ← Finset.sum_div, div_self (ne_of_gt hpos)]

/-- Witness of C5 on the end-to-end scenario. -/
theorem C5_weights_sum_to_one_witness :
    ∑ s in Finset.range (scenario nan nan).num_splits,
      lse_scales problem_w4 Real.exp Real.log (scenario nan nan) 0 s
      = fin 1 :=
  C5_weights_sum_to_one problem_w4 (scenario nan nan) 0
    (Real.log (Real.exp 1 + Real.exp 2)) (by decide) (by decide)
    (scenario_logsum _ _ (isScenario_w4 nan nan))

/-- C6, as the code has it.  Padding and the result: for every `num_splits ≤ kMaxSplits`, two
runs whose LSE and output inputs agree on every split index `< num_splits` return the same
`lse_logsum`, whatever the inputs hold on the other split indices and whatever the scratch
holds.  They return the same output tile when the inputs also agree on the padding splits
`num_splits ≤ s < padded_num_splits` that the accumulation loop consumes
(`padded_num_splits ≤ kMaxSplits`), so in particular whenever `num_splits` is a multiple of
`kNumWarps`; the split indices from `padded_num_splits` on never matter. -/
theorem C6_padding_dependence (p : Problem) (in1 in2 : Inputs ℝ) (f g : Val ℝ → Val ℝ)
    (hnum : in1.num_splits = in2.num_splits) (hn : in1.num_splits ≤ p.kMaxSplits)
    (hlse : ∀ s r, s < in1.num_splits → r < p.kM0 → in1.lse_acc s r = in2.lse_acc s r)
    (ho : ∀ s r c, s < in1.num_splits → r < p.kM0 →
      in1.o_acc (s * p.kM0 + r) c = in2.o_acc (s * p.kM0 + r) c) :
    (∀ r, r < p.kM0 →
      lse_logsum p Real.exp Real.log in1 r = lse_logsum p Real.exp Real.log in2 r) ∧
    (padded_num_splits p in1.num_splits ≤ p.kMaxSplits →
      (∀ s r, in1.num_splits ≤ s → s < padded_num_splits p in1.num_splits → r < p.kM0 →
        in1.lse_acc s r = in2.lse_acc s r ∧
        ∀ c, in1.o_acc (s * p.kM0 + r) c = in2.o_acc (s * p.kM0 + r) c) →
      ∀ r c, r < p.kM0 →
        (operator_call p Real.exp Real.log f g in1).o_acc r c
          = (operator_call p Real.exp Real.log f g in2).o_acc r c) ∧
    (p.kNumWarps ∣ in1.num_splits →
      ∀ r c, r < p.kM0 →
        (operator_call p Real.exp Real.log f g in1).o_acc r c
          = (operator_call p Real.exp Real.log f g in2).o_acc r c) := by
  have hvalid : ∀ r c, r < p.kM0 →
      ∑ s in Finset.range in1.num_splits,
        lse_scales p Real.exp Real.log in1 r s * in1.o_acc (s * p.kM0 + r) c
      = ∑ s in Finset.range in2.num_splits,
        lse_scales p Real.exp Real.log in2 r s * in2.o_acc (s * p.kM0 + r) c := by
    intro r c hr
    rw [← hnum]
    apply Finset.sum_congr rfl
    intro s hs
    have hs1 := Finset.mem_range.1 hs
    rw [lse_scales_congr p _ _ in1 in2 r hr hnum hn (fun s hs => hlse s r hs hr) s hs1,
      ho s r c hs1 hr]
  refine ⟨?_, ?_, ?_⟩
  · intro r hr
    exact lse_logsum_congr p _ _ in1 in2 r hr hnum (fun s hs => hlse s r hs hr)
  · intro hp hpad r c hr
    show g (o_acc_sum p Real.exp Real.log in1 r c) = g (o_acc_sum p Real.exp Real.log in2 r c)
    rw [o_acc_sum_split p _ _ in1 r c hr, o_acc_sum_split p _ _ in2 r c hr, hvalid r c hr,
      ← hnum]
    congr 2
    apply Finset.sum_congr rfl
    intro s hs
    obtain ⟨hs1, hs2⟩ := Finset.mem_Ico.1 hs
    obtain ⟨e1, e2⟩ := hpad s r hs1 hs2 hr
    simp only [lse_acc_lds]
    rw [if_pos ⟨hr, by omega⟩, if_pos ⟨hr, by omega⟩, e1, e2 c]
  · intro hd r c hr
    show g (o_acc_sum p Real.exp Real.log in1 r c) = g (o_acc_sum p Real.exp Real.log in2 r c)
    rw [o_acc_sum_of_dvd p _ _ in1 r c hr hd, o_acc_sum_of_dvd p _ _ in2 r c hr (hnum ▸ hd),
      hvalid r c hr]

/-- Counterexample to C6 as stated: `kNumWarps = 4`, `kMaxSplits = 4`, `num_splits = 3`.  The
two inputs agree on the splits 0, 1, 2 (LSE `[1, 2, -inf]`, outputs `[[1,1],[2,2],[99,99]]`)
and differ on the padding split 3 only, whose output vector is `[1, 1]` in the first run and
`[0, 0]` in the second (LSE `1` in both).  The returned elements `(0, 0)` differ. -/
theorem C6_counterexample :
    (∀ s r, s < 3 → (scenario (fin 1) (fin 1)).lse_acc s r = (scenario (fin 1) (fin 0)).lse_acc s r) ∧
    (∀ s c, s < 3 → (scenario (fin 1) (fin 1)).o_acc (s * 1 + 0) c
      = (scenario (fin 1) (fin 0)).o_acc (s * 1 + 0) c) ∧
    (operator_call problem_w4 Real.exp Real.log id id (scenario (fin 1) (fin 1))).o_acc 0 0
      ≠ (operator_call problem_w4 Real.exp Real.log id id (scenario (fin 1) (fin 0))).o_acc 0 0 := by
  refine ⟨?_, ?_, ?_⟩
  · intro s r hs
    interval_cases s <;> rfl
  · intro s c hs
    interval_cases s <;> rfl
  · have h1 : (operator_call problem_w4 Real.exp Real.log id id
        (scenario (fin 1) (fin 1))).o_acc 0 0
        = fin ((Real.exp 1 + 2 * Real.exp 2) / (Real.exp 1 + Real.exp 2) + 1) := by
      show id (o_acc_sum _ _ _ _ 0 0) = _
      rw [id, scenario_w4_output _ _ 0 (by decide)]
      simp
    have h2 : (operator_call problem_w4 Real.exp Real.log id id
        (scenario (fin 1) (fin 0))).o_acc 0 0
        = fin ((Real.exp 1 + 2 * Real.exp 2) / (Real.exp 1 + Real.exp 2)) := by
      show id (o_acc_sum _ _ _ _ 0 0) = _
      rw [id, scenario_w4_output _ _ 0 (by decide)]
      simp
    rw [h1, h2]
    intro h
    injection h with h
    linarith

/-- Witness of C6: the end-to-end scenario run with one warp on two inputs that differ on the
padding split 3 only; both runs return the same element `(0, 0)`. -/
theorem C6_padding_dependence_witness :
    (operator_call problem_w1 Real.exp Real.log id id (scenario (fin 1) (fin 1))).o_acc 0 0
      = (operator_call problem_w1 Real.exp Real.log id id (scenario (fin 7) (fin 0))).o_acc 0 0 :=
  (C6_padding_dependence problem_w1 (scenario (fin 1) (fin 1)) (scenario (fin 7) (fin 0)) id id
    rfl (by decide)
    (by
      intro s r hs _
      have hs3 : s < 3 := hs
      interval_cases s <;> rfl)
    (by
      intro s r c hs hr
      have hs3 : s < 3 := hs
      have hr0 : r < 1 := hr
      interval_cases s <;> interval_cases r <;> rfl)).2.2 (one_dvd _) 0 0 (by decide)

/-- C7, as the code has it.  Padding columns of the scratch LSE tile: stage 4 writes only
scratch entries with column `< num_splits` and leaves every entry with a column
`≥ num_splits` unchanged; the stage-5 weight lookup `lse_acc_lds(row - row_start, i_split)`
reads rows of the block and columns `< padded_num_splits` only, and it reads every such
column (of row 0, when the block has a row); hence it reads no column `≥ num_splits` when
`num_splits` is a multiple of `kNumWarps`, and otherwise it reads the unchanged padding
columns from `num_splits` up to `padded_num_splits`. -/
theorem C7_padding_columns (p : Problem) (inp : Inputs ℝ) :
    (∀ row col, inp.num_splits ≤ col →
      lse_scales p Real.exp Real.log inp row col = lse_acc_lds p inp row col) ∧
    (∀ e, e ∈ lse_scale_lookups p inp.num_splits →
      e.1 < p.kM0 ∧ e.2 < padded_num_splits p inp.num_splits) ∧
    (0 < p.kM0 → ∀ col, col < padded_num_splits p inp.num_splits →
      (0, col) ∈ lse_scale_lookups p inp.num_splits) ∧
    (p.kNumWarps ∣ inp.num_splits →
      ∀ e, e ∈ lse_scale_lookups p inp.num_splits → e.2 < inp.num_splits) := by
  refine ⟨fun row col h => lse_scales_padding p _ _ inp row col h,
    fun e he => lse_scale_lookups_bound p _ e he,
    fun hM col hc => lse_scale_lookups_cover p _ hM col hc, ?_⟩
  intro hd e he
  have h := (lse_scale_lookups_bound p _ e he).2
  rwa [padded_num_splits_of_dvd p _ hd] at h

/-- Counterexample to C7 as stated: with `kNumWarps = 4`, `kM0 = 1` and `num_splits = 3` the
one iteration of the accumulation loop reads, for warp 3, the scratch entry `(0, 3)`, whose
column is not below `num_splits`. -/
theorem C7_counterexample :
    (0, 3) ∈ lse_scale_lookups problem_w4 3 ∧ ¬ ((0, 3) : Nat × Nat).2 < 3 := by
  refine ⟨?_, by decide⟩
  unfold lse_scale_lookups
  have hp : padded_num_splits problem_w4 3 = 4 := by decide
  rw [hp, for_splits_step _ _ _ _ _ _ (by decide), for_splits_done _ _ _ _ _ _ (by decide)]
  decide

/-- C8, as the code has it.  Padding invariance in `kMaxSplits`: for every `k ≥ 1` and every
pair of bounds `kMaxSplits = K1 ≥ k` and `kMaxSplits = K2 ≥ k`, two runs with `num_splits = k`
on the same `k` (LSE, output) pairs, the LSE values being finite or `-inf`, give the same
`lse_logsum` for every row of the block, and the same output row when `k` is a multiple of
`kNumWarps`. -/
theorem C8_kMaxSplits_invariance (p1 p2 : Problem) (in1 in2 : Inputs ℝ) (f g : Val ℝ → Val ℝ)
    (r : Nat) (hM : p1.kM0 = p2.kM0) (hW : p1.kNumWarps = p2.kNumWarps)
    (hnum : in1.num_splits = in2.num_splits) (_hk : 1 ≤ in1.num_splits)
    (hn1 : in1.num_splits ≤ p1.kMaxSplits) (hn2 : in1.num_splits ≤ p2.kMaxSplits)
    (hr : r < p1.kM0)
    (hv : ∀ s, s < in1.num_splits → IsLSE (in1.lse_acc s r))
    (hlse : ∀ s, s < in1.num_splits → in1.lse_acc s r = in2.lse_acc s r)
    (ho : ∀ s c, s < in1.num_splits →
      in1.o_acc (s * p1.kM0 + r) c = in2.o_acc (s * p1.kM0 + r) c) :
    lse_logsum p1 Real.exp Real.log in1 r = lse_logsum p2 Real.exp Real.log in2 r ∧
    (p1.kNumWarps ∣ in1.num_splits → ∀ c,
      (operator_call p1 Real.exp Real.log f g in1).o_acc r c
        = (operator_call p2 Real.exp Real.log f g in2).o_acc r c) := by
  have hr2 : r < p2.kM0 := hM ▸ hr
  have hn2' : in2.num_splits ≤ p2.kMaxSplits := hnum ▸ hn2
  have hv2 : ∀ s, s < in2.num_splits → IsLSE (in2.lse_acc s r) := by
    intro s hs
    rw [← hlse s (hnum ▸ hs)]
    exact hv s (hnum ▸ hs)
  have hlog : lse_logsum p1 Real.exp Real.log in1 r = lse_logsum p2 Real.exp Real.log in2 r := by
    rcases lse_logsum_closed p1 in1 r hr hn1 hv with ⟨⟨s, hs, hfin⟩, e1⟩ | ⟨hall, e1⟩
    · have hf2 : ∃ s, s < in2.num_splits ∧ IsFin (in2.lse_acc s r) :=
        ⟨s, hnum ▸ hs, by rw [← hlse s hs]; exact hfin⟩
      rw [e1, (lse_row_nondegenerate p2 in2 r hr2 hn2' hv2 hf2).2.2, ← hnum]
      congr 2
      apply Finset.sum_congr rfl
      intro i hi
      rw [hlse i (Finset.mem_range.1 hi)]
    · have hall2 : ∀ s, s < in2.num_splits → in2.lse_acc s r = negInf := by
        intro s hs
        rw [← hlse s (hnum ▸ hs)]
        exact hall s (hnum ▸ hs)
      rw [e1, (lse_row_degenerate p2 in2 r hr2 hall2).2]
  refine ⟨hlog, ?_⟩
  intro hd c
  show g (o_acc_sum p1 Real.exp Real.log in1 r c) = g (o_acc_sum p2 Real.exp Real.log in2 r c)
  rw [o_acc_sum_of_dvd p1 _ _ in1 r c hr hd,
    o_acc_sum_of_dvd p2 _ _ in2 r c hr2 (by rw [← hW, ← hnum]; exact hd), ← hnum, ← hM]
  congr 1
  apply Finset.sum_congr rfl
  intro s hs
  have hs1 := Finset.mem_range.1 hs
  rw [lse_scales_valid p1 _ _ in1 r s hr hn1 hs1,
    lse_scales_valid p2 _ _ in2 r s hr2 hn2' (hnum ▸ hs1), hlog, hlse s hs1, ho s c hs1]

/-- Counterexample to C8 as stated: `k = 3`, `kNumWarps = 4`, `K1 = 4` and `K2 = 8`.  Both
runs get the same three pairs (LSE `[1, 2, -inf]`, outputs `[[1,1],[2,2],[99,99]]`); the
padding split 3 of the tiles holds LSE `1` in both and the output vector `[1, 1]` in the first
run, `[0, 0]` in the second.  The returned elements `(0, 0)` differ. -/
theorem C8_counterexample :
    (∀ s r, s < 3 → (scenario (fin 1) (fin 1)).lse_acc s r = (scenario (fin 1) (fin 0)).lse_acc s r) ∧
    (∀ s c, s < 3 → (scenario (fin 1) (fin 1)).o_acc (s * 1 + 0) c
      = (scenario (fin 1) (fin 0)).o_acc (s * 1 + 0) c) ∧
    (operator_call problem_w4 Real.exp Real.log id id (scenario (fin 1) (fin 1))).o_acc 0 0
      ≠ (operator_call problem_w4_k8 Real.exp Real.log id id
          (scenario (fin 1) (fin 0))).o_acc 0 0 := by
  refine ⟨?_, ?_, ?_⟩
  · intro s r hs
    interval_cases s <;> rfl
  · intro s c hs
    interval_cases s <;> rfl
  · have h1 : (operator_call problem_w4 Real.exp Real.log id id
        (scenario (fin 1) (fin 1))).o_acc 0 0
        = fin ((Real.exp 1 + 2 * Real.exp 2) / (Real.exp 1 + Real.exp 2) + 1) := by
      show id (o_acc_sum _ _ _ _ 0 0) = _
      rw [id, scenario_w4_output _ _ 0 (by decide)]
      simp
    have h2 : (operator_call problem_w4_k8 Real.exp Real.log id id
        (scenario (fin 1) (fin 0))).o_acc 0 0
        = fin ((Real.exp 1 + 2 * Real.exp 2) / (Real.exp 1 + Real.exp 2)) := by
      show id (o_acc_sum _ _ _ _ 0 0) = _
      rw [id, scenario_w4_k8_output _ _ 0 (by decide)]
      simp
    rw [h1, h2]
    intro h
    injection h with h
    linarith

/-- Witness of C8: the end-to-end scenario run with one warp under `kMaxSplits = 4` and under
`kMaxSplits = 8`, with different padding; same `lse_logsum`, same element `(0, 0)`. -/
theorem C8_kMaxSplits_invariance_witness :
    lse_logsum problem_w1 Real.exp Real.log (scenario (fin 1) (fin 1)) 0
      = lse_logsum problem_w1_k8 Real.exp Real.log (scenario (fin 7) (fin 0)) 0 ∧
    (operator_call problem_w1 Real.exp Real.log id id (scenario (fin 1) (fin 1))).o_acc 0 0
      = (operator_call problem_w1_k8 Real.exp Real.log id id (scenario (fin 7) (fin 0))).o_acc
          0 0 :=
  have h := C8_kMaxSplits_invariance problem_w1 problem_w1_k8 (scenario (fin 1) (fin 1))
    (scenario (fin 7) (fin 0)) id id 0 rfl rfl rfl (by decide) (by decide) (by decide)
    (by decide) (scenario_isLSE _ _ (isScenario_w1 _ _))
    (by
      intro s hs
      have hs3 : s < 3 := hs
      interval_cases s <;> rfl)
    (by
      intro s c hs
      have hs3 : s < 3 := hs
      interval_cases s <;> rfl)
  ⟨h.1, h.2 (one_dvd _) 0⟩

/-- C9. Permutation invariance: for every `num_splits ≤ kMaxSplits` and every permutation
`σ` of the split indices below `num_splits` (a permutation of the naturals that fixes every
index `≥ num_splits`), running the pipeline on the split-permuted inputs
`(lse_acc (σ s), o_acc (σ s))`, the LSE values of the valid splits being finite or `-inf`,
gives in exact real arithmetic the same `lse_logsum` and the same output tile as running it
on the original inputs. -/
theorem C9_permutation_invariance (p : Problem) (in1 in2 : Inputs ℝ) (f g : Val ℝ → Val ℝ)
    (σ : Equiv.Perm ℕ) (hn : in1.num_splits ≤ p.kMaxSplits)
    (hσ : ∀ s, in1.num_splits ≤ s → σ s = s)
    (hnum : in2.num_splits = in1.num_splits) (hsmem : in2.smem = in1.smem)
    (hlse : ∀ s r, in2.lse_acc s r = in1.lse_acc (σ s) r)
    (ho : ∀ s r c, r < p.kM0 → in2.o_acc (s * p.kM0 + r) c = in1.o_acc (σ s * p.kM0 + r) c)
    (hv : ∀ s r, s < in1.num_splits → r < p.kM0 → IsLSE (in1.lse_acc s r)) :
    ∀ r, r < p.kM0 →
      lse_logsum p Real.exp Real.log in2 r = lse_logsum p Real.exp Real.log in1 r ∧
      ∀ c, (operator_call p Real.exp Real.log f g in2).o_acc r c
        = (operator_call p Real.exp Real.log f g in1).o_acc r c := by
  intro r hr
  have hlt : ∀ s, s < in1.num_splits ↔ σ s < in1.num_splits := by
    intro s
    constructor
    · intro hs
      by_contra hc
      have h1 := hσ (σ s) (not_lt.1 hc)
      have h2 := σ.injective h1
      rw [h2] at hc
      exact hc hs
    · intro hs
      by_contra hc
      rw [hσ s (not_lt.1 hc)] at hs
      exact hc hs
  have hn2 : in2.num_splits ≤ p.kMaxSplits := hnum ▸ hn
  have hv2 : ∀ s, s < in2.num_splits → IsLSE (in2.lse_acc s r) := by
    intro s hs
    rw [hlse s r]
    exact hv (σ s) r ((hlt s).1 (hnum ▸ hs)) hr
  have hlog : lse_logsum p Real.exp Real.log in2 r = lse_logsum p Real.exp Real.log in1 r := by
    rcases lse_logsum_closed p in1 r hr hn (fun s hs => hv s r hs hr) with
      ⟨⟨s, hs, hfin⟩, e1⟩ | ⟨hall, e1⟩
    · have hf2 : ∃ s, s < in2.num_splits ∧ IsFin (in2.lse_acc s r) := by
        refine ⟨σ.symm s, ?_, ?_⟩
        · rw [hnum, hlt, Equiv.apply_symm_apply]
          exact hs
        · rw [hlse, Equiv.apply_symm_apply]
          exact hfin
      rw [e1, (lse_row_nondegenerate p in2 r hr hn2 hv2 hf2).2.2, hnum]
      congr 2
      apply Finset.sum_equiv σ
      · intro i
        rw [Finset.mem_range, Finset.mem_range]
        exact hlt i
      · intro i _
        rw [hlse i r]
    · have hall2 : ∀ s, s < in2.num_splits → in2.lse_acc s r = negInf := by
        intro s hs
        rw [hlse s r]
        exact hall (σ s) ((hlt s).1 (hnum ▸ hs))
      rw [e1, (lse_row_degenerate p in2 r hr hall2).2]
  refine ⟨hlog, ?_⟩
  intro c
  show g (o_acc_sum p Real.exp Real.log in2 r c) = g (o_acc_sum p Real.exp Real.log in1 r c)
  rw [o_acc_sum_eq p _ _ in2 r c hr, o_acc_sum_eq p _ _ in1 r c hr, hnum]
  congr 1
  apply Finset.sum_equiv σ
  · intro s
    rw [Finset.mem_range, Finset.mem_range]
    by_cases hs : s < in1.num_splits
    · have h1 := (hlt s).1 hs
      have h2 := padded_num_splits_le p in1.num_splits
      constructor <;> intro _ <;> omega
    · rw [hσ s (not_lt.1 hs)]
  · intro s _
    rw [ho s r c hr]
    congr 1
    by_cases hs : s < in1.num_splits
    · rw [lse_scales_valid p _ _ in2 r s hr hn2 (hnum ▸ hs),
        lse_scales_valid p _ _ in1 r (σ s) hr hn ((hlt s).1 hs), hlog, hlse s r]
    · rw [hσ s (not_lt.1 hs), lse_scales_padding p _ _ in2 r s (by rw [hnum]; exact not_lt.1 hs),
        lse_scales_padding p _ _ in1 r s (not_lt.1 hs)]
      simp only [lse_acc_lds]
      rw [hlse s r, hσ s (not_lt.1 hs), hsmem]

/-- Witness of C9: the end-to-end scenario with the splits 0 and 1 exchanged, run with four
warps. -/
theorem C9_permutation_invariance_witness :
    lse_logsum problem_w4 Real.exp Real.log (scenario_swapped (fin 1) (fin 1)) 0
      = lse_logsum problem_w4 Real.exp Real.log (scenario (fin 1) (fin 1)) 0 ∧
    ∀ c, (operator_call problem_w4 Real.exp Real.log id id
        (scenario_swapped (fin 1) (fin 1))).o_acc 0 c
      = (operator_call problem_w4 Real.exp Real.log id id (scenario (fin 1) (fin 1))).o_acc 0 c :=
  C9_permutation_invariance problem_w4 (scenario (fin 1) (fin 1))
    (scenario_swapped (fin 1) (fin 1)) id id (Equiv.swap 0 1) (by decide)
    (by
      intro s hs
      have hs3 : 3 ≤ s := hs
      exact Equiv.swap_apply_of_ne_of_ne (by omega) (by omega))
    rfl rfl (fun _ _ => rfl)
    (by
      intro s r c hr
      have hr0 : r < 1 := hr
      interval_cases r
      show (scenario (fin 1) (fin 1)).o_acc (Equiv.swap 0 1 (s * 1 + 0)) c
        = (scenario (fin 1) (fin 1)).o_acc (Equiv.swap 0 1 s * 1 + 0) c
      simp)
    (by
      intro s r hs hr
      have hr0 : r < 1 := hr
      interval_cases r
      exact scenario_isLSE _ _ (isScenario_w4 _ _) s hs)
    0 (by decide)

/-- C10, as the code has it.  End-to-end scenario: with `num_splits = 3`, `kM0 = 1`, LSE
`[1.0, 2.0, -inf]` and outputs `[[1,1],[2,2],[99,99]]`, `operator()` yields
`lse_logsum = log (e^1 + e^2)`, within `1e-3` of `2.3133`, and rescale weights within `1e-3`
of `[0.269, 0.731, 0]`, the third exactly `0`; the output is within `1e-3` of
`[1.731, 1.731]` when `kNumWarps` divides `3`, and with `kNumWarps = 4` it is that value
plus `lse_acc 3 * o_acc 3`, the contribution of the padding split that the loop consumes. -/
theorem C10_end_to_end (p : Problem) (inp : Inputs ℝ) (f : Val ℝ → Val ℝ)
    (h : IsScenario p inp) :
    lse_logsum p Real.exp Real.log inp 0 = fin (Real.log (Real.exp 1 + Real.exp 2)) ∧
    |Real.log (Real.exp 1 + Real.exp 2) - 2.3133| < 0.001 ∧
    (∃ w0 w1, lse_scales p Real.exp Real.log inp 0 0 = fin w0 ∧ |w0 - 0.269| < 0.001 ∧
      lse_scales p Real.exp Real.log inp 0 1 = fin w1 ∧ |w1 - 0.731| < 0.001) ∧
    lse_scales p Real.exp Real.log inp 0 2 = fin 0 ∧
    (p.kNumWarps ∣ 3 → ∀ c, c < 2 →
      ∃ y, (operator_call p Real.exp Real.log f id inp).o_acc 0 c = fin y ∧
        |y - 1.731| < 0.001) ∧
    (p.kNumWarps = 4 → 4 ≤ p.kMaxSplits → ∀ c, c < 2 →
      ∃ y, (operator_call p Real.exp Real.log f id inp).o_acc 0 c
          = fin y + inp.lse_acc 3 0 * inp.o_acc 3 c ∧
        |y - 1.731| < 0.001) := by
  obtain ⟨w0, w1, w2⟩ := scenario_scales p inp h
  obtain ⟨b0, b1, b2⟩ := weight_bounds
  refine ⟨scenario_logsum p inp h, log_scenario_bounds, ⟨_, _, w0, b0, w1, b1⟩, w2, ?_, ?_⟩
  · intro hd c hc
    refine ⟨_, ?_, b2⟩
    show id (o_acc_sum p Real.exp Real.log inp 0 c) = _
    have hM : 0 < p.kM0 := by rw [h.1]; exact Nat.one_pos
    rw [id, o_acc_sum_of_dvd p _ _ inp 0 c hM (by rw [h.2.2.2.1]; exact hd),
      scenario_valid_sum p inp h c hc]
  · intro hW hK c hc
    refine ⟨_, ?_, b2⟩
    show id (o_acc_sum p Real.exp Real.log inp 0 c) = _
    rw [id, scenario_output_four p inp h hW hK c hc]

/-- Counterexample to C10 as stated: the scenario run with `kNumWarps = 4` and
`kMaxSplits = 4`, the padding split 3 of the tiles holding LSE `1` and the output vector
`[1, 1]`.  The returned element `(0, 0)` is `(e + 2 e^2) / (e + e^2) + 1`, about `2.731`, not
within `1e-3` of `1.731`. -/
theorem C10_counterexample :
    IsScenario problem_w4 (scenario (fin 1) (fin 1)) ∧
    ¬ ∃ y, (operator_call problem_w4 Real.exp Real.log id id
        (scenario (fin 1) (fin 1))).o_acc 0 0 = fin y ∧ |y - 1.731| < 0.001 := by
  refine ⟨isScenario_w4 _ _, ?_⟩
  rintro ⟨y, hy, hb⟩
  have h1 : (operator_call problem_w4 Real.exp Real.log id id
      (scenario (fin 1) (fin 1))).o_acc 0 0
      = fin ((Real.exp 1 + 2 * Real.exp 2) / (Real.exp 1 + Real.exp 2) + 1) := by
    show id (o_acc_sum _ _ _ _ 0 0) = _
    rw [id, scenario_w4_output _ _ 0 (by decide)]
    simp
  rw [h1] at hy
  injection hy with hy
  have b2 := weight_bounds.2.2
  rw [abs_lt] at hb b2
  linarith [hb.1, hb.2, b2.1, b2.2]

/-- Witness of C10: the scenario run with one warp, the padding holding NaN. -/
theorem C10_end_to_end_witness :
    ∃ y, (operator_call problem_w1 Real.exp Real.log id id (scenario nan nan)).o_acc 0 0 = fin y ∧
      |y - 1.731| < 0.001 :=
  (C10_end_to_end problem_w1 (scenario nan nan) id (isScenario_w1 nan nan)).2.2.2.2.1
    (one_dvd _) 0 (by decide)

/-- C11. Merged LSE output: when `kStoreLSE` is set, the value stored to the merged-LSE
destination for each row of the block is `lse_element_func` applied to the stage-3
`lse_logsum` of that row, and it is the same `lse_logsum` value that stage 4 subtracts when
forming the rescale weights; so with the identity function and a finite `lse_logsum`,
`rescale_weight r s * exp (stored_lse r) = exp (lse_acc s r)` for every valid split `s`. -/
theorem C11_merged_lse_output (p : Problem) (inp : Inputs ℝ) (g : Val ℝ → Val ℝ) (r s : Nat)
    (L : ℝ) (hS : p.kStoreLSE = true) (hr : r < p.kM0) (hn : inp.num_splits ≤ p.kMaxSplits)
    (hs : s < inp.num_splits) (hL : lse_logsum p Real.exp Real.log inp r = fin L) :
    (∀ f, (operator_call p Real.exp Real.log f g inp).lse_dram r
      = f (lse_logsum p Real.exp Real.log inp r)) ∧
    lse_scales p Real.exp Real.log inp r s
      = vexp Real.exp (inp.lse_acc s r - lse_logsum p Real.exp Real.log inp r) ∧
    lse_scales p Real.exp Real.log inp r s
        * vexp Real.exp ((operator_call p Real.exp Real.log id g inp).lse_dram r)
      = vexp Real.exp (inp.lse_acc s r) := by
  have hstore : ∀ f, (operator_call p Real.exp Real.log f g inp).lse_dram r
      = f (lse_logsum p Real.exp Real.log inp r) := by
    intro f
    show (if p.kStoreLSE = true ∧ r < p.kM0 then f (lse_logsum p Real.exp Real.log inp r)
      else inp.lse_dram r) = _
    rw [if_pos ⟨hS, hr⟩]
  have hw : lse_scales p Real.exp Real.log inp r s
      = vexp Real.exp (inp.lse_acc s r - lse_logsum p Real.exp Real.log inp r) := by
    rw [lse_scales_valid p _ _ inp r s hr hn hs, hL]
    simp [eqv]
  refine ⟨hstore, hw, ?_⟩
  rw [hw, hstore id, id, hL]
  have hv := (isLSE_of_logsum_fin p inp r hr hn L hL).1 s hs
  cases hx : inp.lse_acc s r with
  | fin x =>
    simp only [fin_sub_fin, vexp, fin_mul_fin]
    rw [Real.exp_sub, div_mul_cancel₀ _ (Real.exp_ne_zero L)]
  | negInf => simp [vexp]
  | nan => rw [hx] at hv; exact absurd hv (by simp [IsLSE])
  | posInf => rw [hx] at hv; exact absurd hv (by simp [IsLSE])

/-- Witness of C11 on the end-to-end scenario, split 1. -/
theorem C11_merged_lse_output_witness :
    lse_scales problem_w4 Real.exp Real.log (scenario nan nan) 0 1
        * vexp Real.exp ((operator_call problem_w4 Real.exp Real.log id id
            (scenario nan nan)).lse_dram 0)
      = vexp Real.exp ((scenario nan nan).lse_acc 1 0) :=
  (C11_merged_lse_output problem_w4 (scenario nan nan) id 0 1
    (Real.log (Real.exp 1 + Real.exp 2)) rfl (by decide) (by decide) (by decide)
    (scenario_logsum _ _ (isScenario_w4 nan nan))).2.2

/-- C12. Identity by default: for all inputs, the five-argument `operator()` returns the same
output tile and writes the same merged LSE as the seven-argument `operator()` called with the
identity function for both `lse_element_func` and `o_acc_element_func`; that output is the
accumulated sum without postprocessing, and the merged LSE written is `lse_logsum` itself. -/
theorem C12_identity_by_default (p : Problem) (inp : Inputs ℝ) :
    operator_call_default p Real.exp Real.log inp
      = operator_call p Real.exp Real.log (fun x => x) (fun x => x) inp ∧
    (operator_call_default p Real.exp Real.log inp).o_acc = o_acc_sum p Real.exp Real.log inp ∧
    (∀ row, p.kStoreLSE = true → row < p.kM0 →
      (operator_call_default p Real.exp Real.log inp).lse_dram row
        = lse_logsum p Real.exp Real.log inp row) := by
  refine ⟨rfl, rfl, ?_⟩
  intro row hS hr
  show (if p.kStoreLSE = true ∧ row < p.kM0 then id (lse_logsum p Real.exp Real.log inp row)
    else inp.lse_dram row) = _
  rw [if_pos ⟨hS, hr⟩]
  rfl

/-- C13. Frame of the pipeline on bulk memory: `operator()` stores to no window of the
partial-LSE or of the partial-output bulk tensor (its `store_tile` statements are on the two
scratch windows and on the merged-LSE destination); the merged-LSE destination is the target
of exactly one `store_tile` statement, which writes the rows of the block once, when
`kStoreLSE` is true, and of none, staying unchanged, when `kStoreLSE` is false. -/
theorem C13_bulk_memory_frame (p : Problem) (inp : Inputs ℝ) (f g : Val ℝ → Val ℝ) :
    Event.store_tile Window.lse_acc_dram_window
      ∉ (operator_call_traced p Real.exp Real.log f g inp).2 ∧
    Event.store_tile Window.o_acc_4_dram_window
      ∉ (operator_call_traced p Real.exp Real.log f g inp).2 ∧
    (operator_call_traced p Real.exp Real.log f g inp).2.count
        (Event.store_tile Window.lse_dram_window_tmp)
      = (if p.kStoreLSE = true then 1 else 0) ∧
    (p.kStoreLSE = true → ∀ row,
      (operator_call_traced p Real.exp Real.log f g inp).1.lse_dram row
        = if row < p.kM0 then f (lse_logsum p Real.exp Real.log inp row)
          else inp.lse_dram row) ∧
    (p.kStoreLSE = false →
      (operator_call_traced p Real.exp Real.log f g inp).1.lse_dram = inp.lse_dram) := by
  refine ⟨?_, ?_, count_store_lse_dram p _ _ f g inp, ?_, ?_⟩
  · intro h
    rcases store_tile_mem_operator_call p _ _ f g inp _ h with h | h | ⟨h, _⟩ <;> cases h
  · intro h
    rcases store_tile_mem_operator_call p _ _ f g inp _ h with h | h | ⟨h, _⟩ <;> cases h
  · intro hS row
    rw [operator_call_traced_fst]
    simp [operator_call, hS]
  · intro hS
    rw [operator_call_traced_fst]
    funext row
    simp [operator_call, hS]

/-- C16. Load and pad (stage 2): for every row `r < kM0` and column `c < kMaxSplits`, the
scratch entry `(r, c)` staged from the `[kMaxSplits, kM0]` input tile is the LSE of split `c`
and row `r`, and after stage 2 the register tile entry `lse_accum (r, c)` equals that value
when `c < num_splits` and `-inf` when `c ≥ num_splits`. -/
theorem C16_load_and_pad (p : Problem) (inp : Inputs ℝ) (r c : Nat) (hr : r < p.kM0)
    (hc : c < p.kMaxSplits) :
    lse_acc_lds p inp r c = inp.lse_acc c r ∧
    (c < inp.num_splits → lse_accum p inp r c = inp.lse_acc c r) ∧
    (inp.num_splits ≤ c → lse_accum p inp r c = negInf) := by
  refine ⟨?_, ?_, ?_⟩
  · simp [lse_acc_lds, hr, hc]
  · intro h
    rw [lse_accum_eq p inp r c hr hc, if_pos h]
  · intro h
    rw [lse_accum_eq p inp r c hr hc, if_neg (by omega)]

/-- Witness of C16 on the end-to-end scenario with `kMaxSplits = 4`: column 3 is padding. -/
theorem C16_load_and_pad_witness :
    lse_accum problem_w4 (scenario (fin 7) (fin 1)) 0 1 = fin 2 ∧
    lse_accum problem_w4 (scenario (fin 7) (fin 1)) 0 3 = negInf :=
  ⟨(C16_load_and_pad problem_w4 (scenario (fin 7) (fin 1)) 0 1 (by decide) (by decide)).2.1
      (by decide),
   (C16_load_and_pad problem_w4 (scenario (fin 7) (fin 1)) 0 3 (by decide) (by decide)).2.2
      (by decide)⟩

/-- C18. Barrier sequence is data independent: for every `num_splits` and every content of
the LSE and output inputs, one call of `operator()` executes the same three barriers
`block_sync_lds`: one after the LSE tile is staged to scratch, one after the rescale weights
are written and before the accumulation loop, and one after the sums of the warps are staged
and before the reduction across warps; the element writes of stage 4 and the iterations of
the accumulation loop, whose number depends on `num_splits`, contain no barrier. -/
theorem C18_barrier_sequence (p : Problem) (in1 in2 : Inputs ℝ) (f g : Val ℝ → Val ℝ) :
    (operator_call_traced p Real.exp Real.log f g in1).2.filter Event.is_sync
      = [Event.block_sync_lds 151, Event.block_sync_lds 288, Event.block_sync_lds 339] ∧
    (operator_call_traced p Real.exp Real.log f g in1).2.filter Event.is_sync
      = (operator_call_traced p Real.exp Real.log f g in2).2.filter Event.is_sync ∧
    (operator_call_traced p Real.exp Real.log f g in1).2
      = [Event.load_tile Window.lse_acc_dram_window, Event.store_tile Window.lse_acc_lds]
        ++ [Event.block_sync_lds 151]
        ++ (store_lse_scales_events p in1.num_splits
          ++ (if p.kStoreLSE = true then [Event.store_tile Window.lse_dram_window_tmp] else []))
        ++ [Event.block_sync_lds 288]
        ++ ((List.range (integer_divide_ceil in1.num_splits p.kNumWarps)).flatMap (fun _ =>
            [Event.load_tile Window.o_acc_4_dram_window,
             Event.move_tile_window Window.o_acc_4_dram_window (p.kNumWarps * p.kM0)])
          ++ [Event.store_tile Window.o_acc_4_lds_window])
        ++ [Event.block_sync_lds 339]
        ++ reduce_warps_events p := by
  refine ⟨filter_sync_operator_call p _ _ f g in1, ?_, ?_⟩
  · rw [filter_sync_operator_call, filter_sync_operator_call]
  · rw [operator_call_traced_snd]
    unfold events_before_loop
    simp only [List.append_assoc, List.cons_append, List.nil_append]

/-- C19 (amended). Accumulation loop bound: for every `num_splits ≥ 0` and `kNumWarps ≥ 1` with
`num_splits + kNumWarps - 1 ≤ INT_MAX`, the `index_t` value
`padded_num_splits = integer_divide_ceil (num_splits, kNumWarps) * kNumWarps` of line 285 is
the unbounded one, the least multiple of `kNumWarps` that is `≥ num_splits`, so
`num_splits ≤ padded_num_splits < num_splits + kNumWarps`; the stage-5 loop, its header in
`index_t` arithmetic, terminates after exactly `⌈num_splits / kNumWarps⌉` iterations, at
`split_start = 0, kNumWarps, 2 kNumWarps, ...`, each loading one tile and moving the output
window by `kNumWarps * kM0` rows. -/
theorem C19_loop_bound (p : Problem) (n : Nat) (lds o : Tile ℝ)
    (hn : n + p.kNumWarps ≤ 2147483648) :
    padded_num_splits_index_t n p.kNumWarps = (padded_num_splits p n : Int) ∧
    integer_divide_ceil_index_t n p.kNumWarps = (integer_divide_ceil n p.kNumWarps : Int) ∧
    (∀ fuel, integer_divide_ceil n p.kNumWarps < fuel →
      split_starts_index_t p.kNumWarps (padded_num_splits_index_t n p.kNumWarps) fuel 0 []
        = some ((List.range (integer_divide_ceil n p.kNumWarps)).map
            (fun t => ((t * p.kNumWarps : Nat) : Int)))) ∧
    p.kNumWarps ∣ padded_num_splits p n ∧
    n ≤ padded_num_splits p n ∧
    (∀ m, p.kNumWarps ∣ m → n ≤ m → padded_num_splits p n ≤ m) ∧
    padded_num_splits p n < n + p.kNumWarps ∧
    integer_divide_ceil n p.kNumWarps = ⌈(n : ℚ) / (p.kNumWarps : ℚ)⌉₊ ∧
    for_splits p.kNumWarps (padded_num_splits p n) p.kNumWarps_pos (fun _ k => k + 1) 0 0
      = integer_divide_ceil n p.kNumWarps ∧
    (for_splits p.kNumWarps (padded_num_splits p n) p.kNumWarps_pos (traced_body p lds o) 0
        (⟨0, fun _ _ => 0⟩, [])).2
      = (List.range (integer_divide_ceil n p.kNumWarps)).flatMap (fun _ =>
          [Event.load_tile Window.o_acc_4_dram_window,
           Event.move_tile_window Window.o_acc_4_dram_window (p.kNumWarps * p.kM0)]) ∧
    (for_splits p.kNumWarps (padded_num_splits p n) p.kNumWarps_pos (accumulate_body p lds o) 0
        ⟨0, fun _ _ => 0⟩).window_row
      = integer_divide_ceil n p.kNumWarps * (p.kNumWarps * p.kM0) := by
  have hlt := padded_num_splits_lt p n
  refine ⟨padded_num_splits_index_t_eq p n hn,
    integer_divide_ceil_index_t_eq n _ p.kNumWarps_pos hn, ?_,
    Dvd.intro_left _ rfl, padded_num_splits_le p n,
    fun m hd hm => padded_num_splits_least p n m hd hm, hlt,
    integer_divide_ceil_eq_ceil n _ p.kNumWarps_pos, for_splits_count p n, ?_, ?_⟩
  · intro fuel hfuel
    rw [padded_num_splits_index_t_eq p n hn]
    have h := split_starts_index_t_run p.kNumWarps (integer_divide_ceil n p.kNumWarps)
      p.kNumWarps_pos (by unfold padded_num_splits at hlt; omega)
      (integer_divide_ceil n p.kNumWarps) 0 fuel [] (by omega) hfuel
    rw [Nat.zero_mul, List.nil_append, ← List.range_eq_range'] at h
    exact h
  · rw [traced_loop_eq]
    simp
  · unfold padded_num_splits
    rw [for_splits_eq_foldl, window_row_foldl, List.length_range, Nat.zero_add]

/-- Counterexample to C19 as stated: `num_splits = INT_MAX = 2147483647` and `kNumWarps = 4`.
The exact value of `num_splits + kNumWarps - 1` is `2147483650`, which no `index_t` holds; the
wrapped sum is `-2147483646`, the quotient truncated toward zero `-536870911`, and
`padded_num_splits = -2147483644`, below `num_splits`; the loop condition `0 < padded_num_splits`
fails at once, so the loop runs no iteration instead of `⌈num_splits / 4⌉ = 536870912`. -/
theorem C19_counterexample :
    padded_num_splits_index_t 2147483647 4 = -2147483644 ∧
    ¬ ((2147483647 : Int) ≤ padded_num_splits_index_t 2147483647 4) ∧
    split_starts_index_t 4 (padded_num_splits_index_t 2147483647 4) 1 0 [] = some [] ∧
    ⌈(2147483647 : ℚ) / 4⌉₊ = 536870912 := by
  refine ⟨by decide, by decide, by decide, ?_⟩
  rw [Nat.ceil_eq_iff (by norm_num)]
  constructor <;> norm_num

/-- Witness of C19 with four warps and three splits: the `index_t` bound is the unbounded
one, `4`. -/
theorem C19_loop_bound_witness :
    3 + problem_w4.kNumWarps ≤ 2147483648 ∧
    padded_num_splits_index_t (3 : Nat) problem_w4.kNumWarps
      = (padded_num_splits problem_w4 3 : Int) :=
  ⟨by decide,
    (C19_loop_bound problem_w4 3 (fun _ _ => 0) (fun _ _ => 0) (by decide)).1⟩

/-- C20. Cross-lane-group reduction: for every row `r < kM0` the tile before postprocessing
is, at `(r, c)`, the sum over the warps `g < kNumWarps` of `o_acc_4 (g * kM0 + r, c)`; the rows
of warp `g` of `o_acc_4` hold the sum over the loop iterations `t` of
`scratch_weight r (t * kNumWarps + g) * o_acc (t * kNumWarps + g) r c`; so the result is the
sum over all split indices `s < padded_num_splits` of `scratch_weight r s * o_acc s r c`, each
split index counted once, and the returned tile is its image under `o_acc_element_func`. -/
theorem C20_cross_warp_reduction (p : Problem) (inp : Inputs ℝ) (f g : Val ℝ → Val ℝ)
    (r c : Nat) (hr : r < p.kM0) :
    o_acc_sum p Real.exp Real.log inp r c
      = ∑ w in Finset.range p.kNumWarps, o_acc_4 p Real.exp Real.log inp (w * p.kM0 + r) c ∧
    (∀ w, w < p.kNumWarps →
      o_acc_4 p Real.exp Real.log inp (w * p.kM0 + r) c
        = ∑ t in Finset.range (integer_divide_ceil inp.num_splits p.kNumWarps),
            lse_scales p Real.exp Real.log inp r (t * p.kNumWarps + w)
              * inp.o_acc ((t * p.kNumWarps + w) * p.kM0 + r) c) ∧
    o_acc_sum p Real.exp Real.log inp r c
      = ∑ s in Finset.range (padded_num_splits p inp.num_splits),
          lse_scales p Real.exp Real.log inp r s * inp.o_acc (s * p.kM0 + r) c ∧
    (operator_call p Real.exp Real.log f g inp).o_acc r c
      = g (o_acc_sum p Real.exp Real.log inp r c) :=
  ⟨o_acc_sum_eq_warps p _ _ inp r c, fun w _ => o_acc_4_eq p _ _ inp w r c hr,
    o_acc_sum_eq p _ _ inp r c hr, rfl⟩

/-- Witness of C20 on the end-to-end scenario run with four warps. -/
theorem C20_cross_warp_reduction_witness :
    o_acc_sum problem_w4 Real.exp Real.log (scenario (fin 7) (fin 1)) 0 0
      = ∑ s in Finset.range (padded_num_splits problem_w4 3),
          lse_scales problem_w4 Real.exp Real.log (scenario (fin 7) (fin 1)) 0 s
            * (scenario (fin 7) (fin 1)).o_acc (s * problem_w4.kM0 + 0) 0 :=
  (C20_cross_warp_reduction problem_w4 (scenario (fin 7) (fin 1)) id id 0 0
    (by decide)).2.2.1

/-- C17. No overflow in the stable log-sum-exp: for every row of the block, free of NaN,
whose maximum `row_max` over the padded tile is finite, every exponent argument
`lse_accum (r, c) - row_max` is `≤ 0` (or `-inf`), so every exponentiated entry lies in
`[0, 1]` with at least one equal to `1`, and `row_sum` satisfies
`1 ≤ row_sum ≤ num_splits`; hence `row_max ≤ lse_logsum ≤ row_max + log num_splits`. -/
theorem C17_no_overflow (p : Problem) (inp : Inputs ℝ) (r : Nat) (m : ℝ) (hr : r < p.kM0)
    (hnan : ∀ s, s < inp.num_splits → inp.lse_acc s r ≠ nan)
    (hmax : lse_max p inp r = fin m) :
    (∀ c, c < p.kMaxSplits →
      lse_accum p inp r c = negInf ∨ ∃ x, lse_accum p inp r c = fin x ∧ x - m ≤ 0) ∧
    (∀ c, c < p.kMaxSplits → ∃ e, lse_exp p Real.exp inp r c = fin e ∧ 0 ≤ e ∧ e ≤ 1) ∧
    (∃ c, c < p.kMaxSplits ∧ lse_exp p Real.exp inp r c = fin 1) ∧
    (∃ S, lse_sum p Real.exp inp r = fin S ∧ 1 ≤ S ∧ S ≤ (inp.num_splits : ℝ)) ∧
    (∃ L, lse_logsum p Real.exp Real.log inp r = fin L ∧ m ≤ L ∧
      L ≤ m + Real.log (inp.num_splits : ℝ)) := by
  obtain ⟨harg, hexp, hone⟩ := lse_row_stable p inp r m hr hnan hmax
  obtain ⟨S, hS, h1, hn, hlog⟩ := lse_sum_stable p inp r m hr hnan hmax
  refine ⟨harg, ?_, hone, ⟨S, hS, h1, hn⟩, ⟨_, hlog, ?_, ?_⟩⟩
  · intro c hc
    obtain ⟨e, he, h0, h1, _⟩ := hexp c hc
    exact ⟨e, he, h0, h1⟩
  · have := Real.log_nonneg h1
    linarith
  · have := Real.log_le_log (lt_of_lt_of_le zero_lt_one h1) hn
    linarith

/-- Witness of C17 on the end-to-end scenario: `row_max = 2`, so
`2 ≤ lse_logsum ≤ 2 + log 3`. -/
theorem C17_no_overflow_witness :
    ∃ L, lse_logsum problem_w4 Real.exp Real.log (scenario nan nan) 0 = fin L ∧ 2 ≤ L ∧
      L ≤ 2 + Real.log ((scenario nan nan).num_splits : ℝ) :=
  (C17_no_overflow problem_w4 (scenario nan nan) 0 2 (by decide)
    (by
      intro s hs
      have hs3 : s < 3 := hs
      interval_cases s <;> simp [scenario])
    (scenario_w4_max nan nan)).2.2.2.2

/-- C25. Degeneracy is detected exactly: for every row of the block (`num_splits ≤ kMaxSplits`)
whose valid partial LSE values are each finite or `-inf`, the branch `lse_sum == 0` of stage 3
is taken if and only if `row_max == -inf`, and `lse_logsum = -inf` if and only if every partial
LSE value of the row for split `< num_splits` is `-inf`; a row with at least one finite LSE
gets a finite `lse_logsum`. -/
theorem C25_degeneracy_detected (p : Problem) (inp : Inputs ℝ) (r : Nat) (hr : r < p.kM0)
    (hn : inp.num_splits ≤ p.kMaxSplits)
    (hv : ∀ s, s < inp.num_splits → IsLSE (inp.lse_acc s r)) :
    (eqv (lse_sum p Real.exp inp r) (fin 0) = true ↔ lse_max p inp r = negInf) ∧
    (lse_max p inp r = negInf ↔ ∀ s, s < inp.num_splits → inp.lse_acc s r = negInf) ∧
    (lse_logsum p Real.exp Real.log inp r = negInf
      ↔ ∀ s, s < inp.num_splits → inp.lse_acc s r = negInf) ∧
    ((∃ s, s < inp.num_splits ∧ IsFin (inp.lse_acc s r)) →
      ∃ L, lse_logsum p Real.exp Real.log inp r = fin L) := by
  rcases lse_row_cases p inp r hr hn hv with
    ⟨hall, hmax, hsum, hlog⟩ | ⟨⟨s0, hs0, hfin⟩, ⟨m, hm⟩, ⟨S, hS, hpos⟩, ⟨L, hL⟩⟩
  · refine ⟨?_, ?_, ?_, ?_⟩
    · rw [hsum, hmax]
      simp [eqv]
    · exact ⟨fun _ => hall, fun _ => hmax⟩
    · exact ⟨fun _ => hall, fun _ => hlog⟩
    · rintro ⟨s, hs, hf⟩
      rw [hall s hs] at hf
      exact absurd hf (by simp [IsFin])
  · have hnot : ¬ ∀ s, s < inp.num_splits → inp.lse_acc s r = negInf := by
      intro h
      rw [h s0 hs0] at hfin
      exact absurd hfin (by simp [IsFin])
    refine ⟨?_, ?_, ?_, fun _ => ⟨L, hL⟩⟩
    · rw [hS, hm]
      simp [eqv, ne_of_gt hpos]
    · rw [hm]
      exact ⟨fun h => (by cases h), fun h => absurd h hnot⟩
    · rw [hL]
      exact ⟨fun h => (by cases h), fun h => absurd h hnot⟩

/-- Witness of C25 on the end-to-end scenario: the row has finite LSE values, so its
`lse_logsum` is not `-inf`. -/
theorem C25_degeneracy_detected_witness :
    ∃ L, lse_logsum problem_w4 Real.exp Real.log (scenario nan nan) 0 = fin L :=
  (C25_degeneracy_detected problem_w4 (scenario nan nan) 0 (by decide) (by decide)
    (scenario_isLSE _ _ (isScenario_w4 nan nan))).2.2.2
    ⟨0, by decide, by simp [scenario, IsFin]⟩

/-- C26 (amended). Rescale weights are bounded: for every row of the block and every split
`s < num_splits ≤ kMaxSplits`, with the partial LSE values of the row finite or `-inf`, the
weight written to scratch in stage 4 is a number `w` with `0 ≤ w ≤ 1`, and `w = 0` when
`lse_acc[s][r] = -inf` or the row is degenerate (all its partial LSE values `-inf`): this for
every exponential and logarithm that are non-negative, `1` at `0`, at most `1` on the
non-positive numbers, and non-negative from `1` on, as the exact functions and their roundings
are.  In exact real arithmetic `w = 0` exactly in these two cases. -/
theorem C26_rescale_weights_bounded (p : Problem) (inp : Inputs ℝ) (r s : Nat)
    (hr : r < p.kM0) (hn : inp.num_splits ≤ p.kMaxSplits)
    (hv : ∀ j, j < inp.num_splits → IsLSE (inp.lse_acc j r)) (hs : s < inp.num_splits) :
    (∀ exp log : ℝ → ℝ, (∀ x, 0 ≤ exp x) → exp 0 = 1 → (∀ x, x ≤ 0 → exp x ≤ 1) →
      (∀ y, 1 ≤ y → 0 ≤ log y) →
      ∃ w, lse_scales p exp log inp r s = fin w ∧ 0 ≤ w ∧ w ≤ 1 ∧
        ((inp.lse_acc s r = negInf ∨
          ∀ j, j < inp.num_splits → inp.lse_acc j r = negInf) → w = 0)) ∧
    ∃ w, lse_scales p Real.exp Real.log inp r s = fin w ∧ 0 ≤ w ∧ w ≤ 1 ∧
      (w = 0 ↔ (inp.lse_acc s r = negInf ∨
        ∀ j, j < inp.num_splits → inp.lse_acc j r = negInf)) := by
  refine ⟨fun exp log h0 h1 hle hlog =>
    lse_scales_bounds p exp log inp r s hr hn hv hs h0 h1 hle hlog, ?_⟩
  by_cases hall : ∀ j, j < inp.num_splits → inp.lse_acc j r = negInf
  · exact ⟨0, lse_scales_degenerate p inp r hr hn hall s hs, le_refl _, zero_le_one,
      ⟨fun _ => Or.inr hall, fun _ => rfl⟩⟩
  · have hf : ∃ j, j < inp.num_splits ∧ IsFin (inp.lse_acc j r) := by
      by_contra hne
      apply hall
      intro j hj
      have h1 := hv j hj
      cases hx : inp.lse_acc j r with
      | negInf => rfl
      | fin x => exact absurd ⟨j, hj, by rw [hx]; trivial⟩ hne
      | nan => rw [hx] at h1; exact absurd h1 (by simp [IsLSE])
      | posInf => rw [hx] at h1; exact absurd h1 (by simp [IsLSE])
    have hpos := (lse_row_nondegenerate p inp r hr hn hv hf).1
    have hnonneg : ∀ j ∈ Finset.range inp.num_splits,
        0 ≤ (vexp Real.exp (inp.lse_acc j r)).toR := fun j _ => toR_vexp_nonneg _
    have hle := Finset.single_le_sum hnonneg (Finset.mem_range.2 hs)
    refine ⟨_, lse_scales_nondegenerate p inp r hr hn hv hf s hs,
      div_nonneg (toR_vexp_nonneg _) (le_of_lt hpos), (div_le_one hpos).2 hle, ?_⟩
    rw [div_eq_zero_iff]
    constructor
    · rintro (h | h)
      · left
        have h1 := hv s hs
        cases hx : inp.lse_acc s r with
        | negInf => rfl
        | fin x =>
          rw [hx] at h
          exact absurd h (ne_of_gt (Real.exp_pos x))
        | nan => rw [hx] at h1; exact absurd h1 (by simp [IsLSE])
        | posInf => rw [hx] at h1; exact absurd h1 (by simp [IsLSE])
      · exact absurd h (ne_of_gt hpos)
    · rintro (h | h)
      · left
        rw [h]
        rfl
      · exact absurd h hall

/-- Counterexample to C26 as stated: two splits with the LSE `88` and `-88`, in `float`.  The
row is not degenerate and the LSE of split 1 is finite, `lse_logsum = 88`, and the weight of
split 1 is `exp (-88 - 88)`; the exact exponential of `-176` is below `2^-150`, half the
smallest positive binary32 number, so the value the code stores is `0`. -/
theorem C26_counterexample :
    (∀ j, j < (two_splits (fin 88) (fin (-88))).num_splits →
      IsLSE ((two_splits (fin 88) (fin (-88))).lse_acc j 0)) ∧
    (two_splits (fin 88) (fin (-88))).lse_acc 0 0 = fin 88 ∧
    (two_splits (fin 88) (fin (-88))).lse_acc 1 0 = fin (-88) ∧
    Real.exp (-176) ≤ 1 / 2 ^ 150 ∧
    lse_logsum problem_w1 (exp_underflow Real.exp) Real.log
      (two_splits (fin 88) (fin (-88))) 0 = fin 88 ∧
    lse_scales problem_w1 (exp_underflow Real.exp) Real.log
      (two_splits (fin 88) (fin (-88))) 0 1 = fin 0 ∧
    ¬ ((two_splits (fin 88) (fin (-88))).lse_acc 1 0 = negInf ∨
      ∀ j, j < (two_splits (fin 88) (fin (-88))).num_splits →
        (two_splits (fin 88) (fin (-88))).lse_acc j 0 = negInf) := by
  obtain ⟨_, hlog, _, hw⟩ := two_splits_underflow
  refine ⟨?_, rfl, rfl, exp_neg_176_le, hlog, hw, ?_⟩
  · intro j hj
    have hj2 : j < 2 := hj
    interval_cases j <;> simp [two_splits, IsLSE]
  · rintro (h | h)
    · simp [two_splits] at h
    · have h0 := h 0 (by decide)
      simp [two_splits] at h0

/-- Witness of C26: on the end-to-end scenario, split 2 (LSE `-inf`), in exact arithmetic;
and on two splits with the LSE `88` and `-88` with the exponential underflowing. -/
theorem C26_rescale_weights_bounded_witness :
    (∃ w, lse_scales problem_w4 Real.exp Real.log (scenario nan nan) 0 2 = fin w ∧ 0 ≤ w ∧
      w ≤ 1 ∧ (w = 0 ↔ ((scenario nan nan).lse_acc 2 0 = negInf ∨
        ∀ j, j < (scenario nan nan).num_splits → (scenario nan nan).lse_acc j 0 = negInf))) ∧
    ∃ w, lse_scales problem_w1 (exp_underflow Real.exp) Real.log
        (two_splits (fin 88) (fin (-88))) 0 1 = fin w ∧ 0 ≤ w ∧ w ≤ 1 :=
  ⟨(C26_rescale_weights_bounded problem_w4 (scenario nan nan) 0 2 (by decide) (by decide)
      (scenario_isLSE _ _ (isScenario_w4 nan nan)) (by decide)).2,
    have h := (C26_rescale_weights_bounded problem_w1 (two_splits (fin 88) (fin (-88))) 0 1
      (by decide) (by decide)
      (by
        intro j hj
        have hj2 : j < 2 := hj
        interval_cases j <;> simp [two_splits, IsLSE])
      (by decide)).1 (exp_underflow Real.exp) Real.log exp_underflow_props.1
        exp_underflow_props.2.1 exp_underflow_props.2.2.1 exp_underflow_props.2.2.2.1
    h.imp (fun _ hw => ⟨hw.1, hw.2.1, hw.2.2.1⟩)⟩

/-- C29. Scratch weight lookup stays inside the tile: if `num_splits ≤ kMaxSplits` and
`kNumWarps` divides `kMaxSplits`, then in every iteration of the stage-5 loop and for every
warp id `w < kNumWarps` the split index `i_split = split_start + w` is `< kMaxSplits`, and for
every row owned by warp `w` (rows in `[w * kM0, (w + 1) * kM0)`) the warp id of the row is `w`
and the row index `row - row_start` lies in `[0, kM0)`; so every index pair passed to
`lse_acc_lds` is inside the `[kM0, kMaxSplits]` tile. -/
theorem C29_scratch_lookup_in_tile (p : Problem) (n : Nat) (hn : n ≤ p.kMaxSplits)
    (hd : p.kNumWarps ∣ p.kMaxSplits) :
    (∀ split_start, split_start ∈ split_starts p n →
      ∀ w, w < p.kNumWarps → split_start + w < p.kMaxSplits) ∧
    (∀ w row, w * p.kM0 ≤ row → row < (w + 1) * p.kM0 →
      get_warp_id p row = w ∧ p.kM0 * get_warp_id p row ≤ row ∧
      row - p.kM0 * get_warp_id p row < p.kM0) ∧
    (∀ e, e ∈ lse_scale_lookups p n → e.1 < p.kM0 ∧ e.2 < p.kMaxSplits) := by
  have hpad := padded_num_splits_le_kMaxSplits p n hn hd
  refine ⟨?_, ?_, ?_⟩
  · intro s hs w hw
    obtain ⟨⟨a, rfl⟩, hlt⟩ := split_starts_spec p n s hs
    obtain ⟨b, hb⟩ : p.kNumWarps ∣ padded_num_splits p n := Dvd.intro_left _ rfl
    rw [hb] at hlt hpad
    have hab : a < b := Nat.lt_of_mul_lt_mul_left hlt
    have h1 : p.kNumWarps * (a + 1) ≤ p.kNumWarps * b := Nat.mul_le_mul_left _ hab
    rw [Nat.mul_succ] at h1
    omega
  · intro w row hlo hhi
    have hid : get_warp_id p row = w := Nat.div_eq_of_lt_le hlo hhi
    rw [hid, Nat.mul_comm p.kM0 w]
    rw [Nat.succ_mul] at hhi
    exact ⟨rfl, hlo, by omega⟩
  · intro e he
    have h := lse_scale_lookups_bound p n e he
    exact ⟨h.1, lt_of_lt_of_le h.2 hpad⟩

/-- Witness of C29 with four warps, `kMaxSplits = 4` and three splits. -/
theorem C29_scratch_lookup_in_tile_witness :
    3 ≤ problem_w4.kMaxSplits ∧ problem_w4.kNumWarps ∣ problem_w4.kMaxSplits ∧
    ∀ e, e ∈ lse_scale_lookups problem_w4 3 → e.1 < problem_w4.kM0 ∧ e.2 < problem_w4.kMaxSplits :=
  ⟨by decide, by decide, (C29_scratch_lookup_in_tile problem_w4 3 (by decide) (by decide)).2.2⟩

/-- C27 (amended). One split: for `num_splits = 1` and every row of the block with a finite
partial LSE `v0`, the pipeline yields `lse_logsum = v0` and the rescale weight `1` for split
0; the final output row is the postprocessed sum of the partial output `o_acc[0][r][:]` and,
for every padding split `s` in `[1, kNumWarps)` the accumulation loop consumes, its output
weighted by the raw LSE left in scratch; with one warp it is the postprocessed partial output
of split 0. -/
theorem C27_single_split_identity (p : Problem) (inp : Inputs ℝ) (f g : Val ℝ → Val ℝ)
    (r c : Nat) (v0 : ℝ) (hr : r < p.kM0) (hK : 1 ≤ p.kMaxSplits) (h1 : inp.num_splits = 1)
    (h0 : inp.lse_acc 0 r = fin v0) :
    lse_logsum p Real.exp Real.log inp r = fin v0 ∧
    lse_scales p Real.exp Real.log inp r 0 = fin 1 ∧
    (operator_call p Real.exp Real.log f g inp).o_acc r c
      = g (inp.o_acc r c + ∑ s in Finset.Ico 1 p.kNumWarps,
          lse_acc_lds p inp r s * inp.o_acc (s * p.kM0 + r) c) ∧
    (p.kNumWarps = 1 →
      (operator_call p Real.exp Real.log f g inp).o_acc r c = g (inp.o_acc r c)) := by
  obtain ⟨hlog, hsc, hsum⟩ := single_split_row p inp r c v0 hr hK h1 h0
  refine ⟨hlog, hsc, ?_, ?_⟩
  · show g (o_acc_sum p Real.exp Real.log inp r c) = _
    rw [hsum]
  · intro hW
    show g (o_acc_sum p Real.exp Real.log inp r c) = _
    rw [hsum, hW, Finset.Ico_self, Finset.sum_empty, add_zero]

/-- Counterexample to C27 as stated: `kNumWarps = 4`, `kMaxSplits = 4`, `num_splits = 1`, the
one split with LSE `0` and output `5`, the padding splits 1, 2, 3 with LSE `1` and output `1`.
The loop runs to `padded_num_splits = 4`, and the returned element `(0, 0)` is `8`, not the
partial output `5` of split 0. -/
theorem C27_counterexample :
    (single_split (fin 0) (fin 5) (fin 1) (fin 1)).num_splits = 1 ∧
    (single_split (fin 0) (fin 5) (fin 1) (fin 1)).lse_acc 0 0 = fin 0 ∧
    (single_split (fin 0) (fin 5) (fin 1) (fin 1)).o_acc 0 0 = fin 5 ∧
    (operator_call problem_w4 Real.exp Real.log id id
      (single_split (fin 0) (fin 5) (fin 1) (fin 1))).o_acc 0 0 = fin 8 := by
  refine ⟨rfl, rfl, rfl, ?_⟩
  show id (o_acc_sum _ _ _ _ 0 0) = _
  rw [id, (single_split_row problem_w4 (single_split (fin 0) (fin 5) (fin 1) (fin 1)) 0 0 0
    (by decide) (by decide) rfl rfl).2.2]
  have e : Finset.Ico 1 problem_w4.kNumWarps = {1, 2, 3} := by decide
  rw [e, Finset.sum_insert (by decide), Finset.sum_pair (by decide)]
  simp [lse_acc_lds, problem_w4, small_problem, single_split, mul_def, mul, add_def, add]
  norm_num

/-- Witness of C27 with one warp: the output is the partial output of the one split. -/
theorem C27_single_split_identity_witness :
    (operator_call problem_w1 Real.exp Real.log id id
      (single_split (fin 0) (fin 5) (fin 1) (fin 1))).o_acc 0 0
      = (single_split (fin 0) (fin 5) (fin 1) (fin 1)).o_acc 0 0 :=
  (C27_single_split_identity problem_w1 (single_split (fin 0) (fin 5) (fin 1) (fin 1)) id id
    0 0 0 (by decide) (by decide) rfl rfl).2.2.2 rfl

/-- C28. Shift invariance: for every real constant `k` and every row of the block, adding `k`
to every partial LSE value of the row (the values of the splits `< num_splits`) changes
`lse_logsum` to `lse_logsum + k`, a finite `L` to `L + k`, and leaves every scratch entry of
the row after stage 4, so every rescale weight, and the final output row unchanged. -/
theorem C28_shift_invariance (p : Problem) (inp : Inputs ℝ) (f g : Val ℝ → Val ℝ) (r : Nat)
    (k : ℝ) (hr : r < p.kM0) :
    (∀ s, s < inp.num_splits → (shift_lse inp r k).lse_acc s r = inp.lse_acc s r + fin k) ∧
    lse_logsum p Real.exp Real.log (shift_lse inp r k) r
      = lse_logsum p Real.exp Real.log inp r + fin k ∧
    (∀ L, lse_logsum p Real.exp Real.log inp r = fin L →
      lse_logsum p Real.exp Real.log (shift_lse inp r k) r = fin (L + k)) ∧
    (∀ s, lse_scales p Real.exp Real.log (shift_lse inp r k) r s
      = lse_scales p Real.exp Real.log inp r s) ∧
    (∀ c, (operator_call p Real.exp Real.log f g (shift_lse inp r k)).o_acc r c
      = (operator_call p Real.exp Real.log f g inp).o_acc r c) := by
  refine ⟨?_, lse_logsum_shift p _ _ inp r k hr, ?_,
    fun s => lse_scales_shift p _ _ inp r s k hr, ?_⟩
  · intro s hs
    show (if r = r ∧ s < inp.num_splits then inp.lse_acc s r + fin k else inp.lse_acc s r) = _
    rw [if_pos ⟨rfl, hs⟩]
  · intro L hL
    rw [lse_logsum_shift p _ _ inp r k hr, hL]
    rfl
  · intro c
    show g (o_acc_sum p Real.exp Real.log (shift_lse inp r k) r c)
      = g (o_acc_sum p Real.exp Real.log inp r c)
    rw [o_acc_sum_shift p _ _ inp r c k hr]

/-- Witness of C28 on the end-to-end scenario run with four warps, shifted by `5`. -/
theorem C28_shift_invariance_witness :
    lse_logsum problem_w4 Real.exp Real.log (shift_lse (scenario nan nan) 0 5) 0
      = lse_logsum problem_w4 Real.exp Real.log (scenario nan nan) 0 + fin 5 :=
  (C28_shift_invariance problem_w4 (scenario nan nan) id id 0 5 (by decide)).2.1

/-- C21 (amended). Occupancy selection `kBlockPerCu`: when `Problem::kBlockPerCu` is not `-1`
the result is exactly `Problem::kBlockPerCu`; when it is `-1` the result is the entry
`log2<kMaxSplits> - 2` of the bucket table for `kHeadDimV ≤ 32`, `≤ 128` or `≤ 256`, and for
`kHeadDimV > 256` no value is produced; the lookup returns `none` if and only if
`Problem::kBlockPerCu = -1` and either `kHeadDimV > 256` or `kMaxSplits` is none of
`4, 8, 16, 32, 64, 128`, the values for which `detail::log2` is defined. -/
theorem C21_occupancy_selection (b h m : Int) :
    (b ≠ -1 → kBlockPerCu b h m = some b) ∧
    (b = -1 → h ≤ 32 → kBlockPerCu b h m
      = (detail.log2 m).bind (fun v => occupancy_at [3, 3, 3, 3, 3, 1] (v - 2))) ∧
    (b = -1 → 32 < h → h ≤ 128 → kBlockPerCu b h m
      = (detail.log2 m).bind (fun v => occupancy_at [3, 3, 3, 3, 2, 1] (v - 2))) ∧
    (b = -1 → 128 < h → h ≤ 256 → kBlockPerCu b h m
      = (detail.log2 m).bind (fun v => occupancy_at [2, 2, 2, 2, 2, 1] (v - 2))) ∧
    (b = -1 → 256 < h → kBlockPerCu b h m = none) ∧
    (detail.log2 m = none ↔ (m ≠ 4 ∧ m ≠ 8 ∧ m ≠ 16 ∧ m ≠ 32 ∧ m ≠ 64 ∧ m ≠ 128)) ∧
    (kBlockPerCu b h m = none ↔
      (b = -1 ∧ (256 < h ∨ (m ≠ 4 ∧ m ≠ 8 ∧ m ≠ 16 ∧ m ≠ 32 ∧ m ≠ 64 ∧ m ≠ 128)))) := by
  have hlog : detail.log2 m = none ↔
      (m ≠ 4 ∧ m ≠ 8 ∧ m ≠ 16 ∧ m ≠ 32 ∧ m ≠ 64 ∧ m ≠ 128) := by
    unfold detail.log2
    split_ifs <;> simp_all
  have hsome : ∀ t : List Int, t.length = 6 →
      ((detail.log2 m).bind (fun v => occupancy_at t (v - 2)) = none ↔ detail.log2 m = none) := by
    intro t ht
    match t, ht with
    | [t0, t1, t2, t3, t4, t5], _ =>
      unfold detail.log2
      split_ifs <;> simp [occupancy_at]
  refine ⟨?_, ?_, ?_, ?_, ?_, hlog, ?_⟩
  · intro hb
    simp [kBlockPerCu, hb]
  · intro hb h1
    simp [kBlockPerCu, hb, h1]
  · intro hb h1 h2
    simp [kBlockPerCu, hb, not_le.2 h1, h2]
  · intro hb h1 h2
    have h3 : ¬ h ≤ 32 := by omega
    simp [kBlockPerCu, hb, h3, not_le.2 h1, h2]
  · intro hb h1
    have h2 : ¬ h ≤ 32 := by omega
    have h3 : ¬ h ≤ 128 := by omega
    simp [kBlockPerCu, hb, h2, h3, not_le.2 h1]
  · rw [← hlog]
    unfold kBlockPerCu
    by_cases hb : b = -1
    · simp only [hb, ne_eq, not_true_eq_false, if_false, true_and]
      by_cases h1 : h ≤ 32
      · rw [if_pos h1, hsome [3, 3, 3, 3, 3, 1] rfl]
        constructor
        · exact fun x => Or.inr x
        · rintro (x | x)
          · omega
          · exact x
      · by_cases h2 : h ≤ 128
        · rw [if_neg h1, if_pos h2, hsome [3, 3, 3, 3, 2, 1] rfl]
          constructor
          · exact fun x => Or.inr x
          · rintro (x | x)
            · omega
            · exact x
        · by_cases h3 : h ≤ 256
          · rw [if_neg h1, if_neg h2, if_pos h3, hsome [2, 2, 2, 2, 2, 1] rfl]
            constructor
            · exact fun x => Or.inr x
            · rintro (x | x)
              · omega
              · exact x
          · rw [if_neg h1, if_neg h2, if_neg h3]
            exact ⟨fun _ => Or.inl (by omega), fun _ => rfl⟩
    · simp [hb]

/-- Counterexample to C21 as stated: with `Problem::kBlockPerCu = -1`, `kHeadDimV = 32` and
`kMaxSplits = 2` the lookup produces no value, `detail::log2<2>` having no member `value`,
although `kHeadDimV` is not above `256`. -/
theorem C21_counterexample :
    kBlockPerCu (-1) 32 2 = none ∧ ¬ ((-1 : Int) = -1 ∧ (256 : Int) < 32) := by
  decide

end claims

section permute_claims

open hip_tensor_permute

/-- C15. The host reference `host_elementwise4D` is a pure axis permutation: for every input
tensor `A` of lengths `(W, H, C, N)`, a `B` of lengths `(C, N, H, W)` and `PassThrough`
functors, after the call `B(c, n, h, w) = A(w, h, c, n)` for every `w < W`, `h < H`, `c < C`,
`n < N`; every element of the buffer of `B` is written exactly once and nothing outside it is
written; and every element of `A` is copied to exactly one element of `B`. -/
theorem C15_host_elementwise4D_permutation {α : Type} (A B : Tensor α)
    (hl0 : B.l0 = A.l2) (hl1 : B.l1 = A.l3) (hl2 : B.l2 = A.l1) (hl3 : B.l3 = A.l0) :
    (∀ w h c n, w < A.l0 → h < A.l1 → c < A.l2 → n < A.l3 →
      (host_elementwise4D B A PassThrough PassThrough).mData (B.offset c n h w)
        = A.get w h c n) ∧
    (∀ x, x < B.size →
      (host_elementwise4D B A PassThrough PassThrough).stores.count x = 1) ∧
    (∀ x, B.size ≤ x →
      (host_elementwise4D B A PassThrough PassThrough).stores.count x = 0 ∧
      (host_elementwise4D B A PassThrough PassThrough).mData x = B.mData x) ∧
    (∀ y, y < A.size → ∃! x, x < B.size ∧
      ∃ w h c n, w < A.l0 ∧ h < A.l1 ∧ c < A.l2 ∧ n < A.l3 ∧
        A.offset w h c n = y ∧ B.offset c n h w = x ∧
        (host_elementwise4D B A PassThrough PassThrough).mData x = A.mData y) := by
  obtain ⟨hnd, hmem, hval, hout⟩ :=
    host_elementwise4D_spec B A PassThrough PassThrough hl0 hl1 hl2 hl3
  refine ⟨hval, ?_, ?_, ?_⟩
  · intro x hx
    exact List.count_eq_one_of_mem hnd ((hmem x).2 hx)
  · intro x hx
    refine ⟨List.count_eq_zero.2 (fun h => ?_), hout x hx⟩
    have := (hmem x).1 h
    omega
  · intro y hy
    obtain ⟨w, h, c, n, b0, b1, b2, b3, rfl⟩ := offset_surj A y hy
    refine ⟨B.offset c n h w,
      ⟨offset_lt B c n h w (hl0 ▸ b2) (hl1 ▸ b3) (hl2 ▸ b1) (hl3 ▸ b0),
        w, h, c, n, b0, b1, b2, b3, rfl, rfl, hval w h c n b0 b1 b2 b3⟩, ?_⟩
    rintro x ⟨-, w', h', c', n', -, k1, k2, k3, e, rfl, -⟩
    obtain ⟨e0, e1, e2, e3⟩ := offset_inj A w' h' c' n' w h c n k1 k2 k3 b1 b2 b3 e
    subst e0 e1 e2 e3
    rfl

/-- Witness of C15 on the tensors of `main`: `host_b(0, 0, 0, 1) = a(1, 0, 0, 0)`, which is
element `40` of the `iota` data. -/
theorem C15_host_elementwise4D_permutation_witness :
    (main_b (fun _ => (0 : ℚ))).l0 = (main_a iota).l2 ∧
    (main_b (fun _ => (0 : ℚ))).l1 = (main_a iota).l3 ∧
    (main_b (fun _ => (0 : ℚ))).l2 = (main_a iota).l1 ∧
    (main_b (fun _ => (0 : ℚ))).l3 = (main_a iota).l0 ∧
    (host_elementwise4D (main_b (fun _ => (0 : ℚ))) (main_a iota) PassThrough
      PassThrough).mData ((main_b (fun _ => (0 : ℚ))).offset 0 0 0 1)
      = (main_a iota).get 1 0 0 0 :=
  ⟨rfl, rfl, rfl, rfl,
    (C15_host_elementwise4D_permutation (main_a iota) (main_b (fun _ => (0 : ℚ)))
      rfl rfl rfl rfl).1 1 0 0 0 (by decide) (by decide) (by decide) (by decide)⟩

/-- C14. The verification of the permute example, evaluated on the data of `main`: with
lengths `{3, 2, 4, 5}`, `a_strides = {1, 3, 6, 24}` and `b_strides = {40, 20, 1, 4}` the
strided `PassThrough` copy stores `a[6]` at offset `1` of `b`, while `host_elementwise4D` on
the packed row-major tensors stores `a[40]` at offset `1` of `host_b`; on the `iota` data the
two buffers hold `6` and `40` there, further apart than the tolerance `1e-3 + 1e-3 * |ref|`
of the `check_err` call. -/
theorem C14_permute_verification_diverges :
    (∀ (α : Type) (a b : Nat → α), main_device_b a b 1 = a 6 ∧ main_host_b a b 1 = a 40) ∧
    main_device_b iota (fun _ => 0) 1 = 6 ∧
    main_host_b iota (fun _ => 0) 1 = 40 ∧
    main_device_b iota (fun _ => 0) 1 ≠ main_host_b iota (fun _ => 0) 1 ∧
    1 / 1000 + 1 / 1000 * |main_host_b iota (fun _ => 0) 1|
      < |main_device_b iota (fun _ => 0) 1 - main_host_b iota (fun _ => 0) 1| := by
  have hd : main_device_b iota (fun _ => 0) 1 = 6 := by
    rw [main_device_b_one]
    simp [iota]
  have hh : main_host_b iota (fun _ => 0) 1 = 40 := by
    rw [main_host_b_one]
    simp [iota]
  refine ⟨fun α a b => ⟨main_device_b_one a b, main_host_b_one a b⟩, hd, hh, ?_, ?_⟩
  · rw [hd, hh]
    norm_num
  · rw [hd, hh]
    norm_num [abs_of_nonneg, abs_of_neg]

end permute_claims

section elementwise_claims

open ck ck.tensor_operation.element_wise Val

/-- C22. The function `pki4_to_half4` decodes packed int4 with bias 8: for every 32-bit `q`
with nibbles `n_i = (q >> 4 i) & 0xF`, and every rounding to binary16 that keeps binary16
values, the four returned half values are exactly `[n_0 - 8, n_4 - 8, n_1 - 8, n_5 - 8]`;
the low-bit pair is `(1024 + n) - 1032` and the high-bit pair is `(1024 + 16 n) * (1/16) - 72`,
and every output is an integer in `[-8, 7]` and a binary16 value. -/
theorem C22_pki4_to_half4_decodes (rnd : ℚ → Val ℚ) (hr : half_t.IsRounding rnd) (q : Int) :
    pki4_to_half4 rnd q
      = [fin ((nibble q 0 : ℚ) - 8), fin ((nibble q 4 : ℚ) - 8),
         fin ((nibble q 1 : ℚ) - 8), fin ((nibble q 5 : ℚ) - 8)] ∧
    half2_t.of_bits (int_bits (amd_assembly_and_or_b32 q 0x000f000f 0x64006400))
      = (fin (1024 + (nibble q 0 : ℚ)), fin (1024 + (nibble q 4 : ℚ))) ∧
    half2_t.of_bits (int_bits (amd_assembly_and_or_b32 q 0x00f000f0 0x64006400))
      = (fin (1024 + 16 * (nibble q 1 : ℚ)), fin (1024 + 16 * (nibble q 5 : ℚ))) ∧
    half2_t.of_bits (int_bits (bit_cast_int 0xE408E408)) = (fin (-1032), fin (-1032)) ∧
    half2_t.of_bits (int_bits 0x2c002c00) = (fin (1 / 16), fin (1 / 16)) ∧
    half2_t.of_bits (int_bits (bit_cast_int 0xd480d480)) = (fin (-72), fin (-72)) ∧
    (∀ v, v ∈ pki4_to_half4 rnd q →
      ∃ z : Int, -8 ≤ z ∧ z ≤ 7 ∧ v = fin (z : ℚ) ∧ ∃ bits, half_t.value bits = v) := by
  obtain ⟨_, _, _, cMUL, cSUB, cADD⟩ := int_bits_consts
  obtain ⟨vSUB, vMUL, vADD, _, _⟩ := half_value_consts
  have hn := nibble_lt q
  have hint : ∀ n : Nat, n < 16 →
      ∃ z : Int, -8 ≤ z ∧ z ≤ 7 ∧ (fin ((n : ℚ) - 8) : Val ℚ) = fin (z : ℚ) ∧
        ∃ bits, half_t.value bits = (fin ((n : ℚ) - 8) : Val ℚ) := by
    intro n h
    have e : ((n : ℚ) - 8) = (((n : Int) - 8 : Int) : ℚ) := by push_cast; rfl
    refine ⟨(n : Int) - 8, by omega, by omega, by rw [e], ?_⟩
    rw [e]
    exact half_value_int _ (by rw [abs_lt]; omega)
  refine ⟨pki4_to_half4_eq rnd hr q, ?_, ?_, ?_, ?_, ?_, ?_⟩
  · rw [and_or_lo_bits, of_bits_halves _ _ (by have := hn 4; omega) (by have := hn 0; omega),
      half_value_6400 _ (by have := hn 0; omega), half_value_6400 _ (by have := hn 4; omega)]
  · rw [and_or_hi_bits, of_bits_halves _ _ (by have := hn 5; omega) (by have := hn 1; omega),
      half_value_6400 _ (by have := hn 1; omega), half_value_6400 _ (by have := hn 5; omega)]
    push_cast
    rfl
  · rw [cSUB, of_bits_halves 0xE408 0xE408 (by norm_num) (by norm_num), vSUB]
  · rw [cMUL, of_bits_halves 0x2c00 0x2c00 (by norm_num) (by norm_num), vMUL]
  · rw [cADD, of_bits_halves 0xd480 0xd480 (by norm_num) (by norm_num), vADD]
  · intro v hv
    rw [pki4_to_half4_eq rnd hr q] at hv
    simp only [List.mem_cons, List.mem_singleton, List.not_mem_nil, or_false] at hv
    rcases hv with rfl | rfl | rfl | rfl
    · exact hint _ (hn 0)
    · exact hint _ (hn 4)
    · exact hint _ (hn 1)
    · exact hint _ (hn 5)

/-- Witness of C22 in exact arithmetic on the word `0x76543210`. -/
theorem C22_pki4_to_half4_decodes_witness :
    half_t.IsRounding half_t.exact ∧
    pki4_to_half4 half_t.exact 0x76543210
      = [fin ((nibble 0x76543210 0 : ℚ) - 8), fin ((nibble 0x76543210 4 : ℚ) - 8),
         fin ((nibble 0x76543210 1 : ℚ) - 8), fin ((nibble 0x76543210 5 : ℚ) - 8)] :=
  ⟨isRounding_exact, (C22_pki4_to_half4_decodes half_t.exact isRounding_exact 0x76543210).1⟩

/-- C23. The operation `FastGelu` matches its documented `tanh` form: in exact real
arithmetic, for every real `x` the host `FastGelu<float, float>` result `x / (1 + exp u)` with
`u = x * (-2 * 0.035677 * x * x - 2 * 0.797885)` equals `0.5 * x * (1 + tanh z)` with
`z = 0.797885 * x + 0.035677 * x^3`; the constants are `sqrt(2/pi)` and `sqrt(2/pi) * 0.044715`
rounded to six decimals, so this is the documented
`y = 0.5 * x * (1 + tanh(sqrt(2/pi) * (x + 0.044715 * x^3)))` with the rounded constants; the
device variant `x * rcp(1 + exp u)` denotes the same real value. -/
theorem C23_FastGelu_tanh_form :
    (∀ x : ℝ, FastGelu.operator_call_host Real.exp x
      = x / (1 + Real.exp (x * (-2 * 0.035677 * x * x + -2 * 0.797885)))) ∧
    (∀ x : ℝ, FastGelu.operator_call_host Real.exp x
      = 0.5 * x * (1 + Real.tanh (0.797885 * x + 0.035677 * x ^ 3))) ∧
    |Real.sqrt (2 / Real.pi) - 0.797885| ≤ 0.0000005 ∧
    |Real.sqrt (2 / Real.pi) * 0.044715 - 0.035677| ≤ 0.0000005 ∧
    (∀ x : ℝ, FastGelu.operator_call_device Real.exp x
      = FastGelu.operator_call_host Real.exp x) := by
  obtain ⟨h1, h2⟩ := sqrt_two_div_pi_bounds
  refine ⟨?_, FastGelu_host_eq_tanh, ?_, ?_, FastGelu_device_eq_host Real.exp⟩
  · intro x
    unfold FastGelu.operator_call_host
    norm_num
  · rw [abs_le]
    constructor <;> linarith
  · rw [abs_le]
    constructor <;> linarith

/-- C24. The converter `FastNumericArrayConverter<uint8_t, half_t, N>` converts biased bytes
to binary16 in order: for every `N` that is a multiple of 4, every input array of `N` bytes
`u_0 .. u_{N-1}` and every rounding to binary16 that keeps binary16 values, the output has
`N` elements and element `i` is exactly `u_i - 128` for every `i < N` (the byte is spliced
into `0x64uu = 1024 + u` and `0x6480 = 1152` is subtracted), an integer in `[-128, 127]` and a
binary16 value; the element order is that of the input across the 4-wide groups. -/
theorem C24_fast_converter_u8_to_half (rnd : ℚ → Val ℚ) (hr : half_t.IsRounding rnd) (N : Nat)
    (Input : Nat → Nat) (hN : N % 4 = 0) :
    FastNumericArrayConverter.convert rnd N Input
      = some ((List.range N).map (fun i => fin (((Input i % 256 : Nat) : ℚ) - 128))) ∧
    (∃ out, FastNumericArrayConverter.convert rnd N Input = some out ∧ out.length = N ∧
      ∀ i, i < N → out[i]? = some (fin (((Input i % 256 : Nat) : ℚ) - 128)) ∧
        ∃ z : Int, -128 ≤ z ∧ z ≤ 127 ∧ out[i]? = some (fin (z : ℚ)) ∧
          ∃ bits, half_t.value bits = fin (z : ℚ)) ∧
    half2_t.of_bits (__builtin_amdgcn_perm 0x64646464
        (FastNumericArrayConverter.uint8_4 Input) 0x05010500)
      = (fin (1024 + ((Input 0 % 256 : Nat) : ℚ)), fin (1024 + ((Input 1 % 256 : Nat) : ℚ))) ∧
    half2_t.of_bits (__builtin_amdgcn_perm 0x64646464
        (FastNumericArrayConverter.uint8_4 Input) 0x05030502)
      = (fin (1024 + ((Input 2 % 256 : Nat) : ℚ)), fin (1024 + ((Input 3 % 256 : Nat) : ℚ))) ∧
    half2_t.of_bits 0x64806480 = (fin 1152, fin 1152) := by
  have hconv := convert_eq rnd hr N Input hN
  have h0 : FastNumericArrayConverter.uint8_4 Input % 256 = Input 0 % 256 := by
    unfold FastNumericArrayConverter.uint8_4
    omega
  have h1 : FastNumericArrayConverter.uint8_4 Input / 256 % 256 = Input 1 % 256 := by
    unfold FastNumericArrayConverter.uint8_4
    omega
  have h2 : FastNumericArrayConverter.uint8_4 Input / 65536 % 256 = Input 2 % 256 := by
    unfold FastNumericArrayConverter.uint8_4
    omega
  have h3 : FastNumericArrayConverter.uint8_4 Input / 16777216 % 256 = Input 3 % 256 := by
    unfold FastNumericArrayConverter.uint8_4
    omega
  refine ⟨hconv, ⟨_, hconv, by simp, ?_⟩, ?_, ?_, ?_⟩
  · intro i hi
    have hget : ((List.range N).map
        (fun i => (fin (((Input i % 256 : Nat) : ℚ) - 128) : Val ℚ)))[i]?
        = some (fin (((Input i % 256 : Nat) : ℚ) - 128)) := by
      rw [List.getElem?_map, List.getElem?_range hi]
      rfl
    have e : (((Input i % 256 : Nat) : ℚ) - 128) = ((((Input i % 256 : Nat) : Int) - 128 : Int) : ℚ) := by
      push_cast
      rfl
    refine ⟨hget, ((Input i % 256 : Nat) : Int) - 128, by omega, by omega, ?_, ?_⟩
    · rw [hget, e]
    · exact half_value_int _ (by rw [abs_lt]; omega)
  · rw [perm_01, h0, h1, of_bits_halves _ _ (by omega) (by omega),
      half_value_6400 _ (by omega), half_value_6400 _ (by omega)]
  · rw [perm_23, h2, h3, of_bits_halves _ _ (by omega) (by omega),
      half_value_6400 _ (by omega), half_value_6400 _ (by omega)]
  · rw [of_bits_halves 0x6480 0x6480 (by norm_num) (by norm_num),
      half_value_consts.2.2.2.1]

/-- Witness of C24 in exact arithmetic: eight bytes `0, 37, 74, ...`. -/
theorem C24_fast_converter_u8_to_half_witness :
    half_t.IsRounding half_t.exact ∧ 8 % 4 = 0 ∧
    FastNumericArrayConverter.convert half_t.exact 8 (fun i => 37 * i)
      = some ((List.range 8).map (fun i => fin (((37 * i % 256 : Nat) : ℚ) - 128))) :=
  ⟨isRounding_exact, rfl,
    (C24_fast_converter_u8_to_half half_t.exact isRounding_exact 8 (fun i => 37 * i) rfl).1⟩

/-- C30. The operator `PassThroughPack8` to `half8_t` decodes every nibble exactly once: for
every `pk_i4x4_t` `x` viewed as a 32-bit word with nibbles `n_0 .. n_7` (`n_i` the bits
`4 i .. 4 i + 3`), and every rounding to binary16 that keeps binary16 values, the eight
outputs are exactly `[n_0, n_4, n_1, n_5, n_2, n_6, n_3, n_7]` each minus 8, whatever the sign
bit of `x`: the second half is what a shift with zero fill gives, the arithmetic shift
`bit_cast<int>(x) >> 8` not reaching any decoded nibble. -/
theorem C30_PassThroughPack8_decodes (rnd : ℚ → Val ℚ) (hr : half_t.IsRounding rnd) (x : Nat) :
    PassThroughPack8.operator_call_half8 rnd x
      = [0, 4, 1, 5, 2, 6, 3, 7].map (fun i => fin ((nibble (bit_cast_int x) i : ℚ) - 8)) ∧
    (∀ i, nibble (bit_cast_int x) i = x % 4294967296 / 16 ^ i % 16) ∧
    List.Perm [0, 4, 1, 5, 2, 6, 3, 7] (List.range 8) ∧
    pki4_to_half4 rnd (bit_cast_int x >>> (8 : Nat))
      = pki4_to_half4 rnd (bit_cast_int (x % 4294967296 / 256)) := by
  refine ⟨PassThroughPack8_eq rnd hr x, nibble_bit_cast_int x, by decide, ?_⟩
  obtain ⟨a0, a1, a4, a5⟩ := nibble_shift8 (bit_cast_int x)
  obtain ⟨b0, b1, b4, b5⟩ := nibble_logical_shift8 x
  rw [pki4_to_half4_eq rnd hr, pki4_to_half4_eq rnd hr, a0, a1, a4, a5, b0, b1, b4, b5]

/-- Witness of C30 in exact arithmetic on a word with the sign bit set. -/
theorem C30_PassThroughPack8_decodes_witness :
    half_t.IsRounding half_t.exact ∧
    PassThroughPack8.operator_call_half8 half_t.exact 0xFEDCBA98
      = [0, 4, 1, 5, 2, 6, 3, 7].map
          (fun i => fin ((nibble (bit_cast_int 0xFEDCBA98) i : ℚ) - 8)) :=
  ⟨isRounding_exact,
    (C30_PassThroughPack8_decodes half_t.exact isRounding_exact 0xFEDCBA98).1⟩

/-- C31. The fast path of `pki4_to_half2` equals its reference branch: for every byte value
`x` of `pk_i4_t` and every rounding to binary16 that keeps binary16 values, the enabled
bit-trick implementation (the nibbles spliced into the half-words `0x6400 | n`, then `-1032`
added in each element) returns the same two half values as the disabled `#else` branch,
namely element 0 = (high nibble of `x`) - 8 and element 1 = (low nibble of `x`) - 8. -/
theorem C31_pki4_to_half2_fast_path (rnd : ℚ → Val ℚ) (hr : half_t.IsRounding rnd) (q : Nat) :
    pki4_to_half2 rnd q = pki4_to_half2_else rnd q ∧
    pki4_to_half2 rnd q
      = (fin (((q % 256 / 16 : Nat) : ℚ) - 8), fin (((q % 16 : Nat) : ℚ) - 8)) ∧
    pki4_to_half2_else rnd q
      = (fin (((q % 256 / 16 : Nat) : ℚ) - 8), fin (((q % 16 : Nat) : ℚ) - 8)) ∧
    (q % 256 &&& 0xf0) >>> 4 = q % 256 / 16 ∧ q % 256 &&& 0x0f = q % 16 ∧
    ((((q % 256 &&& 0x0f) <<< 16) ||| ((q % 256 &&& 0xf0) >>> 4)) % 4294967296) ||| 0x64006400
      = 65536 * (0x6400 + q % 16) + (0x6400 + q % 256 / 16) := by
  have hx : q % 256 < 256 := Nat.mod_lt _ (by norm_num)
  have h16 : q % 256 % 16 = q % 16 := by omega
  refine ⟨?_, pki4_to_half2_eq rnd hr q, pki4_to_half2_else_eq rnd hr q,
    byte_high_nibble _ hx, ?_, ?_⟩
  · rw [pki4_to_half2_eq rnd hr q, pki4_to_half2_else_eq rnd hr q]
  · rw [byte_and_low _ hx, h16]
  · rw [byte_splice _ hx, h16]

/-- Witness of C31 in exact arithmetic on the byte `0xA7`. -/
theorem C31_pki4_to_half2_fast_path_witness :
    half_t.IsRounding half_t.exact ∧
    pki4_to_half2 half_t.exact 0xA7 = pki4_to_half2_else half_t.exact 0xA7 :=
  ⟨isRounding_exact, (C31_pki4_to_half2_fast_path half_t.exact isRounding_exact 0xA7).1⟩

end elementwise_claims

section occupancy_claims

open BlockFmhaFwdSplitKVCombinePipeline

/-- C32. The occupancy table lookup is in bounds: for every `kMaxSplits` in
`{4, 8, 16, 32, 64, 128}`, `detail::log2<kMaxSplits>::value` satisfies
`2^value = kMaxSplits`, the index `value - 2` lies in `[0, 5]` and so inside every six-entry
occupancy array, and for each head-dimension bucket (`kHeadDimV ≤ 32`, `≤ 128`, `≤ 256`, with
`Problem::kBlockPerCu = -1`) the selected occupancy is in `{1, 2, 3}`, does not increase as
`kMaxSplits` grows, and equals 1 for `kMaxSplits = 128`. -/
theorem C32_occupancy_lookup_in_bounds :
    (∀ m, m ∈ ([4, 8, 16, 32, 64, 128] : List Int) →
      ∃ v : Int, detail.log2 m = some v ∧ (2 : Int) ^ v.toNat = m ∧ 0 ≤ v - 2 ∧ v - 2 ≤ 5) ∧
    (∀ t : List Int, t.length = 6 → ∀ m, m ∈ ([4, 8, 16, 32, 64, 128] : List Int) →
      ∃ v o, detail.log2 m = some v ∧ (v - 2).toNat < t.length ∧
        occupancy_at t (v - 2) = some o) ∧
    (∀ h : Int, h ≤ 256 → ∀ m, m ∈ ([4, 8, 16, 32, 64, 128] : List Int) →
      ∃ o, kBlockPerCu (-1) h m = some o ∧ (o = 1 ∨ o = 2 ∨ o = 3)) ∧
    (∀ h : Int, h ≤ 256 → ∀ m, m ∈ ([4, 8, 16, 32, 64, 128] : List Int) →
      ∀ m', m' ∈ ([4, 8, 16, 32, 64, 128] : List Int) → m ≤ m' →
        ∃ o o', kBlockPerCu (-1) h m = some o ∧ kBlockPerCu (-1) h m' = some o' ∧ o' ≤ o) ∧
    (∀ h : Int, h ≤ 256 → kBlockPerCu (-1) h 128 = some 1) ∧
    (∀ h : Int, h ≤ 32 → [4, 8, 16, 32, 64, 128].map (kBlockPerCu (-1) h)
      = [some 3, some 3, some 3, some 3, some 3, some 1]) ∧
    (∀ h : Int, 32 < h → h ≤ 128 → [4, 8, 16, 32, 64, 128].map (kBlockPerCu (-1) h)
      = [some 3, some 3, some 3, some 3, some 2, some 1]) ∧
    (∀ h : Int, 128 < h → h ≤ 256 → [4, 8, 16, 32, 64, 128].map (kBlockPerCu (-1) h)
      = [some 2, some 2, some 2, some 2, some 2, some 1]) := by
  obtain ⟨l4, l8, l16, l32, l64, l128⟩ := log2_table
  have hrow : ∀ h : Int, h ≤ 256 →
      (∀ m, m ∈ ([4, 8, 16, 32, 64, 128] : List Int) →
        ∃ o, kBlockPerCu (-1) h m = some o ∧ (o = 1 ∨ o = 2 ∨ o = 3)) ∧
      (∀ m, m ∈ ([4, 8, 16, 32, 64, 128] : List Int) →
        ∀ m', m' ∈ ([4, 8, 16, 32, 64, 128] : List Int) → m ≤ m' →
          ∃ o o', kBlockPerCu (-1) h m = some o ∧ kBlockPerCu (-1) h m' = some o' ∧ o' ≤ o) ∧
      kBlockPerCu (-1) h 128 = some 1 := by
    intro h hh
    obtain ⟨r1, r2, r3⟩ := kBlockPerCu_rows h
    by_cases h1 : h ≤ 32
    · exact occupancy_row_props _ 3 3 3 3 3 (r1 h1) (by decide)
    · by_cases h2 : h ≤ 128
      · exact occupancy_row_props _ 3 3 3 3 2 (r2 (by omega) h2) (by decide)
      · exact occupancy_row_props _ 2 2 2 2 2 (r3 (by omega) hh) (by decide)
  refine ⟨?_, ?_, fun h hh => (hrow h hh).1, fun h hh => (hrow h hh).2.1,
    fun h hh => (hrow h hh).2.2, fun h => (kBlockPerCu_rows h).1,
    fun h => (kBlockPerCu_rows h).2.1, fun h => (kBlockPerCu_rows h).2.2⟩
  · intro m hm
    simp only [List.mem_cons, List.mem_singleton, List.not_mem_nil, or_false] at hm
    rcases hm with rfl | rfl | rfl | rfl | rfl | rfl
    · exact ⟨2, l4, by decide, by decide, by decide⟩
    · exact ⟨3, l8, by decide, by decide, by decide⟩
    · exact ⟨4, l16, by decide, by decide, by decide⟩
    · exact ⟨5, l32, by decide, by decide, by decide⟩
    · exact ⟨6, l64, by decide, by decide, by decide⟩
    · exact ⟨7, l128, by decide, by decide, by decide⟩
  · intro t ht m hm
    match t, ht with
    | [t0, t1, t2, t3, t4, t5], _ =>
      simp only [List.mem_cons, List.mem_singleton, List.not_mem_nil, or_false] at hm
      rcases hm with rfl | rfl | rfl | rfl | rfl | rfl
      · exact ⟨2, t0, l4, (by decide : (0 : Nat) < 6), by simp [occupancy_at]⟩
      · exact ⟨3, t1, l8, (by decide : (1 : Nat) < 6), by simp [occupancy_at]⟩
      · exact ⟨4, t2, l16, (by decide : (2 : Nat) < 6), by simp [occupancy_at]⟩
      · exact ⟨5, t3, l32, (by decide : (3 : Nat) < 6), by simp [occupancy_at]⟩
      · exact ⟨6, t4, l64, (by decide : (4 : Nat) < 6), by simp [occupancy_at]⟩
      · exact ⟨7, t5, l128, (by decide : (5 : Nat) < 6), by simp [occupancy_at]⟩

end occupancy_claims

end ck_tile
